import Mathlib

/-!
Verification of the core relational model and graph algorithms of the
family-tree application (app.js): lookup-index construction with gender
inference, ego-subgraph extraction, BFS ancestor/descendant path engines,
the kinship resolver, date helpers and the upcoming-birthday scanner.

JS semantics are modelled as follows.
* A JS Map (and a plain object used as a dictionary with non-numeric string
  keys) is an insertion-ordered association list: setting an existing key
  updates the value in place, setting a new key appends.  Iteration
  (forEach, for..in, Object.keys) follows that order.  All keys used by the
  program (person ids such as I0112, formatted date strings) are
  non-numeric strings, for which JS guarantees insertion order.
* A missing/undefined field is the empty string (the data adapter
  initialises fid and mid to the empty string, and every use in the code is
  a truthiness test, for which undefined, null and the empty string agree).
* The while-loops of the BFS engines are translated with an explicit fuel
  argument so that the functions stay structurally recursive and
  computable by the kernel; the fuel bound chosen is proved sufficient
  (the loop never exhausts it), which is the termination argument of the
  source.
-/

namespace FamilyTree

/-- Insertion-ordered string-keyed map, the model of a JS Map / dictionary
object. -/
abbrev JsMap (α : Type) : Type := List (String × α)

/-- Map.get / obj[k]: the value at the first (and only) entry with key k. -/
def jget {α : Type} (m : JsMap α) (k : String) : Option α :=
  (m.find? (fun p => p.1 == k)).map (fun p => p.2)

/-- Map.has(k). -/
def jhas {α : Type} (m : JsMap α) (k : String) : Bool :=
  m.any (fun p => p.1 == k)

/-- Map.set / obj[k] = v: update in place if the key exists, else append. -/
def jset {α : Type} (m : JsMap α) (k : String) (v : α) : JsMap α :=
  if m.any (fun p => p.1 == k) then
    m.map (fun p => if p.1 == k then (k, v) else p)
  else
    m ++ [(k, v)]

/-- A person record, in the shape produced by the data adapter
(loadNewDatabase): id, name, father id (fid), mother id (mid), partner ids
(pids), birth string, plus opaque contact fields.  Absent fid/mid is the
empty string. -/
structure Person where
  id : String
  name : String := ""
  fid : String := ""
  mid : String := ""
  pids : List String := []
  Birth : String := ""
  phone : String := ""
  email : String := ""
  note : String := ""
  Address : String := ""
  image_url : String := ""
deriving Repr, DecidableEq

/-- The record store: the three lookup maps built by buildLookups. -/
structure Store where
  peopleMap : JsMap Person := []
  childrenMap : JsMap (List String) := []
  genderMap : JsMap String := []
deriving Repr, DecidableEq

/-! ### String comparison (the JS default sort order)

JS compares strings code-unit-wise; for the id and date strings involved
this is the ordinary lexicographic order, which coincides with the order
on Lean strings.  We use an executable Boolean comparison. -/

/-- Lexicographic strict comparison of char lists by code point. -/
def strLtAux : List Char → List Char → Bool
  | [], [] => false
  | [], _ :: _ => true
  | _ :: _, [] => false
  | c :: cs, d :: ds =>
    if c.toNat < d.toNat then true
    else if d.toNat < c.toNat then false
    else strLtAux cs ds

/-- Executable strict lexicographic order on strings. -/
def strLtB (a b : String) : Bool := strLtAux a.data b.data

/-- Executable lexicographic order on strings (the order JS default sort
uses). -/
def strLeB (a b : String) : Bool := !(strLtB b a)

/-- Array.prototype.sort() on an array of strings: sorts by the default
lexicographic comparison.  Insertion sort computes the same (unique)
sorted permutation. -/
def jsSortStrings (l : List String) : List String :=
  List.insertionSort (fun a b => strLeB a b = true) l

/-! ### buildLookups: index construction and gender inference -/

/-- The addChild helper of buildLookups: push childId onto
childrenMap[parentKey], creating the entry first if absent. -/
def addChild (m : JsMap (List String)) (parentKey childId : String) :
    JsMap (List String) :=
  let m := if jhas m parentKey then m else jset m parentKey []
  jset m parentKey ((jget m parentKey).getD [] ++ [childId])

/-- The childrenMap updates of one record: push its id onto the father's
children (when fid is truthy) and onto the mother's children (when mid is
truthy). -/
def childStep (cm : JsMap (List String)) (person : Person) : JsMap (List String) :=
  let cm := if person.fid ≠ "" then addChild cm person.fid person.id else cm
  if person.mid ≠ "" then addChild cm person.mid person.id else cm

/-- First pass of buildLookups: populate peopleMap and push every record
onto its father's and mother's children lists. -/
def buildMaps (records : List Person) : JsMap Person × JsMap (List String) :=
  records.foldl
    (fun maps person => (jset maps.1 person.id person, childStep maps.2 person))
    ([], [])

/-- After populating, every children array is sorted in place by id. -/
def sortChildren (cm : JsMap (List String)) : JsMap (List String) :=
  cm.map (fun p => (p.1, jsSortStrings p.2))

/-- Truthiness of a gender lookup: present and non-empty. -/
def truthy : Option String → Bool
  | some s => s ≠ ""
  | none => false

/-- The per-record body of gender inference pass 1 (parenthood): the
father id gets M and the mother id gets F, but only when no value is
already present. -/
def pass1Step (g : JsMap String) (person : Person) : JsMap String :=
  let g :=
    if person.fid ≠ "" ∧ ¬ jhas g person.fid then jset g person.fid "M" else g
  if person.mid ≠ "" ∧ ¬ jhas g person.mid then jset g person.mid "F" else g

/-- Gender inference pass 1 over all records. -/
def genderPass1 (records : List Person) (g : JsMap String) : JsMap String :=
  records.foldl pass1Step g

/-- The body of the partner iteration of phase 2: skip partners absent
from the store; if exactly one of the two sides has a (truthy) gender,
assign the opposite gender to the other side.  Both conditions are
evaluated against the values read before either assignment, as in the
source. -/
def partnerStep (pm : JsMap Person) (p1id : String) (g : JsMap String)
    (p2 : String) : JsMap String :=
  if ¬ jhas pm p2 then g
  else
    let g1 := jget g p1id
    let g2 := jget g p2
    let g' :=
      if truthy g1 ∧ ¬ truthy g2 then
        jset g p2 (if g1.getD "" = "M" then "F" else "M")
      else g
    if ¬ truthy g1 ∧ truthy g2 then
      jset g' p1id (if g2.getD "" = "M" then "F" else "M")
    else g'

/-- One pass of gender inference phase 2 (partnership): for every person
with partners, run the partner step over all of its partner ids. -/
def genderPass2Once (pm : JsMap Person) (records : List Person)
    (g : JsMap String) : JsMap String :=
  records.foldl
    (fun g person =>
      if person.pids ≠ [] then person.pids.foldl (partnerStep pm person.id) g
      else g)
    g

/-- Phase 2 is repeated a fixed number of times (5 in the source). -/
def genderPass2Iter (pm : JsMap Person) (records : List Person) :
    Nat → JsMap String → JsMap String
  | 0, g => g
  | n + 1, g => genderPass2Iter pm records n (genderPass2Once pm records g)

/-- buildLookups: builds the two lookup maps from the record list, sorts
every children list by id, and runs the two gender-inference phases on top
of the explicitly supplied gender map g0. -/
def buildLookups (records : List Person) (g0 : JsMap String) : Store :=
  let maps := buildMaps records
  let cm := sortChildren maps.2
  let g := genderPass1 records g0
  let g := genderPass2Iter maps.1 records 5 g
  { peopleMap := maps.1, childrenMap := cm, genderMap := g }

/-- getGender: the gender map value, with U as the falsy default. -/
def getGender (st : Store) (personId : String) : String :=
  match jget st.genderMap personId with
  | some s => if s = "" then "U" else s
  | none => "U"

/-! ### BFS engines (getAncestors, getAncestorPath, getDescendantPath)

Each while-loop is written with a fuel argument; theorem
bfs_fuel_sufficient below (claim C6) shows the chosen fuel is never
exhausted, mirroring the source's termination argument (the visited set
guards against re-processing, so the loop stops after at most one
dequeue-and-expand per store entry plus one skip per queued duplicate). -/

/-- Queue entry of getAncestors: an id together with its depth. -/
structure DEntry where
  id : String
  depth : Nat
deriving Repr, DecidableEq

/-- Queue entry of the path BFS loops: an id together with the path that
reached it. -/
structure PEntry where
  id : String
  path : List String
deriving Repr, DecidableEq

/-- Total weight of the not-yet-visited keys, the potential that bounds the
remaining number of loop iterations. -/
def unvisitedWeight (keys : List String) (w : String → Nat)
    (visited : List String) : Nat :=
  ((keys.filter (fun k => !(visited.contains k))).map w).sum

/-- Fuel bound for getAncestors / getAncestorPath: each processed person
costs one iteration and enqueues at most two parents (each costing one
more iteration when dequeued or skipped). -/
def ancWeight (pm : JsMap Person) (visited : List String) : Nat :=
  unvisitedWeight (pm.map Prod.fst) (fun _ => 3) visited

/-- Fuel bound for getDescendantPath: a processed key enqueues its whole
children list. -/
def descWeight (cm : JsMap (List String)) (visited : List String) : Nat :=
  unvisitedWeight (cm.map Prod.fst)
    (fun k => ((jget cm k).getD []).length + 1) visited

/-- The while-loop of getAncestors.  Returns none only on fuel exhaustion,
which never happens for the fuel used by getAncestors. -/
def getAncestorsGo (pm : JsMap Person) :
    Nat → List DEntry → List String → JsMap Nat → Option (JsMap Nat)
  | 0, _, _, _ => none
  | _ + 1, [], _, ancestors => some ancestors
  | fuel + 1, current :: rest, visited, ancestors =>
    if visited.contains current.id then
      getAncestorsGo pm fuel rest visited ancestors
    else
      let visited := current.id :: visited
      match jget pm current.id with
      | none => getAncestorsGo pm fuel rest visited ancestors
      | some person =>
        let ancestors := jset ancestors current.id current.depth
        let q := rest
        let q := if person.fid ≠ "" then q ++ [⟨person.fid, current.depth + 1⟩] else q
        let q := if person.mid ≠ "" then q ++ [⟨person.mid, current.depth + 1⟩] else q
        getAncestorsGo pm fuel q visited ancestors

/-- getAncestors(id): BFS up the fid/mid edges collecting each reachable
person's depth; depth 0 is the start id itself. -/
def getAncestors (st : Store) (id : String) : JsMap Nat :=
  (getAncestorsGo st.peopleMap (ancWeight st.peopleMap [] + 2)
    [⟨id, 0⟩] [] []).getD []

/-- The while-loop of getAncestorPath. -/
def getAncestorPathGo (pm : JsMap Person) (targetAncestor : String) :
    Nat → List PEntry → List String → Option (Option (List String))
  | 0, _, _ => none
  | _ + 1, [], _ => some none
  | fuel + 1, current :: rest, visited =>
    if visited.contains current.id then
      getAncestorPathGo pm targetAncestor fuel rest visited
    else
      let visited := current.id :: visited
      if current.id = targetAncestor then some (some current.path)
      else
        match jget pm current.id with
        | none => getAncestorPathGo pm targetAncestor fuel rest visited
        | some p =>
          let q := rest
          let q := if p.fid ≠ "" then q ++ [⟨p.fid, current.path ++ [p.fid]⟩] else q
          let q := if p.mid ≠ "" then q ++ [⟨p.mid, current.path ++ [p.mid]⟩] else q
          getAncestorPathGo pm targetAncestor fuel q visited

/-- getAncestorPath(startId, targetAncestor): BFS up the fid/mid edges
recording full paths; the first path reaching the target is returned
(none when the target is unreachable). -/
def getAncestorPath (st : Store) (startId targetAncestor : String) :
    Option (List String) :=
  (getAncestorPathGo st.peopleMap targetAncestor
    (ancWeight st.peopleMap [] + 2) [⟨startId, [startId]⟩] []).getD none

/-- The while-loop of getDescendantPath. -/
def getDescendantPathGo (cm : JsMap (List String)) (targetId : String) :
    Nat → List PEntry → List String → Option (Option (List String))
  | 0, _, _ => none
  | _ + 1, [], _ => some none
  | fuel + 1, current :: rest, visited =>
    if visited.contains current.id then
      getDescendantPathGo cm targetId fuel rest visited
    else
      let visited := current.id :: visited
      if current.id = targetId then some (some current.path)
      else
        let children := (jget cm current.id).getD []
        getDescendantPathGo cm targetId fuel
          (rest ++ children.map (fun child => ⟨child, current.path ++ [child]⟩))
          visited

/-- getDescendantPath(ancestorId, targetId): BFS down the childrenMap
edges recording full paths. -/
def getDescendantPath (st : Store) (ancestorId targetId : String) :
    Option (List String) :=
  (getDescendantPathGo st.childrenMap targetId
    (descWeight st.childrenMap [] + 2) [⟨ancestorId, [ancestorId]⟩] []).getD none

/-! ### Kinship resolver -/

/-- One iteration of the common-ancestor selection loop: skip entries not
present in a2, otherwise keep the entry iff its depth sum is strictly
smaller than the best so far (the initial best distance is Infinity, so
the first common entry is always taken). -/
def bestStep (a2 : JsMap Nat) (best : Option (String × Nat)) (p : String × Nat) :
    Option (String × Nat) :=
  match jget a2 p.1 with
  | none => best
  | some d2 =>
    match best with
    | none => some (p.1, p.2 + d2)
    | some (b, bd) => if p.2 + d2 < bd then some (p.1, p.2 + d2) else some (b, bd)

/-- The common-ancestor selection loop of findRelationship: scan a1 in
iteration order with the best-so-far accumulator. -/
def findBestAncestor (a1 a2 : JsMap Nat) : Option (String × Nat) :=
  a1.foldl (bestStep a2) none

/-- The partner-branch condition of findRelationship: person1 exists and
lists id2 among its partner ids. -/
def isPartnerOf (st : Store) (id1 id2 : String) : Bool :=
  match jget st.peopleMap id1 with
  | some person1 => person1.pids.contains id2
  | none => false

/-- interpretHinduRelation: classify the relationship from the up- and
down-paths by the (u, d) edge counts and the target's gender. -/
def interpretHinduRelation (st : Store) (homeId targetId : String)
    (up? down? : Option (List String)) : String :=
  match up?, down? with
  | some up, some down =>
    let u : Int := (up.length : Int) - 1
    let d : Int := (down.length : Int) - 1
    match jget st.peopleMap homeId, jget st.peopleMap targetId with
    | some homePerson, some _ =>
      let targetGender := getGender st targetId
      if d = 0 then
        if u = 1 then
          if targetId = homePerson.fid then "Tandri (Father)"
          else if targetId = homePerson.mid then "Talli (Mother)"
          else "Parent"
        else if u = 2 then
          let parentId := up.getD 1 ""
          if parentId = homePerson.fid then
            if targetGender = "M" then "Tata (Paternal Grandfather)"
            else "Nayanamma (Paternal Grandmother)"
          else
            if targetGender = "M" then "Tata (Maternal Grandfather)"
            else "Ammamma (Maternal Grandmother)"
        else if u = 3 then "Great Grandparent"
        else "Ancestor"
      else if u = 0 then
        if d = 1 then
          if targetGender = "M" then "Koduku (Son)"
          else if targetGender = "F" then "Kumarthe (Daughter)" else "Child"
        else if d = 2 then
          if targetGender = "M" then "Manavadu (Grandson)"
          else if targetGender = "F" then "Manavaralu (Granddaughter)" else "Grandchild"
        else if d = 3 then
          if targetGender = "M" then "Muni Manavadu (Great Grandson)"
          else if targetGender = "F" then "Muni Manavaralu (Great Granddaughter)"
          else "Great Grandchild"
        else "Descendant"
      else if u = 1 ∧ d = 1 then
        if targetGender = "M" then "Sodharudu (Brother)" else "Sodari (Sister)"
      else if u = 2 ∧ d = 1 then
        let parentId := up.getD 1 ""
        if parentId = homePerson.fid then
          if targetGender = "M" then "Pedananna / Chinnananna (Paternal Uncle)"
          else if targetGender = "F" then "Atta (Paternal Aunt)"
          else "Uncle / Aunt"
        else if parentId = homePerson.mid then
          if targetGender = "M" then "Mama (Maternal Uncle)"
          else if targetGender = "F" then "Peddamma / Pinnamma (Maternal Aunt)"
          else "Uncle / Aunt"
        else "Uncle / Aunt"
      else if u = 1 ∧ d = 2 then
        if targetGender = "M" then "Menalludu (Nephew)" else "Menakodalu (Niece)"
      else if u = 2 ∧ d = 2 then "Cousin"
      else "Bandhuvu (Relative)"
    | _, _ => "Unknown"
  | _, _ => "Bandhuvu (Relative)"

/-- The main (blood-relation) branch of findRelationship: compute both
ancestor depth maps, pick the best common ancestor, build the up- and
down-paths and classify them. -/
def findRelationshipMain (st : Store) (id1 id2 : String) : String :=
  let a1 := getAncestors st id1
  let a2 := getAncestors st id2
  match findBestAncestor a1 a2 with
  | none => "No direct blood relation"
  | some (bestAncestor, _) =>
    if bestAncestor = "" then "No direct blood relation"
    else
      let pathUp := getAncestorPath st id1 bestAncestor
      let pathDown := getDescendantPath st bestAncestor id2
      interpretHinduRelation st id1 id2 pathUp pathDown

/-- findRelationship(id1, id2): special cases (falsy ids, self, partner),
then the common-ancestor classification. -/
def findRelationship (st : Store) (id1 id2 : String) : String :=
  if id1 = "" ∨ id2 = "" then "Unknown"
  else if id1 = id2 then "Self"
  else
    match jget st.peopleMap id1 with
    | some person1 =>
      if person1.pids.contains id2 then
        let gender2 := getGender st id2
        if gender2 = "M" then "Bhartha (Husband)"
        else if gender2 = "F" then "Bharya (Wife)"
        else "Spouse"
      else findRelationshipMain st id1 id2
    | none => findRelationshipMain st id1 id2

/-- The common ancestor and the (u, d) generational-distance pair computed
inside findRelationship's blood-relation branch: u and d are the lengths
of the up- and down-paths minus one. -/
def resolveUD (st : Store) (id1 id2 : String) :
    Option (String × Int × Int) :=
  match findBestAncestor (getAncestors st id1) (getAncestors st id2) with
  | none => none
  | some (bestAncestor, _) =>
    if bestAncestor = "" then none
    else
      match getAncestorPath st id1 bestAncestor,
        getDescendantPath st bestAncestor id2 with
      | some up, some down =>
        some (bestAncestor, (up.length : Int) - 1, (down.length : Int) - 1)
      | _, _ => none

/-! ### Date helpers -/

/-- A calendar date in JS Date conventions: month is 0-based. -/
structure Date where
  y : Nat
  m : Nat
  d : Nat
deriving Repr, DecidableEq

/-- Gregorian leap year. -/
def isLeapYear (y : Nat) : Bool :=
  y % 4 == 0 && (y % 100 != 0 || y % 400 == 0)

/-- Number of days of month m (0-based) of year y. -/
def daysInMonth (y m : Nat) : Nat :=
  if m = 1 then (if isLeapYear y then 29 else 28)
  else if m = 3 ∨ m = 5 ∨ m = 8 ∨ m = 10 then 30
  else 31

/-- A well-formed calendar date. -/
def Date.Valid (dt : Date) : Prop :=
  dt.m < 12 ∧ 1 ≤ dt.d ∧ dt.d ≤ daysInMonth dt.y dt.m

instance (dt : Date) : Decidable dt.Valid := by
  unfold Date.Valid
  infer_instance

/-- The calendar successor of a date. -/
def nextDay (dt : Date) : Date :=
  if dt.d < daysInMonth dt.y dt.m then ⟨dt.y, dt.m, dt.d + 1⟩
  else if dt.m < 11 then ⟨dt.y, dt.m + 1, 1⟩
  else ⟨dt.y + 1, 0, 1⟩

/-- The calendar predecessor of a date. -/
def prevDay (dt : Date) : Date :=
  if 1 < dt.d then ⟨dt.y, dt.m, dt.d - 1⟩
  else if 0 < dt.m then ⟨dt.y, dt.m - 1, daysInMonth dt.y (dt.m - 1)⟩
  else ⟨dt.y - 1, 11, 31⟩

/-- d.setDate(d.getDate() + n): advance a date by n days. -/
def addDays (dt : Date) : Nat → Date
  | 0 => dt
  | n + 1 => nextDay (addDays dt n)

/-- Chronological (lexicographic year-month-day) strict order on dates. -/
def DateLt (a b : Date) : Prop :=
  a.y < b.y ∨ (a.y = b.y ∧ (a.m < b.m ∨ (a.m = b.m ∧ a.d < b.d)))

instance (a b : Date) : Decidable (DateLt a b) := by
  unfold DateLt
  infer_instance

/-- new Date(year, month, day): JS normalises out-of-range month and day
by rolling them over (month 12 is January of the next year, day 0 is the
last day of the previous month, day counts past the month length spill
into following months). -/
def jsMakeDate (y m d : Nat) : Date :=
  let y2 := y + m / 12
  let m2 := m % 12
  if d = 0 then prevDay ⟨y2, m2, 1⟩
  else addDays ⟨y2, m2, 1⟩ (d - 1)

/-- Sakamoto weekday table. -/
def sakamotoT : List Nat := [0, 3, 2, 5, 0, 3, 5, 1, 4, 6, 2, 4]

/-- date.getDay(): day of week, 0 = Sunday, via Sakamoto's method (month is
0-based). -/
def weekdayOf (dt : Date) : Nat :=
  let y := if dt.m < 2 then dt.y - 1 else dt.y
  (y + y / 4 - y / 100 + y / 400 + sakamotoT.getD dt.m 0 + dt.d) % 7

/-- Month-abbreviation table of the source. -/
def MONTH_ABBR : List String :=
  ["JAN", "FEB", "MAR", "APR", "MAY", "JUN", "JUL", "AUG", "SEP", "OCT", "NOV", "DEC"]

/-- Weekday-name table of the source. -/
def WEEKDAYS : List String :=
  ["SUNDAY", "MONDAY", "TUESDAY", "WEDNESDAY", "THURSDAY", "FRIDAY", "SATURDAY"]

/-- The month-name lookup used by the parsers (first three characters,
uppercased). -/
def monthsTable : JsMap Nat :=
  [("JAN", 0), ("FEB", 1), ("MAR", 2), ("APR", 3), ("MAY", 4), ("JUN", 5),
   ("JUL", 6), ("AUG", 7), ("SEP", 8), ("OCT", 9), ("NOV", 10), ("DEC", 11)]

/-- parts[1].toUpperCase().slice(0, 3). -/
def monthKeyOf (s : String) : String := ⟨(s.data.map Char.toUpper).take 3⟩

/-- months[monthKey]: none models undefined. -/
def monthOf (s : String) : Option Nat := jget monthsTable (monthKeyOf s)

/-- parseInt(s, 10) restricted to the non-negative outcomes that occur
here: skip leading spaces, read the leading run of decimal digits, NaN
(none) when there is none. -/
def jsParseNat (s : String) : Option Nat :=
  let ds := (s.data.dropWhile (fun c => c = ' ')).takeWhile Char.isDigit
  if ds = [] then none
  else some (ds.foldl (fun acc c => acc * 10 + (c.toNat - 48)) 0)

/-- String.prototype.trim (whitespace here is the space character). -/
def jsTrim (s : String) : String :=
  ⟨((s.data.dropWhile (fun c => c = ' ')).reverse.dropWhile (fun c => c = ' ')).reverse⟩

/-- str.split(Char): accumulator-based splitter. -/
def splitOnCharAux (sep : Char) : List Char → List Char → List String
  | acc, [] => [⟨acc.reverse⟩]
  | acc, c :: rest =>
    if c = sep then ⟨acc.reverse⟩ :: splitOnCharAux sep [] rest
    else splitOnCharAux sep (c :: acc) rest

/-- str.split('-'). -/
def splitDash (s : String) : List String := splitOnCharAux '-' [] s.data

/-- Decimal digit character. -/
def digitChar : Nat → Char
  | 0 => '0' | 1 => '1' | 2 => '2' | 3 => '3' | 4 => '4'
  | 5 => '5' | 6 => '6' | 7 => '7' | 8 => '8' | 9 => '9'
  | _ => '*'

/-- Little-endian decimal digits, with fuel (fuel ≥ n suffices). -/
def natDigitsRevGo : Nat → Nat → List Nat
  | 0, _ => []
  | _ + 1, 0 => []
  | fuel + 1, n + 1 => ((n + 1) % 10) :: natDigitsRevGo fuel ((n + 1) / 10)

/-- String(n) for a natural number: its decimal representation. -/
def natToString (n : Nat) : String :=
  if n = 0 then "0" else ⟨((natDigitsRevGo n n).reverse.map digitChar)⟩

/-- The shared two-digit-year pivot resolution, as the spec words it:
pivot = (currentYear mod 100) + 10; a two-digit year above the pivot is
19xx, otherwise 20xx. -/
def specPivotYear (currentYear y : Nat) : Nat :=
  if y > currentYear % 100 + 10 then 1900 + y else 2000 + y

/-- formatDate: dd-MMM-yy becomes dd-MMM-yyyy via the pivot rule;
unparseable years render as NaN, other shapes pass through. -/
def formatDate (currentYear : Nat) (dateStr : String) : String :=
  if dateStr = "" then ""
  else
    match splitDash dateStr with
    | [day, month, yearStr] =>
      match jsParseNat yearStr with
      | some y =>
        let year :=
          if y < 100 then
            let cy := currentYear % 100
            let pivot := cy + 10
            if y > pivot then 1900 + y else 2000 + y
          else y
        day ++ "-" ++ month ++ "-" ++ natToString year
      | none => day ++ "-" ++ month ++ "-" ++ "NaN"
    | _ => dateStr

/-- The age computation of getAgeFromBirth after the year has been
resolved: build the (normalised) birth date, subtract years, adjust when
the birthday has not yet occurred this year, and drop implausible ages. -/
def ageFromParts (today : Date) (year month day : Nat) : Option Int :=
  let birth := jsMakeDate year month day
  let age : Int := (today.y : Int) - (birth.y : Int)
  let mdiff : Int := (today.m : Int) - (birth.m : Int)
  let age := if mdiff < 0 ∨ (mdiff = 0 ∧ today.d < birth.d) then age - 1 else age
  if age < 0 ∨ age > 150 then none else some age

/-- getAgeFromBirth: parse dd-MMM-yy(yy), resolve the year by the pivot
rule, and compute the age, or none when unparseable. -/
def getAgeFromBirth (today : Date) (birthStr : String) : Option Int :=
  if birthStr = "" then none
  else if jsTrim birthStr = "" then none
  else
    match splitDash (jsTrim birthStr) with
    | [dayStr, monStr, yearStr] =>
      match monthOf monStr, jsParseNat dayStr with
      | some month, some day =>
        match jsParseNat yearStr with
        | some y =>
          let year :=
            if y < 100 then
              let cy := today.y % 100
              let pivot := cy + 10
              if y > pivot then 1900 + y else 2000 + y
            else y
          ageFromParts today year month day
        | none => none
      | _, _ => none
    | _ => none

/-- getMonthDayFromBirth: the (month, day) pair of a birth string, with
the day checked to the range 1..31. -/
def getMonthDayFromBirth (birthStr : String) : Option (Nat × Nat) :=
  if birthStr = "" then none
  else if jsTrim birthStr = "" then none
  else
    match splitDash (jsTrim birthStr) with
    | [dayStr, monStr, _yearStr] =>
      match monthOf monStr, jsParseNat dayStr with
      | some month, some day =>
        if day < 1 ∨ day > 31 then none else some (month, day)
      | _, _ => none
    | _ => none

/-- getBirthYearFromBirth: the 4-digit year of a birth string, resolved by
the pivot rule, with no month/day validation. -/
def getBirthYearFromBirth (currentYear : Nat) (birthStr : String) : Option Nat :=
  if birthStr = "" then none
  else if jsTrim birthStr = "" then none
  else
    match splitDash (jsTrim birthStr) with
    | [_dayStr, _monStr, yearStr] =>
      match jsParseNat yearStr with
      | some y =>
        some (if y < 100 then
          let cy := currentYear % 100
          let pivot := cy + 10
          if y > pivot then 1900 + y else 2000 + y
        else y)
      | none => none
    | _ => none

/-! ### Upcoming-birthday scanner -/

/-- One matching person of a birthday entry. -/
structure BPerson where
  id : String
  name : String
  phone : String
  ageAtDisplay : Option Int
deriving Repr, DecidableEq

/-- One output entry of getUpcomingBirthdays. -/
structure BEntry where
  date : Date
  dateStr : String
  weekday : String
  persons : List BPerson
deriving Repr, DecidableEq

/-- The formatted key "d-MMM-yyyy" of a window day. -/
def fmtDateKey (dt : Date) : String :=
  natToString dt.d ++ "-" ++ MONTH_ABBR.getD dt.m "" ++ "-" ++ natToString dt.y

/-- Append a matching person to the entry stored under the given key. -/
def pushPerson (bk : JsMap BEntry) (key : String) (p : BPerson) : JsMap BEntry :=
  match jget bk key with
  | some e => jset bk key { e with persons := e.persons ++ [p] }
  | none => bk

/-- The matching record pushed for person p on a window day of year
displayYear. -/
def birthdayRecord (todayYear displayYear : Nat) (p : Person) : BPerson :=
  let birthYear := getBirthYearFromBirth todayYear p.Birth
  let ageAtDisplay : Option Int := birthYear.map (fun b => (displayYear : Int) - (b : Int))
  { id := p.id
    name := if jsTrim p.name = "" then "Unknown" else jsTrim p.name
    phone := jsTrim p.phone
    ageAtDisplay :=
      match ageAtDisplay with
      | some a => if 0 ≤ a ∧ a ≤ 150 then some a else none
      | none => none }

/-- The per-person body of the day scan: push the person onto the day's
entry when its birth month/day matches the day. -/
def dayPersonStep (todayY : Nat) (dte : Date) (dateStr : String)
    (bk : JsMap BEntry) (p : Person) : JsMap BEntry :=
  match getMonthDayFromBirth p.Birth with
  | some md =>
    if md.1 = dte.m ∧ md.2 = dte.d then
      pushPerson bk dateStr (birthdayRecord todayY dte.y p)
    else bk
  | none => bk

/-- The per-day body of the window scan: ensure the day's entry exists,
then scan all people for matches. -/
def dayStep (people : List Person) (today : Date) (byKey : JsMap BEntry)
    (i : Nat) : JsMap BEntry :=
  let dte := addDays today i
  let dateStr := fmtDateKey dte
  let byKey :=
    if jhas byKey dateStr then byKey
    else
      jset byKey dateStr
        { date := dte
          dateStr := dateStr
          weekday := WEEKDAYS.getD (weekdayOf dte) ""
          persons := [] }
  people.foldl (dayPersonStep today.y dte dateStr) byKey

/-- The fallback entry used when a sorted key is read back (never used:
every sorted key is present). -/
def emptyBEntry : BEntry := { date := ⟨0, 0, 0⟩, dateStr := "", weekday := "", persons := [] }

/-- The byKey accumulator after scanning the first n window days. -/
def byKeyFold (people : List Person) (today : Date) (n : Nat) : JsMap BEntry :=
  (List.range n).foldl (dayStep people today) ([] : JsMap BEntry)

/-- getUpcomingBirthdays(daysAhead): for each day of the window
[today, today + daysAhead), create an entry keyed by the formatted date
and push every person whose birth month/day matches; finally sort the keys
(JS default string sort), read the entries back and drop the empty ones. -/
def getUpcomingBirthdays (people : List Person) (today : Date)
    (daysAhead : Nat) : List BEntry :=
  let byKey := byKeyFold people today daysAhead
  ((jsSortStrings (byKey.map (fun p => p.1))).map
      (fun k => (jget byKey k).getD emptyBEntry)).filter
    (fun e => !e.persons.isEmpty)

/-- The people whose birth month/day matches the given day, as birthday
records, in input order — the specification of what one day's entry
accumulates. -/
def matchingPersons (people : List Person) (todayY : Nat) (dte : Date) :
    List BPerson :=
  (people.filter (fun p =>
    match getMonthDayFromBirth p.Birth with
    | some md => decide (md.1 = dte.m ∧ md.2 = dte.d)
    | none => false)).map (birthdayRecord todayY dte.y)

/-- Decimal value of a little-endian digit list. -/
def ofDigits10 : List Nat → Nat
  | [] => 0
  | d :: ds => d + 10 * ofDigits10 ds

/-- Two people with birthdays on the 9th and 10th of October: the output
order of the scanner is decided by the string sort of the formatted
keys. -/
def cexC4people : List Person :=
  [{ id := "X", name := "xx", Birth := "9-OCT-1980" },
   { id := "Y", name := "yy", Birth := "10-OCT-1985" }]

/-! ### Ego-subgraph extraction (getFamilySet) -/

/-- Male silhouette icon of the source. -/
def MALE_ICON_SVG : String :=
  "<svg width=\"100%\" height=\"100%\" viewBox=\"0 0 24 24\" fill=\"#4A90E2\"><path d=\"M12 12c2.21 0 4-1.79 4-4s-1.79-4-4-4-4 1.79-4 4 1.79 4 4 4zm0 2c-2.67 0-8 1.34-8 4v2h16v-2c0-2.66-5.33-4-8-4z\"/></svg>"

/-- Female silhouette icon of the source. -/
def FEMALE_ICON_SVG : String :=
  "<svg width=\"100%\" height=\"100%\" viewBox=\"0 0 24 24\" fill=\"#E91E63\"><path d=\"M12 12c2.21 0 4-1.79 4-4s-1.79-4-4-4-4 1.79-4 4 1.79 4 4 4zm0 2c-2.67 0-8 1.34-8 4v2h16v-2c0-2.66-5.33-4-8-4z\"/></svg>"

/-- A renderable node: the sanitized clone of a person record together
with the precomputed display fields the extractor adds to it. -/
structure RNode where
  id : String
  name : String
  fid : String
  mid : String
  pids : List String
  Birth : String
  phone : String
  email : String
  note : String
  Address : String
  image_url : String
  gender_icon_svg : String
  initialsField : String
  labelField : String
deriving Repr, DecidableEq

/-- Split on runs of spaces (the /\s+/ split applied to a trimmed name:
no empty tokens). -/
def splitWsAux : List Char → List Char → List String
  | acc, [] => if acc.isEmpty then [] else [⟨acc.reverse⟩]
  | acc, c :: rest =>
    if c = ' ' then
      if acc.isEmpty then splitWsAux [] rest
      else ⟨acc.reverse⟩ :: splitWsAux [] rest
    else splitWsAux (c :: acc) rest

/-- fullName.split(whitespace) with no empty tokens. -/
def splitWs (s : String) : List String := splitWsAux [] s.data

/-- s.charAt(0).toUpperCase(): the uppercased first character, or the
empty string for an empty string. -/
def firstCharUpper (s : String) : String :=
  match s.data with
  | [] => ""
  | c :: _ => ⟨[c.toUpper]⟩

/-- parts.slice(0, -1).join(" "). -/
def joinSpace : List String → String
  | [] => ""
  | [s] => s
  | s :: rest => s ++ " " ++ joinSpace rest

/-- The addNode helper of getFamilySet: add a clone of the person with
that id to the family set if the id resolves and is not already present. -/
def addNode (pm : JsMap Person) (fs : JsMap Person) (id : String) : JsMap Person :=
  if jhas pm id ∧ ¬ jhas fs id then jset fs id ((jget pm id).getD { id := id })
  else fs

/-- The sanitize-and-decorate step applied to each clone: drop partner ids
outside the set, null out parent links outside the set, and precompute the
display fields (icon or initials, shortened label). -/
def sanitizeNode (st : Store) (nodeIds : List String) (node : Person) : RNode :=
  let pids := node.pids.filter (fun pid => nodeIds.contains pid)
  let fid := if node.fid ≠ "" ∧ ¬ nodeIds.contains node.fid then "" else node.fid
  let mid := if node.mid ≠ "" ∧ ¬ nodeIds.contains node.mid then "" else node.mid
  let fullName := jsTrim node.name
  let parts := if fullName = "" then [] else splitWs fullName
  let hasImage := node.image_url ≠ "" ∧ jsTrim node.image_url ≠ ""
  let gender := getGender st node.id
  let iconSvg :=
    if ¬ hasImage then
      if gender = "M" then MALE_ICON_SVG
      else if gender = "F" then FEMALE_ICON_SVG
      else ""
    else ""
  let initials :=
    if ¬ hasImage ∧ gender ≠ "M" ∧ gender ≠ "F" then
      match parts with
      | [] => "?"
      | [p] => firstCharUpper p
      | p :: rest => firstCharUpper p ++ firstCharUpper (rest.getLastD "")
    else ""
  let label :=
    if parts.length ≤ 1 then fullName
    else joinSpace parts.dropLast ++ "." ++ firstCharUpper (parts.getLastD "")
  { id := node.id, name := node.name, fid := fid, mid := mid, pids := pids
    Birth := node.Birth, phone := node.phone, email := node.email
    note := node.note, Address := node.Address, image_url := node.image_url
    gender_icon_svg := iconSvg, initialsField := initials, labelField := label }

/-- The candidate set of getFamilySet: clones of the focus person, its
parents, partners and children, deduplicated by id. -/
def familySetOf (st : Store) (centerId : String) (centerNode : Person) : JsMap Person :=
  let fs : JsMap Person := []
  let fs := addNode st.peopleMap fs centerId
  let fs := if centerNode.fid ≠ "" then addNode st.peopleMap fs centerNode.fid else fs
  let fs := if centerNode.mid ≠ "" then addNode st.peopleMap fs centerNode.mid else fs
  let fs := centerNode.pids.foldl (addNode st.peopleMap) fs
  ((jget st.childrenMap centerId).getD []).foldl (addNode st.peopleMap) fs

/-- getFamilySet(centerId): collect the candidate clones, then sanitize
dangling references and precompute display fields.  An unknown focus id
yields the empty list. -/
def getFamilySet (st : Store) (centerId : String) : List RNode :=
  match jget st.peopleMap centerId with
  | none => []
  | some centerNode =>
    let nodes := (familySetOf st centerId centerNode).map (fun p => p.2)
    let nodeIds := nodes.map (fun n => n.id)
    nodes.map (sanitizeNode st nodeIds)

/-! ### Specification-side descriptions used by the theorems -/

/-- The ids a single record contributes to childrenMap at key p: once via
the father link, once via the mother link. -/
def childContrib (p : String) (r : Person) : List String :=
  (if r.fid ≠ "" ∧ r.fid = p then [r.id] else [])
    ++ (if r.mid ≠ "" ∧ r.mid = p then [r.id] else [])

/-- All ids contributed to childrenMap at key p, in record order. -/
def childrenSpec (records : List Person) (p : String) : List String :=
  (records.map (childContrib p)).flatten

/-- Extend an optional children list by newly pushed ids (no entry is
created when nothing is pushed). -/
def combineOpt (o : Option (List String)) (l : List String) : Option (List String) :=
  if l = [] then o else some (o.getD [] ++ l)

/-- A record whose father and mother are the same id: it is pushed twice
onto that parent's children list. -/
def cexC3records : List Person := [{ id := "c", fid := "p", mid := "p" }]

/-- A store with two children of the same father, ids out of order. -/
def witC3records : List Person :=
  [{ id := "c", fid := "p" }, { id := "b", fid := "p" }]

/-- A store in which inference would assign M to id x were x's explicit
gender not already supplied. -/
def witC5records : List Person := [{ id := "c", fid := "x" }]

/-- A three-generation chain: C's father is B, B's father is A. -/
def witChainRecords : List Person :=
  [{ id := "C", fid := "B" }, { id := "B", fid := "A" }, { id := "A" }]

/-- The store built from the three-generation chain. -/
def witChainStore : Store := buildLookups witChainRecords []

/-- Two unrelated persons: no common ancestor exists. -/
def witNoCommonRecords : List Person := [{ id := "A" }, { id := "B" }]

/-- The store built from the two unrelated persons. -/
def witNoCommonStore : Store := buildLookups witNoCommonRecords []

/-! ### A heap model of getFamilySet (object identity and mutation)

getFamilySet clones person records with an object spread and then mutates
the clones in place, so its frame property is about object identity:
fresh clones, originals untouched.  The model makes the references
explicit: person objects and pids/children arrays live in a heap
addressed by allocation index, the store maps hold references, and the
extractor is re-translated statement by statement over this heap. -/

/-- A person object in the heap: scalar fields inline, the pids array
held by reference, plus the three display fields getFamilySet assigns to
its clones (absent on the original records). -/
structure HPerson where
  id : String := ""
  name : String := ""
  fid : String := ""
  mid : String := ""
  pids : Nat := 0
  Birth : String := ""
  phone : String := ""
  email : String := ""
  note : String := ""
  Address : String := ""
  image_url : String := ""
  gender_icon_svg : Option String := none
  initialsF : Option String := none
  labelF : Option String := none
deriving Repr, DecidableEq

/-- The heap: person objects and string arrays, addressed by index. -/
structure Heap where
  objs : List HPerson := []
  arrs : List (List String) := []
deriving Repr, DecidableEq

/-- The state seen by getFamilySet: the heap plus the closure maps, with
peopleMap and childrenMap holding references into the heap. -/
structure HState where
  heap : Heap := {}
  peopleMapH : JsMap Nat := []
  childrenMapH : JsMap Nat := []
  gm : JsMap String := []
deriving Repr, DecidableEq

/-- Reading a person object through a reference with its pids array
dereferenced: the structural content of the object (display fields
ignored). -/
def derefPerson (h : Heap) (r : Nat) : Person :=
  { id := (h.objs.getD r {}).id, name := (h.objs.getD r {}).name
    fid := (h.objs.getD r {}).fid, mid := (h.objs.getD r {}).mid
    pids := h.arrs.getD (h.objs.getD r {}).pids []
    Birth := (h.objs.getD r {}).Birth, phone := (h.objs.getD r {}).phone
    email := (h.objs.getD r {}).email, note := (h.objs.getD r {}).note
    Address := (h.objs.getD r {}).Address
    image_url := (h.objs.getD r {}).image_url }

/-- Reading a finished clone: its structural content together with the
display fields (an absent display field reads as the empty string). -/
def viewNode (h : Heap) (r : Nat) : RNode :=
  { id := (h.objs.getD r {}).id, name := (h.objs.getD r {}).name
    fid := (h.objs.getD r {}).fid, mid := (h.objs.getD r {}).mid
    pids := h.arrs.getD (h.objs.getD r {}).pids []
    Birth := (h.objs.getD r {}).Birth, phone := (h.objs.getD r {}).phone
    email := (h.objs.getD r {}).email, note := (h.objs.getD r {}).note
    Address := (h.objs.getD r {}).Address
    image_url := (h.objs.getD r {}).image_url
    gender_icon_svg := (h.objs.getD r {}).gender_icon_svg.getD ""
    initialsField := (h.objs.getD r {}).initialsF.getD ""
    labelField := (h.objs.getD r {}).labelF.getD "" }

/-- The heap image of a person record whose pids array sits at the given
reference. -/
def hPersonOf (arrRef : Nat) (p : Person) : HPerson :=
  { id := p.id, name := p.name, fid := p.fid, mid := p.mid, pids := arrRef
    Birth := p.Birth, phone := p.phone, email := p.email, note := p.note
    Address := p.Address, image_url := p.image_url }

/-- The heap objects of the store's people, person i at object index i
with its pids array at array index i. -/
def peopleObjs : Nat → List (String × Person) → List HPerson
  | _, [] => []
  | i, (_, per) :: rest => hPersonOf i per :: peopleObjs (i + 1) rest

/-- The reference map of the store's people: the i-th entry points at
object index i. -/
def peopleRefs : Nat → List (String × Person) → JsMap Nat
  | _, [] => []
  | i, (k, _) :: rest => (k, i) :: peopleRefs (i + 1) rest

/-- The reference map of the children arrays, starting at the given
array index. -/
def childRefs : Nat → List (String × List String) → JsMap Nat
  | _, [] => []
  | j, (k, _) :: rest => (k, j) :: childRefs (j + 1) rest

/-- Load a pure store into the heap: person i's pids array at array
index i, the children arrays after them. -/
def storeToHState (st : Store) : HState :=
  { heap := { objs := peopleObjs 0 st.peopleMap
              arrs := st.peopleMap.map (fun p => p.2.pids)
                ++ st.childrenMap.map (fun p => p.2) }
    peopleMapH := peopleRefs 0 st.peopleMap
    childrenMapH := childRefs st.peopleMap.length st.childrenMap
    gm := st.genderMap }

/-- The addNode helper on the heap: when the id resolves and is not yet
in the family set, allocate a shallow clone (the spread copies the pids
reference, not the array) and record the clone's reference. -/
def hAddNode (acc : HState × JsMap Nat) (id : String) : HState × JsMap Nat :=
  match jget acc.1.peopleMapH id with
  | none => acc
  | some r =>
    if jhas acc.2 id then acc
    else
      ({ acc.1 with heap := { acc.1.heap with
            objs := acc.1.heap.objs ++ [acc.1.heap.objs.getD r {}] } },
       jset acc.2 id acc.1.heap.objs.length)

/-- getGender as read through the closure: the gender map value with U
as the falsy default. -/
def hGetGender (gm : JsMap String) (personId : String) : String :=
  match jget gm personId with
  | some s => if s = "" then "U" else s
  | none => "U"

/-- The sanitize-and-decorate step on the heap: allocate the filtered
pids array, redirect the clone to it, null dangling parent links and set
the display fields.  Every write lands on the clone. -/
def sanitizeOneH (gm : JsMap String) (nodeIds : List String) (S : HState)
    (r : Nat) : HState :=
  let node := S.heap.objs.getD r {}
  let newArr := (S.heap.arrs.getD node.pids []).filter
    (fun pid => nodeIds.contains pid)
  let fid := if node.fid ≠ "" ∧ ¬ nodeIds.contains node.fid then "" else node.fid
  let mid := if node.mid ≠ "" ∧ ¬ nodeIds.contains node.mid then "" else node.mid
  let fullName := jsTrim node.name
  let parts := if fullName = "" then [] else splitWs fullName
  let hasImage := node.image_url ≠ "" ∧ jsTrim node.image_url ≠ ""
  let gender := hGetGender gm node.id
  let iconSvg :=
    if ¬ hasImage then
      if gender = "M" then MALE_ICON_SVG
      else if gender = "F" then FEMALE_ICON_SVG
      else ""
    else ""
  let initials :=
    if ¬ hasImage ∧ gender ≠ "M" ∧ gender ≠ "F" then
      match parts with
      | [] => "?"
      | [p] => firstCharUpper p
      | p :: rest => firstCharUpper p ++ firstCharUpper (rest.getLastD "")
    else ""
  let label :=
    if parts.length ≤ 1 then fullName
    else joinSpace parts.dropLast ++ "." ++ firstCharUpper (parts.getLastD "")
  let node2 : HPerson := { node with
    fid := fid
    mid := mid
    pids := S.heap.arrs.length
    gender_icon_svg := some iconSvg
    initialsF := some initials
    labelF := some label }
  { S with heap := { objs := S.heap.objs.set r node2
                     arrs := S.heap.arrs ++ [newArr] } }

/-- Clone collection, step 1: addNode(centerId). -/
def fsAcc1 (S0 : HState) (centerId : String) : HState × JsMap Nat :=
  hAddNode (S0, []) centerId

/-- Step 2: if (centerNode.fid) addNode(centerNode.fid), the father id
read from the center object at this point. -/
def fsAcc2 (S0 : HState) (centerId : String) (cref : Nat) :
    HState × JsMap Nat :=
  if ((fsAcc1 S0 centerId).1.heap.objs.getD cref {}).fid ≠ "" then
    hAddNode (fsAcc1 S0 centerId)
      ((fsAcc1 S0 centerId).1.heap.objs.getD cref {}).fid
  else fsAcc1 S0 centerId

/-- Step 3: if (centerNode.mid) addNode(centerNode.mid). -/
def fsAcc3 (S0 : HState) (centerId : String) (cref : Nat) :
    HState × JsMap Nat :=
  if ((fsAcc2 S0 centerId cref).1.heap.objs.getD cref {}).mid ≠ "" then
    hAddNode (fsAcc2 S0 centerId cref)
      ((fsAcc2 S0 centerId cref).1.heap.objs.getD cref {}).mid
  else fsAcc2 S0 centerId cref

/-- Step 4: centerNode.pids.forEach(addNode), the partner array read
through the center object's reference at this point. -/
def fsAcc4 (S0 : HState) (centerId : String) (cref : Nat) :
    HState × JsMap Nat :=
  ((fsAcc3 S0 centerId cref).1.heap.arrs.getD
      ((fsAcc3 S0 centerId cref).1.heap.objs.getD cref {}).pids []).foldl
    hAddNode (fsAcc3 S0 centerId cref)

/-- Step 5: childrenMap.get(centerId).forEach(addNode) when the entry
exists, the children array read through its reference at this point. -/
def fsAcc5 (S0 : HState) (centerId : String) (cref : Nat) :
    HState × JsMap Nat :=
  (match jget S0.childrenMapH centerId with
    | none => []
    | some ar => (fsAcc4 S0 centerId cref).1.heap.arrs.getD ar []).foldl
    hAddNode (fsAcc4 S0 centerId cref)

/-- Array.from(familySet.values()): the clone references in insertion
order. -/
def fsRefs (S0 : HState) (centerId : String) (cref : Nat) : List Nat :=
  (fsAcc5 S0 centerId cref).2.map (fun p => p.2)

/-- nodes.map(n => n.id): the node id set used for sanitizing. -/
def fsNodeIds (S0 : HState) (centerId : String) (cref : Nat) : List String :=
  (fsRefs S0 centerId cref).map
    (fun r => ((fsAcc5 S0 centerId cref).1.heap.objs.getD r {}).id)

/-- getFamilySet over the heap, statement by statement: collect the
clone references (center, parents, partners, children), then sanitize
each clone in order, returning the final state and the references. -/
def getFamilySetH (S0 : HState) (centerId : String) : HState × List Nat :=
  match jget S0.peopleMapH centerId with
  | none => (S0, [])
  | some cref =>
    ((fsRefs S0 centerId cref).foldl
      (sanitizeOneH (fsAcc5 S0 centerId cref).1.gm (fsNodeIds S0 centerId cref))
      (fsAcc5 S0 centerId cref).1,
     fsRefs S0 centerId cref)

/-- Calling the extractor twice in sequence on the heap image of a
store: the two (state, result) pairs. -/
def extractTwice (st : Store) (focusId : String) :
    (HState × List Nat) × (HState × List Nat) :=
  let first := getFamilySetH (storeToHState st) focusId
  (first, getFamilySetH first.1 focusId)

/-- The heap state is a faithful image of the pure store: every map
entry dereferences to the corresponding pure value, all references are
in bounds, and the gender map agrees. -/
def Represents (S : HState) (st : Store) : Prop :=
  (∀ k, Option.map (derefPerson S.heap) (jget S.peopleMapH k)
      = jget st.peopleMap k)
  ∧ (∀ k r, jget S.peopleMapH k = some r →
      r < S.heap.objs.length
        ∧ (S.heap.objs.getD r {}).pids < S.heap.arrs.length)
  ∧ (∀ k, Option.map (fun r => S.heap.arrs.getD r []) (jget S.childrenMapH k)
      = jget st.childrenMap k)
  ∧ (∀ k r, jget S.childrenMapH k = some r → r < S.heap.arrs.length)
  ∧ S.gm = st.genderMap

/-- Invariant of the clone-collection phase, relating the heap family
set to the pure one: maps and arrays untouched, original objects
preserved, every clone fresh, in bounds, with a valid pids reference,
references strictly increasing, and the pure family set is the
dereferenced heap family set. -/
def SetInv (st : Store) (S0 : HState) (fsP : JsMap Person)
    (acc : HState × JsMap Nat) : Prop :=
  Represents acc.1 st
  ∧ acc.1.peopleMapH = S0.peopleMapH
  ∧ acc.1.childrenMapH = S0.childrenMapH
  ∧ acc.1.gm = S0.gm
  ∧ acc.1.heap.arrs = S0.heap.arrs
  ∧ S0.heap.objs.length ≤ acc.1.heap.objs.length
  ∧ acc.1.heap.objs.take S0.heap.objs.length = S0.heap.objs
  ∧ (∀ p ∈ acc.2, S0.heap.objs.length ≤ p.2 ∧ p.2 < acc.1.heap.objs.length
      ∧ (acc.1.heap.objs.getD p.2 {}).pids < S0.heap.arrs.length)
  ∧ (acc.2.map Prod.snd).Pairwise (· < ·)
  ∧ fsP = acc.2.map (fun p => (p.1, derefPerson acc.1.heap p.2))

/-! ### A common core of the three BFS loops (for claim C8)

getAncestors, getAncestorPath and getDescendantPath share one loop shape:
dequeue, skip if visited, else mark visited and expand the node's
successors.  The depth-recording engine below abstracts that shape over
the successor function (parent links read through peopleMap for the
upward loops, childrenMap entries for the downward one) and is related to
each concrete loop by lock-step lemmas. -/

/-- The parent ids a person record contributes to the upward BFS queue:
fid first, then mid, each when truthy. -/
def parentsOf (p : Person) : List String :=
  (if p.fid ≠ "" then [p.fid] else []) ++ (if p.mid ≠ "" then [p.mid] else [])

/-- Upward successor function: the parents of the record at an id. -/
def succUp (pm : JsMap Person) (v : String) : List String :=
  match jget pm v with
  | none => []
  | some p => parentsOf p

/-- Whether an id resolves in peopleMap (the upward loops record and
expand only resolvable ids). -/
def hasRec (pm : JsMap Person) (v : String) : Bool := (jget pm v).isSome

/-- Downward successor function: the children list of an id. -/
def succDown (cm : JsMap (List String)) (v : String) : List String :=
  (jget cm v).getD []

/-- The generic visited-guarded BFS engine recording the depth of each
present node at its first unvisited dequeue. -/
def bfsGo (present : String → Bool) (succ : String → List String) :
    Nat → List (String × Nat) → List String → JsMap Nat → Option (JsMap Nat)
  | 0, _, _, _ => none
  | _ + 1, [], _, acc => some acc
  | fuel + 1, (v, d) :: rest, visited, acc =>
    if visited.contains v then bfsGo present succ fuel rest visited acc
    else if present v then
      bfsGo present succ fuel (rest ++ (succ v).map (fun w => (w, d + 1)))
        (v :: visited) (jset acc v d)
    else bfsGo present succ fuel rest (v :: visited) acc

/-- Graph reachability along the successor function in exactly n steps,
where every expanded node must be present. -/
inductive Reach (present : String → Bool) (succ : String → List String)
    (s : String) : Nat → String → Prop where
  | refl : Reach present succ s 0 s
  | step : ∀ {n : Nat} {u w : String}, Reach present succ s n u →
      present u = true → w ∈ succ u → Reach present succ s (n + 1) w

/-- An entry of the first ancestor map that is a common ancestor
minimising the summed depth over all common entries. -/
def IsCommonMinEntry (a1 a2 : JsMap Nat) (p : String × Nat) : Prop :=
  (jget a2 p.1).isSome = true
  ∧ ∀ q ∈ a1, (jget a2 q.1).isSome = true
      → p.2 + (jget a2 p.1).getD 0 ≤ q.2 + (jget a2 q.1).getD 0

instance (a1 a2 : JsMap Nat) (p : String × Nat) :
    Decidable (IsCommonMinEntry a1 a2 p) :=
  decidable_of_iff ((jget a2 p.1).isSome = true
    ∧ ∀ q ∈ a1, (jget a2 q.1).isSome = true
      → p.2 + (jget a2 p.1).getD 0 ≤ q.2 + (jget a2 q.1).getD 0) Iff.rfl

/-- The amended-claim hypothesis: the minimal-sum common ancestor is
unique (the documented tie-break never has to choose). -/
def UniqueCommonMin (a1 a2 : JsMap Nat) : Prop :=
  ∀ p ∈ a1, ∀ q ∈ a1, IsCommonMinEntry a1 a2 p → IsCommonMinEntry a1 a2 q
    → p.1 = q.1

instance (a1 a2 : JsMap Nat) : Decidable (UniqueCommonMin a1 a2) :=
  decidable_of_iff (∀ p ∈ a1, ∀ q ∈ a1, IsCommonMinEntry a1 a2 p
    → IsCommonMinEntry a1 a2 q → p.1 = q.1) Iff.rfl

/-- A store with two tied minimal-sum common ancestors for x and y: both
A (up 1 from x, up 3 from y) and B (up 3 from x, up 1 from y) have summed
depth 4.  Resolve(x, y) picks A, Resolve(y, x) picks B. -/
def cexC8records : List Person :=
  [{ id := "x", fid := "A", mid := "N1" },
   { id := "A" },
   { id := "N1", mid := "N2" },
   { id := "N2", fid := "B" },
   { id := "y", fid := "B", mid := "M1" },
   { id := "B" },
   { id := "M1", mid := "M2" },
   { id := "M2", fid := "A" }]

/-- The store built from the tied-ancestor records. -/
def cexC8store : Store := buildLookups cexC8records []

/-- A chain store witness id list check helper is not needed; the chain
store witChainStore serves as the amended-claim witness input. -/
def witC8x : String := "C"

/-- The second id of the amended-claim witness. -/
def witC8y : String := "B"

/-! ## Lemmas about the map operations -/

theorem find?_cons_pos {α : Type} (p : α → Bool) (a : α) (l : List α)
    (h : p a = true) : List.find? p (a :: l) = some a := by
  have h0 : List.find? p (a :: l)
      = match p a with | true => some a | false => List.find? p l := rfl
  rw [h0, h]

theorem find?_cons_neg {α : Type} (p : α → Bool) (a : α) (l : List α)
    (h : p a = false) : List.find? p (a :: l) = List.find? p l := by
  have h0 : List.find? p (a :: l)
      = match p a with | true => some a | false => List.find? p l := rfl
  rw [h0, h]

theorem find?_map_key_eq {α : Type} (m : JsMap α) (k : String) (v : α)
    (h : m.any (fun p => p.1 == k) = true) :
    (m.map (fun p => if p.1 == k then (k, v) else p)).find? (fun p => p.1 == k)
      = some (k, v) := by
  induction m with
  | nil => simp at h
  | cons x t ih =>
    rw [List.map_cons]
    by_cases hx : x.1 = k
    · have hxk : (x.1 == k) = true := beq_iff_eq.mpr hx
      rw [if_pos hxk]
      exact find?_cons_pos _ _ _ (beq_self_eq_true k)
    · have hxk : (x.1 == k) = false := beq_eq_false_iff_ne.mpr hx
      rw [if_neg (by simp [hxk])]
      rw [find?_cons_neg (fun p => p.1 == k) x _ hxk]
      apply ih
      simpa [hxk] using h

theorem find?_map_key_ne {α : Type} (m : JsMap α) (k k' : String) (v : α)
    (hk : k' ≠ k) :
    (m.map (fun p => if p.1 == k then (k, v) else p)).find? (fun p => p.1 == k')
      = m.find? (fun p => p.1 == k') := by
  induction m with
  | nil => simp
  | cons x t ih =>
    rw [List.map_cons]
    by_cases hx : x.1 = k
    · have hxk : (x.1 == k) = true := beq_iff_eq.mpr hx
      have hne : (k == k') = false := beq_eq_false_iff_ne.mpr (fun h2 => hk h2.symm)
      have hne2 : (x.1 == k') = false :=
        beq_eq_false_iff_ne.mpr (by rw [hx]; exact fun h2 => hk h2.symm)
      rw [if_pos hxk]
      rw [find?_cons_neg (fun p => p.1 == k') (k, v) _ hne,
        find?_cons_neg (fun p => p.1 == k') x _ hne2]
      exact ih
    · have hxk : (x.1 == k) = false := beq_eq_false_iff_ne.mpr hx
      rw [if_neg (by simp [hxk])]
      by_cases hx3 : x.1 = k'
      · have h3 : (x.1 == k') = true := beq_iff_eq.mpr hx3
        rw [find?_cons_pos (fun p => p.1 == k') x _ h3,
          find?_cons_pos (fun p => p.1 == k') x _ h3]
      · have h3 : (x.1 == k') = false := beq_eq_false_iff_ne.mpr hx3
        rw [find?_cons_neg (fun p => p.1 == k') x _ h3,
          find?_cons_neg (fun p => p.1 == k') x _ h3]
        exact ih

theorem jget_jset_self {α : Type} (m : JsMap α) (k : String) (v : α) :
    jget (jset m k v) k = some v := by
  unfold jget jset
  by_cases h : m.any (fun p => p.1 == k) = true
  · rw [if_pos h, find?_map_key_eq m k v h]
    rfl
  · have h2 : m.find? (fun p => p.1 == k) = none := by
      rw [List.find?_eq_none]
      intro x hx hpx
      exact h (List.any_eq_true.mpr ⟨x, hx, hpx⟩)
    rw [if_neg h, List.find?_append, h2, Option.none_or,
      find?_cons_pos (fun p => p.1 == k) (k, v) [] (beq_self_eq_true k)]
    rfl

theorem jget_jset_ne {α : Type} (m : JsMap α) (k k' : String) (v : α)
    (hk : k' ≠ k) : jget (jset m k v) k' = jget m k' := by
  unfold jget jset
  by_cases h : m.any (fun p => p.1 == k) = true
  · rw [if_pos h, find?_map_key_ne m k k' v hk]
  · have hne : (k == k') = false := beq_eq_false_iff_ne.mpr (fun h2 => hk h2.symm)
    rw [if_neg h, List.find?_append, find?_cons_neg (fun p => p.1 == k') (k, v) [] hne,
      List.find?_nil, Option.or_none]

theorem jget_jset (m : JsMap α) (k k' : String) (v : α) :
    jget (jset m k v) k' = if k' = k then some v else jget m k' := by
  by_cases h : k' = k
  · subst h; simp [jget_jset_self]
  · simp [h, jget_jset_ne m k k' v h]

theorem jhas_iff_jget_isSome {α : Type} (m : JsMap α) (k : String) :
    jhas m k = true ↔ (jget m k).isSome = true := by
  unfold jhas jget
  constructor
  · intro h
    obtain ⟨x, hx, hpx⟩ := List.any_eq_true.mp h
    cases hf : m.find? (fun p => p.1 == k) with
    | none => exact absurd hpx (List.find?_eq_none.mp hf x hx)
    | some y => simp [hf]
  · intro h
    cases hf : m.find? (fun p => p.1 == k) with
    | none => rw [hf] at h; simp at h
    | some y =>
      refine List.any_eq_true.mpr ⟨y, List.mem_of_find?_eq_some hf, ?_⟩
      exact List.find?_some (p := fun q : String × α => q.1 == k) hf

theorem jget_mapValues {α β : Type} (m : JsMap α) (f : α → β) (k : String) :
    jget (m.map (fun p => (p.1, f p.2))) k = (jget m k).map f := by
  induction m with
  | nil => simp [jget]
  | cons x t ih =>
    by_cases hx : x.1 = k
    · simp [jget, List.find?, hx]
    · have hx2 : (x.1 == k) = false := by simp [hx]
      simp only [jget, List.map_cons, List.find?, hx2] at ih ⊢
      exact ih

/-! ## The executable string order is the lexicographic order -/

theorem char_lt_iff_toNat (c d : Char) : c < d ↔ c.toNat < d.toNat := Iff.rfl

theorem char_eq_of_toNat_eq (c d : Char) (h : c.toNat = d.toNat) : c = d :=
  Char.eq_of_val_eq (UInt32.eq_of_toBitVec_eq (BitVec.toNat_injective h))

theorem strLtAux_iff_lex (cs ds : List Char) :
    strLtAux cs ds = true ↔ List.Lex (· < ·) cs ds := by
  induction cs generalizing ds with
  | nil =>
    cases ds with
    | nil =>
      simp only [strLtAux, Bool.false_eq_true, false_iff]
      intro h; cases h
    | cons d ds =>
      simp only [strLtAux, true_iff]
      exact List.Lex.nil
  | cons c cs ih =>
    cases ds with
    | nil =>
      simp only [strLtAux, Bool.false_eq_true, false_iff]
      intro h; cases h
    | cons d ds =>
      by_cases h1 : c.toNat < d.toNat
      · simp only [strLtAux, h1, if_true, true_iff]
        exact List.Lex.rel ((char_lt_iff_toNat c d).mpr h1)
      · by_cases h2 : d.toNat < c.toNat
        · simp only [strLtAux, h1, if_false, h2, if_true, Bool.false_eq_true, false_iff]
          intro h
          cases h with
          | rel hr => exact h1 ((char_lt_iff_toNat c d).mp hr)
          | cons _ => exact Nat.lt_irrefl _ h2
        · have hcd : c = d := char_eq_of_toNat_eq c d (Nat.le_antisymm (Nat.le_of_not_lt h2) (Nat.le_of_not_lt h1))
          subst hcd
          simp only [strLtAux, h1, if_false, h2, if_false]
          rw [ih]
          constructor
          · intro h; exact List.Lex.cons h
          · intro h
            cases h with
            | rel hr => exact absurd ((char_lt_iff_toNat c c).mp hr) (Nat.lt_irrefl _)
            | cons h => exact h

theorem strLtB_iff_lt (a b : String) : strLtB a b = true ↔ a < b := by
  have h1 : (a < b) ↔ List.Lex (· < ·) a.data b.data := by
    rw [String.lt_iff_toList_lt]
    exact Iff.rfl
  rw [h1, strLtB, strLtAux_iff_lex]

theorem strLeB_iff_le (a b : String) : strLeB a b = true ↔ a ≤ b := by
  unfold strLeB
  constructor
  · intro h
    have hb : ¬ b < a := by
      intro hlt
      rw [(strLtB_iff_lt b a).mpr hlt] at h
      simp at h
    exact le_of_not_lt hb
  · intro h
    have hb : strLtB b a = false := by
      cases hb : strLtB b a with
      | false => rfl
      | true => exact absurd ((strLtB_iff_lt b a).mp hb) (not_lt_of_le h)
    rw [hb]
    rfl

instance : IsTotal String (fun a b => strLeB a b = true) := by
  constructor
  intro a b
  rcases le_total a b with h | h
  · exact Or.inl ((strLeB_iff_le a b).mpr h)
  · exact Or.inr ((strLeB_iff_le b a).mpr h)

instance : IsTrans String (fun a b => strLeB a b = true) := by
  constructor
  intro a b c hab hbc
  exact (strLeB_iff_le a c).mpr (le_trans ((strLeB_iff_le a b).mp hab) ((strLeB_iff_le b c).mp hbc))

theorem jsSortStrings_sorted (l : List String) :
    (jsSortStrings l).Sorted (· ≤ ·) := by
  have h := List.sorted_insertionSort (fun a b => strLeB a b = true) l
  exact h.imp (fun hab => (strLeB_iff_le _ _).mp hab)

theorem jsSortStrings_perm (l : List String) : (jsSortStrings l).Perm l :=
  List.perm_insertionSort _ l

/-! ## The childrenMap built by buildLookups -/

theorem jget_eq_none_of_jhas_false {α : Type} (m : JsMap α) (k : String)
    (h : jhas m k = false) : jget m k = none := by
  cases hg : jget m k with
  | none => rfl
  | some v =>
    have h2 : (jget m k).isSome = true := by rw [hg]; rfl
    rw [← jhas_iff_jget_isSome, h] at h2
    simp at h2

theorem addChild_jget (m : JsMap (List String)) (key cid p : String) :
    jget (addChild m key cid) p
      = if p = key then some ((jget m key).getD [] ++ [cid]) else jget m p := by
  by_cases hp : p = key
  · subst hp
    rw [if_pos rfl]
    by_cases hh : jhas m p = true
    · simp only [addChild, hh, if_true]
      exact jget_jset_self m p _
    · have hh2 : jhas m p = false := by
        cases h3 : jhas m p with
        | false => rfl
        | true => exact absurd h3 hh
      simp only [addChild, hh2, Bool.false_eq_true, if_false]
      rw [jget_jset_self]
      rw [jget_eq_none_of_jhas_false m p hh2]
      rw [jget_jset_self]
      rfl
  · rw [if_neg hp]
    by_cases hh : jhas m key = true
    · simp only [addChild, hh, if_true]
      exact jget_jset_ne m key p _ hp
    · have hh2 : jhas m key = false := by
        cases h3 : jhas m key with
        | false => rfl
        | true => exact absurd h3 hh
      simp only [addChild, hh2, Bool.false_eq_true, if_false]
      rw [jget_jset_ne _ key p _ hp, jget_jset_ne _ key p _ hp]

theorem combineOpt_assoc (o : Option (List String)) (l1 l2 : List String) :
    combineOpt (combineOpt o l1) l2 = combineOpt o (l1 ++ l2) := by
  unfold combineOpt
  by_cases h1 : l1 = []
  · subst h1; simp
  · by_cases h2 : l2 = []
    · subst h2; simp [h1]
    · have h12 : l1 ++ l2 ≠ [] := by simp [h1]
      simp [h1, h2, h12, List.append_assoc]

theorem condAddChild_jget (c : Prop) [Decidable c]
    (m : JsMap (List String)) (key cid p : String) :
    jget (if c then addChild m key cid else m) p
      = combineOpt (jget m p) (if c ∧ key = p then [cid] else []) := by
  by_cases h : c
  · rw [if_pos h, addChild_jget]
    by_cases hp : p = key
    · subst hp
      rw [if_pos rfl, if_pos ⟨h, rfl⟩]
      unfold combineOpt
      simp
    · rw [if_neg hp, if_neg (fun h2 => hp h2.2.symm)]
      unfold combineOpt
      simp
  · rw [if_neg h, if_neg (fun h2 => h h2.1)]
    unfold combineOpt
    simp

theorem childStep_jget (cm : JsMap (List String)) (r : Person) (p : String) :
    jget (childStep cm r) p = combineOpt (jget cm p) (childContrib p r) := by
  unfold childStep childContrib
  rw [condAddChild_jget (r.mid ≠ "") _ r.mid r.id p,
    condAddChild_jget (r.fid ≠ "") _ r.fid r.id p, combineOpt_assoc]

theorem foldl_childStep_jget (records : List Person) :
    ∀ (cm0 : JsMap (List String)) (p : String),
      jget (records.foldl childStep cm0) p
        = combineOpt (jget cm0 p) (childrenSpec records p) := by
  induction records with
  | nil =>
    intro cm0 p
    simp [childrenSpec, combineOpt]
  | cons r rest ih =>
    intro cm0 p
    rw [List.foldl_cons, ih (childStep cm0 r) p, childStep_jget]
    rw [combineOpt_assoc]
    have h : childrenSpec (r :: rest) p = childContrib p r ++ childrenSpec rest p := by
      simp [childrenSpec]
    rw [h]

theorem buildMaps_snd (records : List Person) :
    (buildMaps records).2 = records.foldl childStep [] := by
  have h : ∀ (rs : List Person) (pm0 : JsMap Person) (cm0 : JsMap (List String)),
      (rs.foldl (fun maps person => (jset maps.1 person.id person, childStep maps.2 person))
          (pm0, cm0)).2
        = rs.foldl childStep cm0 := by
    intro rs
    induction rs with
    | nil => intro pm0 cm0; rfl
    | cons r rest ih => intro pm0 cm0; exact ih _ _
  exact h records [] []

theorem buildLookups_childrenMap (records : List Person) (g0 : JsMap String)
    (p : String) :
    jget (buildLookups records g0).childrenMap p
      = (combineOpt none (childrenSpec records p)).map jsSortStrings := by
  show jget (sortChildren (buildMaps records).2) p = _
  unfold sortChildren
  rw [jget_mapValues, buildMaps_snd, foldl_childStep_jget]
  rfl

theorem childrenSpec_eq_filter (records : List Person) (p : String)
    (hcond : ∀ r ∈ records, r.fid = "" ∨ r.fid ≠ r.mid) :
    childrenSpec records p
      = (records.filter
          (fun r => decide ((r.fid ≠ "" ∧ r.fid = p) ∨ (r.mid ≠ "" ∧ r.mid = p)))).map Person.id := by
  induction records with
  | nil => rfl
  | cons r rest ih =>
    have hr := hcond r (by simp)
    have hrest : ∀ x ∈ rest, x.fid = "" ∨ x.fid ≠ x.mid :=
      fun x hx => hcond x (by simp [hx])
    have hcs : childrenSpec (r :: rest) p = childContrib p r ++ childrenSpec rest p := by
      simp [childrenSpec]
    rw [hcs, ih hrest, List.filter_cons]
    by_cases hf : r.fid ≠ "" ∧ r.fid = p
    · by_cases hm : r.mid ≠ "" ∧ r.mid = p
      · exfalso
        rcases hr with hr | hr
        · exact hf.1 hr
        · exact hr (hf.2.trans hm.2.symm)
      · have : decide ((r.fid ≠ "" ∧ r.fid = p) ∨ (r.mid ≠ "" ∧ r.mid = p)) = true := by
          simp only [decide_eq_true_eq]
          exact Or.inl hf
        rw [this]
        unfold childContrib
        rw [if_pos hf, if_neg hm]
        simp
    · by_cases hm : r.mid ≠ "" ∧ r.mid = p
      · have : decide ((r.fid ≠ "" ∧ r.fid = p) ∨ (r.mid ≠ "" ∧ r.mid = p)) = true := by
          simp only [decide_eq_true_eq]
          exact Or.inr hm
        rw [this]
        unfold childContrib
        rw [if_neg hf, if_pos hm]
        simp
      · have : decide ((r.fid ≠ "" ∧ r.fid = p) ∨ (r.mid ≠ "" ∧ r.mid = p)) = false := by
          simp only [decide_eq_false_iff_not]
          rintro (h | h)
          · exact hf h
          · exact hm h
        rw [this]
        unfold childContrib
        rw [if_neg hf, if_neg hm]
        simp

/-- C3 (counterexample): as stated, the claim fails — a record whose
fatherId equals its motherId is pushed twice onto that parent's children
list, so childrenOf[p] can contain duplicates. -/
theorem claim_C3_counterexample :
    jget (buildLookups cexC3records []).childrenMap "p" = some ["c", "c"] ∧
    ¬ (∀ (p : String) (l : List String),
        jget (buildLookups cexC3records []).childrenMap p = some l → l.Nodup) := by
  constructor
  · decide
  · intro h
    have h2 := h "p" ["c", "c"] (by decide)
    exact absurd h2 (by decide)

/-- C3 (amended): for every built store, every childrenOf list is sorted
ascending by id in lexicographic string order; and it contains no
duplicates provided the records have pairwise distinct ids and no record
lists the same id as both father and mother. -/
theorem claim_C3_amended (records : List Person) (g0 : JsMap String)
    (p : String) (l : List String)
    (h : jget (buildLookups records g0).childrenMap p = some l) :
    l.Sorted (· ≤ ·) ∧
    ((records.map Person.id).Nodup →
      (∀ r ∈ records, r.fid = "" ∨ r.fid ≠ r.mid) → l.Nodup) := by
  rw [buildLookups_childrenMap] at h
  unfold combineOpt at h
  by_cases hsp : childrenSpec records p = []
  · rw [if_pos hsp] at h
    exact absurd h (by simp)
  · rw [if_neg hsp] at h
    have h2 : some (jsSortStrings (childrenSpec records p)) = some l := h
    have hl : l = jsSortStrings (childrenSpec records p) := (Option.some.inj h2).symm
    constructor
    · rw [hl]
      exact jsSortStrings_sorted _
    · intro hids hcond
      have hraw : (childrenSpec records p).Nodup := by
        rw [childrenSpec_eq_filter records p hcond]
        have hsub : ((records.filter
              (fun r => decide ((r.fid ≠ "" ∧ r.fid = p) ∨ (r.mid ≠ "" ∧ r.mid = p)))).map Person.id).Sublist
            (records.map Person.id) :=
          (List.filter_sublist records).map Person.id
        exact hids.sublist hsub
      rw [hl]
      exact ((jsSortStrings_perm (childrenSpec records p)).nodup_iff).mpr hraw

/-- C3 (witness): a concrete store with two children of one father; the
children list comes out sorted and duplicate-free. -/
theorem claim_C3_witness :
    (["b", "c"] : List String).Sorted (· ≤ ·) ∧ (["b", "c"] : List String).Nodup := by
  have h := claim_C3_amended witC3records [] "p" ["b", "c"] (by decide)
  exact ⟨h.1, h.2 (by decide) (by decide)⟩

/-! ## Gender inference never overwrites explicit data (C5) -/

theorem truthy_of_some_ne (v : String) (hv : v ≠ "") : truthy (some v) = true := by
  simp [truthy, hv]

theorem jhas_of_jget_some {α : Type} (m : JsMap α) (k : String) (v : α)
    (h : jget m k = some v) : jhas m k = true := by
  rw [jhas_iff_jget_isSome, h]
  rfl

theorem foldl_jget_invariant {α : Type} (id v : String)
    (f : JsMap String → α → JsMap String)
    (hf : ∀ g x, jget g id = some v → jget (f g x) id = some v) :
    ∀ (l : List α) (g : JsMap String),
      jget g id = some v → jget (l.foldl f g) id = some v := by
  intro l
  induction l with
  | nil => intro g h; exact h
  | cons x t ih => intro g h; exact ih (f g x) (hf g x h)

theorem pass1Step_preserves (id v : String) (g : JsMap String) (person : Person)
    (h : jget g id = some v) :
    jget (pass1Step g person) id = some v := by
  unfold pass1Step
  have hstep1 : jget (if person.fid ≠ "" ∧ ¬ jhas g person.fid then
      jset g person.fid "M" else g) id = some v := by
    by_cases c1 : person.fid ≠ "" ∧ ¬ jhas g person.fid
    · rw [if_pos c1]
      have hne : id ≠ person.fid := by
        intro he
        rw [← he] at c1
        exact c1.2 (jhas_of_jget_some g id v h)
      rw [jget_jset_ne g person.fid id _ hne]
      exact h
    · rw [if_neg c1]; exact h
  set g2 := if person.fid ≠ "" ∧ ¬ jhas g person.fid then jset g person.fid "M" else g with hg2
  by_cases c2 : person.mid ≠ "" ∧ ¬ jhas g2 person.mid
  · rw [if_pos c2]
    have hne : id ≠ person.mid := by
      intro he
      rw [← he] at c2
      exact c2.2 (jhas_of_jget_some g2 id v hstep1)
    rw [jget_jset_ne g2 person.mid id _ hne]
    exact hstep1
  · rw [if_neg c2]; exact hstep1

theorem partnerStep_preserves (pm : JsMap Person) (p1id p2 id v : String)
    (g : JsMap String) (h : jget g id = some v) (hv : v ≠ "") :
    jget (partnerStep pm p1id g p2) id = some v := by
  unfold partnerStep
  by_cases h1 : ¬ jhas pm p2 = true
  · rw [if_pos h1]; exact h
  · rw [if_neg h1]
    have hg' : jget (if truthy (jget g p1id) ∧ ¬ truthy (jget g p2) then
        jset g p2 (if (jget g p1id).getD "" = "M" then "F" else "M") else g) id = some v := by
      by_cases c1 : truthy (jget g p1id) ∧ ¬ truthy (jget g p2)
      · rw [if_pos c1]
        have hne : id ≠ p2 := by
          intro he
          rw [← he, h] at c1
          exact c1.2 (truthy_of_some_ne v hv)
        rw [jget_jset_ne g p2 id _ hne]
        exact h
      · rw [if_neg c1]; exact h
    by_cases c2 : ¬ truthy (jget g p1id) ∧ truthy (jget g p2)
    · rw [if_pos c2]
      have hne : id ≠ p1id := by
        intro he
        rw [← he, h] at c2
        exact c2.1 (truthy_of_some_ne v hv)
      rw [jget_jset_ne _ p1id id _ hne]
      exact hg'
    · rw [if_neg c2]; exact hg'

theorem genderPass2Once_preserves (pm : JsMap Person) (records : List Person)
    (id v : String) (g : JsMap String) (h : jget g id = some v) (hv : v ≠ "") :
    jget (genderPass2Once pm records g) id = some v := by
  unfold genderPass2Once
  apply foldl_jget_invariant id v _ _ records g h
  intro g1 person h1
  by_cases hp : person.pids ≠ []
  · rw [if_pos hp]
    exact foldl_jget_invariant id v (partnerStep pm person.id)
      (fun g2 x h2 => partnerStep_preserves pm person.id x id v g2 h2 hv)
      person.pids g1 h1
  · rw [if_neg hp]; exact h1

theorem genderPass2Iter_preserves (pm : JsMap Person) (records : List Person)
    (id v : String) (hv : v ≠ "") :
    ∀ (n : Nat) (g : JsMap String), jget g id = some v →
      jget (genderPass2Iter pm records n g) id = some v := by
  intro n
  induction n with
  | zero => intro g h; exact h
  | succ k ih =>
    intro g h
    exact ih _ (genderPass2Once_preserves pm records id v g h hv)

/-- C5: gender inference never overwrites an explicitly supplied gender
value — after both the parenthood pass and the five partnership passes,
the gender of any id that had a (non-empty) explicit value is unchanged. -/
theorem claim_C5 (records : List Person) (g0 : JsMap String) (id v : String)
    (hv : jget g0 id = some v) (hne : v ≠ "") :
    jget (buildLookups records g0).genderMap id = some v := by
  show jget (genderPass2Iter (buildMaps records).1 records 5 (genderPass1 records g0)) id = some v
  apply genderPass2Iter_preserves _ _ id v hne 5
  unfold genderPass1
  exact foldl_jget_invariant id v pass1Step
    (fun g x h => pass1Step_preserves id v g x h) records g0 hv

/-- C5 (witness): an explicit F for id x survives inference in a store
whose parenthood pass would otherwise infer M for x. -/
theorem claim_C5_witness :
    jget (buildLookups witC5records [("x", "F")]).genderMap "x" = some "F" :=
  claim_C5 witC5records [("x", "F")] "x" "F" (by decide) (by decide)

/-! ## Termination of the BFS loops (C6) and their step equations -/

theorem unvisitedWeight_cons_le (keys : List String) (w : String → Nat)
    (visited : List String) (x : String) :
    unvisitedWeight keys w (x :: visited) ≤ unvisitedWeight keys w visited := by
  unfold unvisitedWeight
  induction keys with
  | nil => simp
  | cons k ks ih =>
    rw [List.filter_cons, List.filter_cons]
    by_cases hv : visited.contains k = true
    · have hx : (x :: visited).contains k = true := by
        rw [List.contains_cons, hv]
        simp
      simp only [hx, hv, Bool.not_true, Bool.false_eq_true, if_false]
      exact ih
    · have hv2 : visited.contains k = false := by
        cases h2 : visited.contains k with
        | false => rfl
        | true => exact absurd h2 hv
      by_cases hkx : k = x
      · have hx : (x :: visited).contains k = true := by
          rw [List.contains_cons]
          simp [hkx]
        simp only [hx, hv2, Bool.not_true, Bool.not_false, Bool.false_eq_true, if_false, if_true,
          List.map_cons, List.sum_cons]
        exact le_trans ih (Nat.le_add_left _ _)
      · have hx : (x :: visited).contains k = false := by
          rw [List.contains_cons, hv2]
          simp [hkx]
        simp only [hx, hv2, Bool.not_false, if_true, List.map_cons, List.sum_cons]
        exact Nat.add_le_add_left ih _

theorem unvisitedWeight_cons_lt (keys : List String) (w : String → Nat)
    (visited : List String) (x : String) (hx : x ∈ keys)
    (hv : visited.contains x = false) :
    unvisitedWeight keys w (x :: visited) + w x ≤ unvisitedWeight keys w visited := by
  induction keys with
  | nil => exact absurd hx (List.not_mem_nil x)
  | cons k ks ih =>
    by_cases hkx : k = x
    · subst hkx
      have hnew : (k :: visited).contains k = true := by
        rw [List.contains_cons]
        simp
      unfold unvisitedWeight
      rw [List.filter_cons, List.filter_cons, hnew, hv]
      simp only [Bool.not_true, Bool.not_false, Bool.false_eq_true, if_false, if_true,
        List.map_cons, List.sum_cons]
      have h2 := unvisitedWeight_cons_le ks w visited k
      unfold unvisitedWeight at h2
      omega
    · have hx2 : x ∈ ks := by
        rcases List.mem_cons.mp hx with h | h
        · exact absurd h.symm hkx
        · exact h
      have hsame : (x :: visited).contains k = visited.contains k := by
        rw [List.contains_cons]
        have : (k == x) = false := beq_eq_false_iff_ne.mpr hkx
        rw [this]
        simp
      unfold unvisitedWeight
      rw [List.filter_cons, List.filter_cons, hsame]
      have ihx := ih hx2
      unfold unvisitedWeight at ihx
      by_cases hvk : visited.contains k = true
      · rw [hvk]
        simp only [Bool.not_true, Bool.false_eq_true, if_false]
        exact ihx
      · have hvk2 : visited.contains k = false := by
          cases h2 : visited.contains k with
          | false => rfl
          | true => exact absurd h2 hvk
        rw [hvk2]
        simp only [Bool.not_false, if_true, List.map_cons, List.sum_cons]
        omega

theorem jget_some_mem_keys {α : Type} (m : JsMap α) (k : String) (v : α)
    (h : jget m k = some v) : k ∈ m.map Prod.fst := by
  unfold jget at h
  cases hf : m.find? (fun p => p.1 == k) with
  | none => rw [hf] at h; exact absurd h (by simp)
  | some e =>
    have he1 : e ∈ m := List.mem_of_find?_eq_some hf
    have he2 : (e.1 == k) = true := List.find?_some (p := fun q : String × α => q.1 == k) hf
    have he3 : e.1 = k := beq_iff_eq.mp he2
    rw [← he3]
    exact List.mem_map.mpr ⟨e, he1, rfl⟩

/-- The one-step equation of the getAncestors loop. -/
theorem getAncestorsGo_cons (pm : JsMap Person) (fuel : Nat) (current : DEntry)
    (rest : List DEntry) (visited : List String) (anc : JsMap Nat) :
    getAncestorsGo pm (fuel + 1) (current :: rest) visited anc
      = if visited.contains current.id then getAncestorsGo pm fuel rest visited anc
        else
          match jget pm current.id with
          | none => getAncestorsGo pm fuel rest (current.id :: visited) anc
          | some person =>
            getAncestorsGo pm fuel
              (if person.mid ≠ "" then
                  (if person.fid ≠ "" then rest ++ [⟨person.fid, current.depth + 1⟩] else rest)
                    ++ [⟨person.mid, current.depth + 1⟩]
                else (if person.fid ≠ "" then rest ++ [⟨person.fid, current.depth + 1⟩] else rest))
              (current.id :: visited) (jset anc current.id current.depth) := rfl

theorem getAncestorsGo_isSome (pm : JsMap Person) :
    ∀ (fuel : Nat) (queue : List DEntry) (visited : List String) (anc : JsMap Nat),
      queue.length + ancWeight pm visited < fuel →
      (getAncestorsGo pm fuel queue visited anc).isSome = true := by
  intro fuel
  induction fuel with
  | zero => intro q v a h; exact absurd h (Nat.not_lt_zero _)
  | succ f ih =>
    intro q v a h
    match q with
    | [] => rfl
    | current :: rest =>
      rw [getAncestorsGo_cons]
      rw [List.length_cons] at h
      by_cases hv : v.contains current.id = true
      · rw [if_pos hv]
        apply ih
        omega
      · have hv2 : v.contains current.id = false := by
          cases h2 : v.contains current.id with
          | false => rfl
          | true => exact absurd h2 hv
        rw [if_neg (by rw [hv2]; exact Bool.false_ne_true)]
        cases hjg : jget pm current.id with
        | none =>
          have hle := unvisitedWeight_cons_le (pm.map Prod.fst) (fun _ => 3) v current.id
          apply ih
          unfold ancWeight at h ⊢
          omega
        | some person =>
          have hmem : current.id ∈ pm.map Prod.fst := jget_some_mem_keys pm current.id person hjg
          have hlt : unvisitedWeight (pm.map Prod.fst) (fun _ => 3) (current.id :: v) + 3
              ≤ unvisitedWeight (pm.map Prod.fst) (fun _ => 3) v :=
            unvisitedWeight_cons_lt (pm.map Prod.fst) (fun _ => 3) v current.id hmem hv2
          apply ih
          have hlen : (if person.mid ≠ "" then
              (if person.fid ≠ "" then rest ++ [(⟨person.fid, current.depth + 1⟩ : DEntry)] else rest)
                ++ [(⟨person.mid, current.depth + 1⟩ : DEntry)]
            else (if person.fid ≠ "" then rest ++ [(⟨person.fid, current.depth + 1⟩ : DEntry)] else rest)).length
              ≤ rest.length + 2 := by
            by_cases h1 : person.fid ≠ "" <;> by_cases h2 : person.mid ≠ "" <;>
              simp [h1, h2]
          unfold ancWeight at h ⊢
          omega

/-- The one-step equation of the getAncestorPath loop. -/
theorem getAncestorPathGo_cons (pm : JsMap Person) (target : String) (fuel : Nat)
    (current : PEntry) (rest : List PEntry) (visited : List String) :
    getAncestorPathGo pm target (fuel + 1) (current :: rest) visited
      = if visited.contains current.id then getAncestorPathGo pm target fuel rest visited
        else if current.id = target then some (some current.path)
        else
          match jget pm current.id with
          | none => getAncestorPathGo pm target fuel rest (current.id :: visited)
          | some p =>
            getAncestorPathGo pm target fuel
              (if p.mid ≠ "" then
                  (if p.fid ≠ "" then rest ++ [⟨p.fid, current.path ++ [p.fid]⟩] else rest)
                    ++ [⟨p.mid, current.path ++ [p.mid]⟩]
                else (if p.fid ≠ "" then rest ++ [⟨p.fid, current.path ++ [p.fid]⟩] else rest))
              (current.id :: visited) := rfl

theorem getAncestorPathGo_isSome (pm : JsMap Person) (target : String) :
    ∀ (fuel : Nat) (queue : List PEntry) (visited : List String),
      queue.length + ancWeight pm visited < fuel →
      (getAncestorPathGo pm target fuel queue visited).isSome = true := by
  intro fuel
  induction fuel with
  | zero => intro q v h; exact absurd h (Nat.not_lt_zero _)
  | succ f ih =>
    intro q v h
    match q with
    | [] => rfl
    | current :: rest =>
      rw [getAncestorPathGo_cons]
      rw [List.length_cons] at h
      by_cases hv : v.contains current.id = true
      · rw [if_pos hv]
        apply ih
        omega
      · have hv2 : v.contains current.id = false := by
          cases h2 : v.contains current.id with
          | false => rfl
          | true => exact absurd h2 hv
        rw [if_neg (by rw [hv2]; exact Bool.false_ne_true)]
        by_cases ht : current.id = target
        · rw [if_pos ht]
          rfl
        · rw [if_neg ht]
          cases hjg : jget pm current.id with
          | none =>
            have hle := unvisitedWeight_cons_le (pm.map Prod.fst) (fun _ => 3) v current.id
            apply ih
            unfold ancWeight at h ⊢
            omega
          | some person =>
            have hmem : current.id ∈ pm.map Prod.fst := jget_some_mem_keys pm current.id person hjg
            have hlt : unvisitedWeight (pm.map Prod.fst) (fun _ => 3) (current.id :: v) + 3
                ≤ unvisitedWeight (pm.map Prod.fst) (fun _ => 3) v :=
              unvisitedWeight_cons_lt (pm.map Prod.fst) (fun _ => 3) v current.id hmem hv2
            apply ih
            have hlen : (if person.mid ≠ "" then
                (if person.fid ≠ "" then rest ++ [(⟨person.fid, current.path ++ [person.fid]⟩ : PEntry)] else rest)
                  ++ [(⟨person.mid, current.path ++ [person.mid]⟩ : PEntry)]
              else (if person.fid ≠ "" then rest ++ [(⟨person.fid, current.path ++ [person.fid]⟩ : PEntry)] else rest)).length
                ≤ rest.length + 2 := by
              by_cases h1 : person.fid ≠ "" <;> by_cases h2 : person.mid ≠ "" <;>
                simp [h1, h2]
            unfold ancWeight at h ⊢
            omega

/-- The one-step equation of the getDescendantPath loop. -/
theorem getDescendantPathGo_cons (cm : JsMap (List String)) (target : String)
    (fuel : Nat) (current : PEntry) (rest : List PEntry) (visited : List String) :
    getDescendantPathGo cm target (fuel + 1) (current :: rest) visited
      = if visited.contains current.id then getDescendantPathGo cm target fuel rest visited
        else if current.id = target then some (some current.path)
        else
          getDescendantPathGo cm target fuel
            (rest ++ ((jget cm current.id).getD []).map
              (fun child => ⟨child, current.path ++ [child]⟩))
            (current.id :: visited) := rfl

theorem getDescendantPathGo_isSome (cm : JsMap (List String)) (target : String) :
    ∀ (fuel : Nat) (queue : List PEntry) (visited : List String),
      queue.length + descWeight cm visited < fuel →
      (getDescendantPathGo cm target fuel queue visited).isSome = true := by
  intro fuel
  induction fuel with
  | zero => intro q v h; exact absurd h (Nat.not_lt_zero _)
  | succ f ih =>
    intro q v h
    match q with
    | [] => rfl
    | current :: rest =>
      rw [getDescendantPathGo_cons]
      rw [List.length_cons] at h
      by_cases hv : v.contains current.id = true
      · rw [if_pos hv]
        apply ih
        omega
      · have hv2 : v.contains current.id = false := by
          cases h2 : v.contains current.id with
          | false => rfl
          | true => exact absurd h2 hv
        rw [if_neg (by rw [hv2]; exact Bool.false_ne_true)]
        by_cases ht : current.id = target
        · rw [if_pos ht]
          rfl
        · rw [if_neg ht]
          apply ih
          rw [List.length_append, List.length_map]
          unfold descWeight at h ⊢
          cases hjg : jget cm current.id with
          | none =>
            have hle := unvisitedWeight_cons_le (cm.map Prod.fst)
              (fun k => ((jget cm k).getD []).length + 1) v current.id
            simp only [Option.getD_none, List.length_nil]
            omega
          | some children =>
            have hmem : current.id ∈ cm.map Prod.fst :=
              jget_some_mem_keys cm current.id children hjg
            have hlt : unvisitedWeight (cm.map Prod.fst)
                  (fun k => ((jget cm k).getD []).length + 1) (current.id :: v)
                  + (((jget cm current.id).getD []).length + 1)
                ≤ unvisitedWeight (cm.map Prod.fst)
                  (fun k => ((jget cm k).getD []).length + 1) v :=
              unvisitedWeight_cons_lt (cm.map Prod.fst)
                (fun k => ((jget cm k).getD []).length + 1) v current.id hmem hv2
            rw [hjg] at hlt
            simp only [Option.getD_some] at hlt ⊢
            omega

/-- C6: every BFS loop terminates with fuel to spare on any store,
including cyclic ones (the visited guard ensures each store key is
expanded at most once), and gender-inference phase 2 performs exactly five
passes. -/
theorem claim_C6 (st : Store) (id target ancestorId : String)
    (pm : JsMap Person) (records : List Person) (g : JsMap String) :
    getAncestorsGo st.peopleMap (ancWeight st.peopleMap [] + 2) [⟨id, 0⟩] [] []
        = some (getAncestors st id) ∧
    getAncestorPathGo st.peopleMap target (ancWeight st.peopleMap [] + 2)
        [⟨id, [id]⟩] [] = some (getAncestorPath st id target) ∧
    getDescendantPathGo st.childrenMap target (descWeight st.childrenMap [] + 2)
        [⟨ancestorId, [ancestorId]⟩] [] = some (getDescendantPath st ancestorId target) ∧
    genderPass2Iter pm records 5 g
        = (genderPass2Once pm records)^[5] g := by
  refine ⟨?_, ?_, ?_, rfl⟩
  · have h := getAncestorsGo_isSome st.peopleMap (ancWeight st.peopleMap [] + 2)
      [⟨id, 0⟩] [] [] (by simp; omega)
    cases hr : getAncestorsGo st.peopleMap (ancWeight st.peopleMap [] + 2) [⟨id, 0⟩] [] [] with
    | none => rw [hr] at h; exact absurd h (by simp)
    | some r =>
      unfold getAncestors
      rw [hr]
      rfl
  · have h := getAncestorPathGo_isSome st.peopleMap target (ancWeight st.peopleMap [] + 2)
      [⟨id, [id]⟩] [] (by simp; omega)
    cases hr : getAncestorPathGo st.peopleMap target (ancWeight st.peopleMap [] + 2)
        [⟨id, [id]⟩] [] with
    | none => rw [hr] at h; exact absurd h (by simp)
    | some r =>
      unfold getAncestorPath
      rw [hr]
      rfl
  · have h := getDescendantPathGo_isSome st.childrenMap target (descWeight st.childrenMap [] + 2)
      [⟨ancestorId, [ancestorId]⟩] [] (by simp; omega)
    cases hr : getDescendantPathGo st.childrenMap target (descWeight st.childrenMap [] + 2)
        [⟨ancestorId, [ancestorId]⟩] [] with
    | none => rw [hr] at h; exact absurd h (by simp)
    | some r =>
      unfold getDescendantPath
      rw [hr]
      rfl

/-! ## Keys of the ancestor depth map (C10) -/

theorem mem_jset {α : Type} (m : JsMap α) (k : String) (v : α) :
    ∀ e ∈ jset m k v, e = (k, v) ∨ e ∈ m := by
  intro e he
  unfold jset at he
  by_cases h : m.any (fun p => p.1 == k) = true
  · rw [if_pos h] at he
    obtain ⟨x, hx, hxe⟩ := List.mem_map.mp he
    by_cases hxk : x.1 = k
    · left
      rw [← hxe]
      simp [hxk]
    · right
      rw [← hxe]
      have : (x.1 == k) = false := beq_eq_false_iff_ne.mpr hxk
      simp only [this, Bool.false_eq_true, if_false]
      exact hx
  · rw [if_neg h] at he
    rcases List.mem_append.mp he with h1 | h1
    · right; exact h1
    · left; simpa using h1

theorem getAncestorsGo_keys_present (pm : JsMap Person) :
    ∀ (fuel : Nat) (queue : List DEntry) (visited : List String) (anc res : JsMap Nat),
      (∀ e ∈ anc, (jget pm e.1).isSome = true) →
      getAncestorsGo pm fuel queue visited anc = some res →
      ∀ e ∈ res, (jget pm e.1).isSome = true := by
  intro fuel
  induction fuel with
  | zero =>
    intro q v a r hinv h
    exact absurd h (by simp [getAncestorsGo])
  | succ f ih =>
    intro q v a r hinv h
    match q with
    | [] =>
      have h2 : some a = some r := h
      rw [← Option.some.inj h2]
      exact hinv
    | current :: rest =>
      rw [getAncestorsGo_cons] at h
      by_cases hv : v.contains current.id = true
      · rw [if_pos hv] at h
        exact ih rest v a r hinv h
      · have hv2 : v.contains current.id = false := by
          cases h2 : v.contains current.id with
          | false => rfl
          | true => exact absurd h2 hv
        rw [if_neg (by rw [hv2]; exact Bool.false_ne_true)] at h
        cases hjg : jget pm current.id with
        | none =>
          rw [hjg] at h
          exact ih rest (current.id :: v) a r hinv h
        | some person =>
          rw [hjg] at h
          refine ih _ _ _ r ?_ h
          intro e he
          rcases mem_jset a current.id current.depth e he with h1 | h1
          · rw [h1]
            rw [hjg]
            rfl
          · exact hinv e h1

/-- C10: every key of the map returned by getAncestors resolves to a
person present in peopleMap (dangling parent ids are enqueued but never
recorded), and an absent start id yields the empty map with no depth-0
self entry. -/
theorem claim_C10 (st : Store) (id : String) :
    (∀ e ∈ getAncestors st id, (jget st.peopleMap e.1).isSome = true) ∧
    (jget st.peopleMap id = none → getAncestors st id = []) := by
  constructor
  · intro e he
    cases hr : getAncestorsGo st.peopleMap (ancWeight st.peopleMap [] + 2) [⟨id, 0⟩] [] [] with
    | none =>
      unfold getAncestors at he
      rw [hr] at he
      exact absurd he (List.not_mem_nil e)
    | some r =>
      have hpres := getAncestorsGo_keys_present st.peopleMap _ _ _ _ r
        (fun e' he' => absurd he' (List.not_mem_nil e')) hr
      unfold getAncestors at he
      rw [hr] at he
      exact hpres e he
  · intro hnone
    unfold getAncestors
    rw [show ancWeight st.peopleMap [] + 2 = (ancWeight st.peopleMap [] + 1) + 1 from rfl]
    simp [getAncestorsGo, hnone]

/-- C10 (witness): in a concrete store with a dangling father link, the
depth map contains only present persons, and an unknown start id yields
the empty map. -/
theorem claim_C10_witness :
    (∀ e ∈ getAncestors (buildLookups witC5records []) "c",
      (jget (buildLookups witC5records []).peopleMap e.1).isSome = true) ∧
    getAncestors (buildLookups witC5records []) "zz" = [] := by
  refine ⟨(claim_C10 (buildLookups witC5records []) "c").1, ?_⟩
  exact (claim_C10 (buildLookups witC5records []) "zz").2 (by decide)

/-! ## The common-ancestor selection of the resolver (C1) -/

theorem mem_imp_jget_isSome {α : Type} (m : JsMap α) (p : String × α)
    (hp : p ∈ m) : (jget m p.1).isSome = true := by
  rw [← jhas_iff_jget_isSome]
  exact List.any_eq_true.mpr ⟨p, hp, beq_self_eq_true p.1⟩

theorem findBestAncestor_eq_none (a1 a2 : JsMap Nat)
    (h : ∀ p ∈ a1, jget a2 p.1 = none) : findBestAncestor a1 a2 = none := by
  unfold findBestAncestor
  induction a1 with
  | nil => rfl
  | cons p t ih =>
    rw [List.foldl_cons]
    have hp := h p (by simp)
    have hstep : bestStep a2 none p = none := by
      unfold bestStep
      rw [hp]
    rw [hstep]
    exact ih (fun q hq => h q (by simp [hq]))

theorem bestStep_foldl_some (a2 : JsMap Nat) :
    ∀ (a1 : List (String × Nat)) (b : String) (bd : Nat) (c : String) (dist : Nat),
      List.foldl (bestStep a2) (some (b, bd)) a1 = some (c, dist) →
      (c = b ∧ dist = bd ∧ ∀ p ∈ a1, ∀ e, jget a2 p.1 = some e → bd ≤ p.2 + e) ∨
      (dist < bd ∧ ∃ l d1 r d2, a1 = l ++ (c, d1) :: r ∧ jget a2 c = some d2
        ∧ dist = d1 + d2
        ∧ (∀ p ∈ l, ∀ e, jget a2 p.1 = some e → dist < p.2 + e)
        ∧ (∀ p ∈ r, ∀ e, jget a2 p.1 = some e → dist ≤ p.2 + e)) := by
  intro a1
  induction a1 with
  | nil =>
    intro b bd c dist h
    rw [List.foldl_nil] at h
    have h2 : b = c ∧ bd = dist := by
      have h3 := Option.some.inj h
      exact ⟨congrArg Prod.fst h3, congrArg Prod.snd h3⟩
    left
    exact ⟨h2.1.symm, h2.2.symm, fun p hp => absurd hp (List.not_mem_nil p)⟩
  | cons p t ih =>
    intro b bd c dist h
    obtain ⟨p1, pd⟩ := p
    rw [List.foldl_cons] at h
    cases hjg : jget a2 p1 with
    | none =>
      have hstep : bestStep a2 (some (b, bd)) (p1, pd) = some (b, bd) := by
        simp [bestStep, hjg]
      rw [hstep] at h
      rcases ih b bd c dist h with ⟨hc, hd, hall⟩ |
        ⟨hlt, l, d1, r, d2, happ, hg, hsum, hl, hr⟩
      · left
        refine ⟨hc, hd, ?_⟩
        intro q hq e he
        rcases List.mem_cons.mp hq with hq1 | hq1
        · rw [hq1] at he
          have he2 : jget a2 p1 = some e := he
          rw [hjg] at he2
          exact Option.noConfusion he2
        · exact hall q hq1 e he
      · right
        refine ⟨hlt, (p1, pd) :: l, d1, r, d2, by rw [happ]; rfl, hg, hsum, ?_, hr⟩
        intro q hq e he
        rcases List.mem_cons.mp hq with hq1 | hq1
        · rw [hq1] at he
          have he2 : jget a2 p1 = some e := he
          rw [hjg] at he2
          exact Option.noConfusion he2
        · exact hl q hq1 e he
    | some d2 =>
      by_cases hlt : pd + d2 < bd
      · have hstep : bestStep a2 (some (b, bd)) (p1, pd) = some (p1, pd + d2) := by
          simp [bestStep, hjg, hlt]
        rw [hstep] at h
        rcases ih p1 (pd + d2) c dist h with ⟨hc, hd, hall⟩ |
          ⟨hlt2, l, d1, r, e2, happ, hg, hsum, hl, hr⟩
        · right
          refine ⟨by omega, [], pd, t, d2, ?_, ?_, hd, ?_, ?_⟩
          · rw [hc]
            rfl
          · rw [hc]
            exact hjg
          · intro q hq e he
            exact absurd hq (List.not_mem_nil q)
          · intro q hq e he
            rw [hd]
            exact hall q hq e he
        · right
          refine ⟨lt_trans hlt2 hlt, (p1, pd) :: l, d1, r, e2, by rw [happ]; rfl, hg, hsum, ?_, hr⟩
          intro q hq e he
          rcases List.mem_cons.mp hq with hq1 | hq1
          · rw [hq1] at he ⊢
            have he2 : jget a2 p1 = some e := he
            rw [hjg] at he2
            have he3 : e = d2 := (Option.some.inj he2).symm
            rw [he3]
            exact hlt2
          · exact hl q hq1 e he
      · have hstep : bestStep a2 (some (b, bd)) (p1, pd) = some (b, bd) := by
          simp [bestStep, hjg, hlt]
        rw [hstep] at h
        rcases ih b bd c dist h with ⟨hc, hd, hall⟩ |
          ⟨hlt2, l, d1, r, e2, happ, hg, hsum, hl, hr⟩
        · left
          refine ⟨hc, hd, ?_⟩
          intro q hq e he
          rcases List.mem_cons.mp hq with hq1 | hq1
          · rw [hq1] at he ⊢
            have he2 : jget a2 p1 = some e := he
            rw [hjg] at he2
            have he3 : e = d2 := (Option.some.inj he2).symm
            rw [he3]
            exact Nat.le_of_not_lt hlt
          · exact hall q hq1 e he
        · right
          refine ⟨hlt2, (p1, pd) :: l, d1, r, e2, by rw [happ]; rfl, hg, hsum, ?_, hr⟩
          intro q hq e he
          rcases List.mem_cons.mp hq with hq1 | hq1
          · rw [hq1] at he ⊢
            have he2 : jget a2 p1 = some e := he
            rw [hjg] at he2
            have he3 : e = d2 := (Option.some.inj he2).symm
            rw [he3]
            exact lt_of_lt_of_le hlt2 (Nat.le_of_not_lt hlt)
          · exact hl q hq1 e he

theorem bestStep_foldl_none_start (a2 : JsMap Nat) :
    ∀ (a1 : List (String × Nat)) (c : String) (dist : Nat),
      List.foldl (bestStep a2) none a1 = some (c, dist) →
      ∃ l d1 r d2, a1 = l ++ (c, d1) :: r ∧ jget a2 c = some d2 ∧ dist = d1 + d2
        ∧ (∀ p ∈ l, ∀ e, jget a2 p.1 = some e → dist < p.2 + e)
        ∧ (∀ p ∈ r, ∀ e, jget a2 p.1 = some e → dist ≤ p.2 + e) := by
  intro a1
  induction a1 with
  | nil =>
    intro c dist h
    exact absurd h (by simp)
  | cons p t ih =>
    intro c dist h
    obtain ⟨p1, pd⟩ := p
    rw [List.foldl_cons] at h
    cases hjg : jget a2 p1 with
    | none =>
      have hstep : bestStep a2 none (p1, pd) = none := by
        simp [bestStep, hjg]
      rw [hstep] at h
      obtain ⟨l, d1, r, d2, happ, hg, hsum, hl, hr⟩ := ih c dist h
      refine ⟨(p1, pd) :: l, d1, r, d2, by rw [happ]; rfl, hg, hsum, ?_, hr⟩
      intro q hq e he
      rcases List.mem_cons.mp hq with hq1 | hq1
      · rw [hq1] at he
        have he2 : jget a2 p1 = some e := he
        rw [hjg] at he2
        exact Option.noConfusion he2
      · exact hl q hq1 e he
    | some d2 =>
      have hstep : bestStep a2 none (p1, pd) = some (p1, pd + d2) := by
        simp [bestStep, hjg]
      rw [hstep] at h
      rcases bestStep_foldl_some a2 t p1 (pd + d2) c dist h with ⟨hc, hd, hall⟩ |
        ⟨hlt2, l, d1, r, e2, happ, hg, hsum, hl, hr⟩
      · refine ⟨[], pd, t, d2, ?_, ?_, hd, ?_, ?_⟩
        · rw [hc]
          rfl
        · rw [hc]
          exact hjg
        · intro q hq e he
          exact absurd hq (List.not_mem_nil q)
        · intro q hq e he
          rw [hd]
          exact hall q hq e he
      · refine ⟨(p1, pd) :: l, d1, r, e2, by rw [happ]; rfl, hg, hsum, ?_, hr⟩
        intro q hq e he
        rcases List.mem_cons.mp hq with hq1 | hq1
        · rw [hq1] at he ⊢
          have he2 : jget a2 p1 = some e := he
          rw [hjg] at he2
          have he3 : e = d2 := (Option.some.inj he2).symm
          rw [he3]
          exact hlt2
        · exact hl q hq1 e he

theorem getAncestorsGo_keys_ne (pm : JsMap Person) :
    ∀ (fuel : Nat) (queue : List DEntry) (visited : List String) (anc res : JsMap Nat),
      (∀ q ∈ queue, q.id ≠ "") → (∀ e ∈ anc, e.1 ≠ "") →
      getAncestorsGo pm fuel queue visited anc = some res →
      ∀ e ∈ res, e.1 ≠ "" := by
  intro fuel
  induction fuel with
  | zero =>
    intro q v a r hq hinv h
    exact absurd h (by simp [getAncestorsGo])
  | succ f ih =>
    intro q v a r hq hinv h
    match q with
    | [] =>
      have h2 : some a = some r := h
      rw [← Option.some.inj h2]
      exact hinv
    | current :: rest =>
      have hrest : ∀ e ∈ rest, e.id ≠ "" := fun e he => hq e (by simp [he])
      have hcur : current.id ≠ "" := hq current (by simp)
      rw [getAncestorsGo_cons] at h
      by_cases hv : v.contains current.id = true
      · rw [if_pos hv] at h
        exact ih rest v a r hrest hinv h
      · have hv2 : v.contains current.id = false := by
          cases h2 : v.contains current.id with
          | false => rfl
          | true => exact absurd h2 hv
        rw [if_neg (by rw [hv2]; exact Bool.false_ne_true)] at h
        cases hjg : jget pm current.id with
        | none =>
          rw [hjg] at h
          exact ih rest (current.id :: v) a r hrest hinv h
        | some person =>
          rw [hjg] at h
          refine ih _ _ _ r ?_ ?_ h
          · intro e he
            by_cases hmid : person.mid ≠ ""
            · rw [if_pos hmid] at he
              rcases List.mem_append.mp he with he1 | he1
              · by_cases hfid : person.fid ≠ ""
                · rw [if_pos hfid] at he1
                  rcases List.mem_append.mp he1 with he2 | he2
                  · exact hrest e he2
                  · have : e = ⟨person.fid, current.depth + 1⟩ := by simpa using he2
                    rw [this]
                    exact hfid
                · rw [if_neg hfid] at he1
                  exact hrest e he1
              · have : e = ⟨person.mid, current.depth + 1⟩ := by simpa using he1
                rw [this]
                exact hmid
            · rw [if_neg hmid] at he
              by_cases hfid : person.fid ≠ ""
              · rw [if_pos hfid] at he
                rcases List.mem_append.mp he with he2 | he2
                · exact hrest e he2
                · have : e = ⟨person.fid, current.depth + 1⟩ := by simpa using he2
                  rw [this]
                  exact hfid
              · rw [if_neg hfid] at he
                exact hrest e he
          · intro e he
            rcases mem_jset a current.id current.depth e he with he1 | he1
            · rw [he1]
              exact hcur
            · exact hinv e he1

theorem getAncestors_keys_ne (st : Store) (id : String) (hid : id ≠ "") :
    ∀ e ∈ getAncestors st id, e.1 ≠ "" := by
  intro e he
  cases hr : getAncestorsGo st.peopleMap (ancWeight st.peopleMap [] + 2) [⟨id, 0⟩] [] [] with
  | none =>
    unfold getAncestors at he
    rw [hr] at he
    exact absurd he (List.not_mem_nil e)
  | some r =>
    have hp := getAncestorsGo_keys_ne st.peopleMap _ _ _ _ r
      (by intro q hqm; have : q = ⟨id, 0⟩ := by simpa using hqm
          rw [this]; exact hid)
      (fun e' he' => absurd he' (List.not_mem_nil e')) hr
    unfold getAncestors at he
    rw [hr] at he
    exact hp e he

/-- C1: for non-identical, non-partner ids the resolver selects a common
ancestor present in both depth maps that minimises the sum of the two
depths, breaking ties by the first such entry in the iteration order of
the first map, and uses it to build the classified paths; when no id is
common to both maps it returns the no-blood-relation label. -/
theorem claim_C1 (st : Store) (id1 id2 : String)
    (h1 : id1 ≠ "") (h2 : id2 ≠ "") (hne : id1 ≠ id2)
    (hnp : isPartnerOf st id1 id2 = false) :
    ((∀ p ∈ getAncestors st id1, jget (getAncestors st id2) p.1 = none) →
        findRelationship st id1 id2 = "No direct blood relation") ∧
    (∀ c dist, findBestAncestor (getAncestors st id1) (getAncestors st id2)
          = some (c, dist) →
        findRelationship st id1 id2
            = interpretHinduRelation st id1 id2 (getAncestorPath st id1 c)
                (getDescendantPath st c id2) ∧
        ∃ l d1 r d2, getAncestors st id1 = l ++ (c, d1) :: r
          ∧ jget (getAncestors st id2) c = some d2 ∧ dist = d1 + d2
          ∧ (∀ p ∈ l, ∀ e, jget (getAncestors st id2) p.1 = some e → dist < p.2 + e)
          ∧ (∀ p ∈ r, ∀ e, jget (getAncestors st id2) p.1 = some e → dist ≤ p.2 + e)) := by
  have hmain : findRelationship st id1 id2 = findRelationshipMain st id1 id2 := by
    unfold findRelationship
    rw [if_neg (by simp [h1, h2]), if_neg hne]
    unfold isPartnerOf at hnp
    cases hjp : jget st.peopleMap id1 with
    | none => rfl
    | some person1 =>
      rw [hjp] at hnp
      have hc : person1.pids.contains id2 = false := hnp
      simp only [hc, Bool.false_eq_true, if_false]
  constructor
  · intro hno
    rw [hmain]
    have hbest : findBestAncestor (getAncestors st id1) (getAncestors st id2) = none :=
      findBestAncestor_eq_none _ _ hno
    simp only [findRelationshipMain, hbest]
  · intro c dist hbest
    have hb2 : List.foldl (bestStep (getAncestors st id2)) none (getAncestors st id1)
        = some (c, dist) := hbest
    obtain ⟨l, d1, r, d2, happ, hg, hsum, hl, hr⟩ :=
      bestStep_foldl_none_start (getAncestors st id2) (getAncestors st id1) c dist hb2
    have hcmem : (c, d1) ∈ getAncestors st id1 := by
      rw [happ]
      exact List.mem_append.mpr (Or.inr (List.mem_cons_self _ _))
    have hcne : c ≠ "" := getAncestors_keys_ne st id1 h1 (c, d1) hcmem
    constructor
    · rw [hmain]
      simp only [findRelationshipMain, hbest]
      rw [if_neg hcne]
    · exact ⟨l, d1, r, d2, happ, hg, hsum, hl, hr⟩

/-- C1 (witness): in a concrete unrelated pair the resolver reports no
blood relation; in a three-generation chain the selected common ancestor
A at summed distance 2 satisfies the minimality and tie-break split. -/
theorem claim_C1_witness :
    findRelationship witNoCommonStore "A" "B" = "No direct blood relation" ∧
    (findRelationship witChainStore "C" "A"
        = interpretHinduRelation witChainStore "C" "A"
            (getAncestorPath witChainStore "C" "A")
            (getDescendantPath witChainStore "A" "A") ∧
      ∃ l d1 r d2, getAncestors witChainStore "C" = l ++ ("A", d1) :: r
        ∧ jget (getAncestors witChainStore "A") "A" = some d2 ∧ 2 = d1 + d2
        ∧ (∀ p ∈ l, ∀ e, jget (getAncestors witChainStore "A") p.1 = some e → 2 < p.2 + e)
        ∧ (∀ p ∈ r, ∀ e, jget (getAncestors witChainStore "A") p.1 = some e → 2 ≤ p.2 + e)) := by
  constructor
  · exact (claim_C1 witNoCommonStore "A" "B" (by decide) (by decide) (by decide)
      (by decide)).1 (by decide)
  · exact (claim_C1 witChainStore "C" "A" (by decide) (by decide) (by decide)
      (by decide)).2 "A" 2 (by decide)

/-! ## Closure of the extracted subgraph (C2) -/

theorem sanitizeNode_id (st : Store) (ids : List String) (n : Person) :
    (sanitizeNode st ids n).id = n.id := rfl

theorem sanitizeNode_pids (st : Store) (ids : List String) (n : Person) :
    (sanitizeNode st ids n).pids = n.pids.filter (fun pid => ids.contains pid) := rfl

theorem sanitizeNode_fid (st : Store) (ids : List String) (n : Person) :
    (sanitizeNode st ids n).fid
      = (if n.fid ≠ "" ∧ ¬ ids.contains n.fid then "" else n.fid) := rfl

theorem sanitizeNode_mid (st : Store) (ids : List String) (n : Person) :
    (sanitizeNode st ids n).mid
      = (if n.mid ≠ "" ∧ ¬ ids.contains n.mid then "" else n.mid) := rfl

theorem getFamilySet_ids (st : Store) (centerId : String) (centerNode : Person)
    (hjg : jget st.peopleMap centerId = some centerNode) :
    (getFamilySet st centerId).map RNode.id
      = ((familySetOf st centerId centerNode).map (fun p => p.2)).map (fun n => n.id) := by
  unfold getFamilySet
  rw [hjg]
  rw [List.map_map]
  rfl

/-- C2: the list returned by Extract is closed under references: every
partner id of every returned node is the id of a returned node, and every
father/mother id is either empty or the id of a returned node. -/
theorem claim_C2 (st : Store) (focusId : String) (node : RNode)
    (hn : node ∈ getFamilySet st focusId) :
    (∀ pid ∈ node.pids, pid ∈ (getFamilySet st focusId).map RNode.id) ∧
    (node.fid = "" ∨ node.fid ∈ (getFamilySet st focusId).map RNode.id) ∧
    (node.mid = "" ∨ node.mid ∈ (getFamilySet st focusId).map RNode.id) := by
  cases hjg : jget st.peopleMap focusId with
  | none =>
    unfold getFamilySet at hn
    rw [hjg] at hn
    exact absurd hn (List.not_mem_nil node)
  | some centerNode =>
    have hids := getFamilySet_ids st focusId centerNode hjg
    have hn2 : node ∈ ((familySetOf st focusId centerNode).map (fun p => p.2)).map
        (sanitizeNode st (((familySetOf st focusId centerNode).map (fun p => p.2)).map
          (fun n => n.id))) := by
      unfold getFamilySet at hn
      rw [hjg] at hn
      exact hn
    obtain ⟨n0, hn0, hno⟩ := List.mem_map.mp hn2
    rw [← hno]
    rw [hids]
    refine ⟨?_, ?_, ?_⟩
    · intro pid hpid
      rw [sanitizeNode_pids] at hpid
      have hc := List.of_mem_filter hpid
      exact List.mem_of_elem_eq_true hc
    · rw [sanitizeNode_fid]
      by_cases hcond : n0.fid ≠ "" ∧ ¬ (((familySetOf st focusId centerNode).map
          (fun p => p.2)).map (fun n => n.id)).contains n0.fid
      · rw [if_pos hcond]
        left
        rfl
      · rw [if_neg hcond]
        by_cases hf : n0.fid = ""
        · left
          exact hf
        · right
          rw [not_and, not_not] at hcond
          exact List.mem_of_elem_eq_true (hcond hf)
    · rw [sanitizeNode_mid]
      by_cases hcond : n0.mid ≠ "" ∧ ¬ (((familySetOf st focusId centerNode).map
          (fun p => p.2)).map (fun n => n.id)).contains n0.mid
      · rw [if_pos hcond]
        left
        rfl
      · rw [if_neg hcond]
        by_cases hf : n0.mid = ""
        · left
          exact hf
        · right
          rw [not_and, not_not] at hcond
          exact List.mem_of_elem_eq_true (hcond hf)

/-- C2 (witness): in the chain store, the subgraph extracted around B
(with A dangling only through C's view, and C's father B present) is
reference-closed at every node. -/
theorem claim_C2_witness :
    (∀ pid ∈ (⟨"B", "", "A", "", [], "", "", "", "", "", "",
        MALE_ICON_SVG, "", ""⟩ : RNode).pids,
      pid ∈ (getFamilySet witChainStore "B").map RNode.id) ∧
    ((⟨"B", "", "A", "", [], "", "", "", "", "", "",
        MALE_ICON_SVG, "", ""⟩ : RNode).fid = ""
      ∨ (⟨"B", "", "A", "", [], "", "", "", "", "", "",
        MALE_ICON_SVG, "", ""⟩ : RNode).fid
          ∈ (getFamilySet witChainStore "B").map RNode.id) ∧
    ((⟨"B", "", "A", "", [], "", "", "", "", "", "",
        MALE_ICON_SVG, "", ""⟩ : RNode).mid = ""
      ∨ (⟨"B", "", "A", "", [], "", "", "", "", "", "",
        MALE_ICON_SVG, "", ""⟩ : RNode).mid
          ∈ (getFamilySet witChainStore "B").map RNode.id) :=
  claim_C2 witChainStore "B" _ (by set_option maxRecDepth 8192 in decide)

/-! ## The shared two-digit-year pivot rule (C9) -/

/-- C9: for any birth string with a two-digit year y, the three date
helpers (display formatting, age computation, birthday-year computation)
resolve y to the same four-digit year by the same rule: 1900 + y when y
exceeds (currentYear mod 100) + 10, else 2000 + y. -/
theorem claim_C9 (currentYear : Nat) (today : Date) (birthStr ds ms ys : String)
    (y mon day : Nat)
    (htrim : jsTrim birthStr = birthStr)
    (hsplit : splitDash birthStr = [ds, ms, ys])
    (hy : jsParseNat ys = some y) (hy100 : y < 100)
    (hmon : monthOf ms = some mon) (hday : jsParseNat ds = some day) :
    getBirthYearFromBirth currentYear birthStr = some (specPivotYear currentYear y) ∧
    formatDate currentYear birthStr
      = ds ++ "-" ++ ms ++ "-" ++ natToString (specPivotYear currentYear y) ∧
    getAgeFromBirth today birthStr
      = ageFromParts today (specPivotYear today.y y) mon day := by
  have hne : birthStr ≠ "" := by
    intro h
    rw [h] at hsplit
    have hlen := congrArg List.length hsplit
    simp [splitDash, splitOnCharAux] at hlen
  have htne : jsTrim birthStr ≠ "" := by
    rw [htrim]
    exact hne
  refine ⟨?_, ?_, ?_⟩
  · unfold getBirthYearFromBirth
    rw [if_neg hne, if_neg htne, htrim, hsplit]
    simp only [hy]
    rw [if_pos hy100]
    rfl
  · unfold formatDate
    rw [if_neg hne, hsplit]
    simp only [hy]
    rw [if_pos hy100]
    rfl
  · unfold getAgeFromBirth
    rw [if_neg hne, if_neg htne, htrim, hsplit]
    simp only [hmon, hday, hy]
    rw [if_pos hy100]
    rfl

/-- C9 (witness): with current year 2025 (pivot 35), the string
10-MAY-80 resolves to 1980 in all three helpers. -/
theorem claim_C9_witness :
    getBirthYearFromBirth 2025 "10-MAY-80" = some (specPivotYear 2025 80) ∧
    formatDate 2025 "10-MAY-80"
      = "10" ++ "-" ++ "MAY" ++ "-" ++ natToString (specPivotYear 2025 80) ∧
    getAgeFromBirth ⟨2025, 9, 11⟩ "10-MAY-80"
      = ageFromParts ⟨2025, 9, 11⟩ (specPivotYear 2025 80) 4 10 :=
  claim_C9 2025 ⟨2025, 9, 11⟩ "10-MAY-80" "10" "MAY" "80" 80 4 10
    (by decide) (by decide) (by decide) (by decide) (by decide) (by decide)

/-! ## Injectivity of the formatted date keys (for C4) -/

theorem digitChar_lt10_inj (a b : Nat) (ha : a < 10) (hb : b < 10)
    (h : digitChar a = digitChar b) : a = b := by
  interval_cases a <;> interval_cases b <;> simp_all [digitChar]

theorem digitChar_ne_dash (a : Nat) (ha : a < 10) : digitChar a ≠ '-' := by
  interval_cases a <;> decide

theorem natDigitsRevGo_lt10 : ∀ (fuel n : Nat), ∀ d ∈ natDigitsRevGo fuel n, d < 10 := by
  intro fuel
  induction fuel with
  | zero => intro n d hd; exact absurd hd (List.not_mem_nil d)
  | succ f ih =>
    intro n d hd
    match n with
    | 0 => exact absurd hd (List.not_mem_nil d)
    | m + 1 =>
      rcases List.mem_cons.mp hd with h1 | h1
      · rw [h1]
        exact Nat.mod_lt _ (by omega)
      · exact ih _ d h1

theorem natDigitsRevGo_val : ∀ (fuel n : Nat), n ≤ fuel →
    ofDigits10 (natDigitsRevGo fuel n) = n := by
  intro fuel
  induction fuel with
  | zero =>
    intro n hn
    interval_cases n
    rfl
  | succ f ih =>
    intro n hn
    match n with
    | 0 => rfl
    | m + 1 =>
      have hdiv : (m + 1) / 10 ≤ f := by
        have hlt : (m + 1) / 10 < m + 1 := Nat.div_lt_self (Nat.succ_pos m) (by norm_num)
        omega
      show (m + 1) % 10 + 10 * ofDigits10 (natDigitsRevGo f ((m + 1) / 10)) = m + 1
      rw [ih _ hdiv]
      omega

theorem map_digitChar_inj : ∀ (l1 l2 : List Nat),
    (∀ d ∈ l1, d < 10) → (∀ d ∈ l2, d < 10) →
    l1.map digitChar = l2.map digitChar → l1 = l2 := by
  intro l1
  induction l1 with
  | nil =>
    intro l2 h1 h2 h
    cases l2 with
    | nil => rfl
    | cons d t => exact absurd h (by simp)
  | cons d t ih =>
    intro l2 h1 h2 h
    cases l2 with
    | nil => exact absurd h (by simp)
    | cons d2 t2 =>
      rw [List.map_cons, List.map_cons] at h
      have hd := List.head_eq_of_cons_eq h
      have ht := List.tail_eq_of_cons_eq h
      have hdd : d = d2 := digitChar_lt10_inj d d2 (h1 d (by simp)) (h2 d2 (by simp)) hd
      rw [hdd, ih t2 (fun x hx => h1 x (by simp [hx])) (fun x hx => h2 x (by simp [hx])) ht]

theorem natToString_inj (a b : Nat) (h : natToString a = natToString b) : a = b := by
  have hdata := congrArg String.data h
  unfold natToString at hdata
  by_cases ha : a = 0 <;> by_cases hb : b = 0
  · rw [ha, hb]
  · exfalso
    rw [if_pos ha, if_neg hb] at hdata
    have h1 : ['0'] = ((natDigitsRevGo b b).reverse.map digitChar) := hdata
    have h2 : (natDigitsRevGo b b).reverse.map digitChar = ['0'] := h1.symm
    match hr : (natDigitsRevGo b b).reverse with
    | [] => rw [hr] at h2; exact absurd h2 (by simp)
    | [d] =>
      rw [hr] at h2
      have hd : digitChar d = '0' := by simpa using h2
      have hdlt : d < 10 := by
        have : d ∈ natDigitsRevGo b b := by
          have : d ∈ (natDigitsRevGo b b).reverse := by rw [hr]; simp
          simpa using this
        exact natDigitsRevGo_lt10 b b d this
      have hd0 : d = 0 := digitChar_lt10_inj d 0 hdlt (by omega) (by simpa [digitChar] using hd)
      have hgo : natDigitsRevGo b b = [d] := by
        have := congrArg List.reverse hr
        simpa using this
      have hval := natDigitsRevGo_val b b (le_refl b)
      rw [hgo, hd0] at hval
      simp [ofDigits10] at hval
      exact hb hval.symm
    | d :: e :: t =>
      rw [hr] at h2
      exact absurd (congrArg List.length h2) (by simp)
  · exfalso
    rw [if_neg ha, if_pos hb] at hdata
    have h1 : ((natDigitsRevGo a a).reverse.map digitChar) = ['0'] := hdata
    match hr : (natDigitsRevGo a a).reverse with
    | [] => rw [hr] at h1; exact absurd h1 (by simp)
    | [d] =>
      rw [hr] at h1
      have hd : digitChar d = '0' := by simpa using h1
      have hdlt : d < 10 := by
        have hdm : d ∈ natDigitsRevGo a a := by
          have : d ∈ (natDigitsRevGo a a).reverse := by rw [hr]; simp
          simpa using this
        exact natDigitsRevGo_lt10 a a d hdm
      have hd0 : d = 0 := digitChar_lt10_inj d 0 hdlt (by omega) (by simpa [digitChar] using hd)
      have hgo : natDigitsRevGo a a = [d] := by
        have := congrArg List.reverse hr
        simpa using this
      have hval := natDigitsRevGo_val a a (le_refl a)
      rw [hgo, hd0] at hval
      simp [ofDigits10] at hval
      exact ha hval.symm
    | d :: e :: t =>
      rw [hr] at h1
      exact absurd (congrArg List.length h1) (by simp)
  · rw [if_neg ha, if_neg hb] at hdata
    have h1 : (natDigitsRevGo a a).reverse.map digitChar
        = (natDigitsRevGo b b).reverse.map digitChar := hdata
    have h2 := map_digitChar_inj _ _
      (fun d hd => natDigitsRevGo_lt10 a a d (by simpa using (List.mem_reverse.mp hd)))
      (fun d hd => natDigitsRevGo_lt10 b b d (by simpa using (List.mem_reverse.mp hd))) h1
    have h3 : natDigitsRevGo a a = natDigitsRevGo b b := by
      have := congrArg List.reverse h2
      simpa using this
    have hva := natDigitsRevGo_val a a (le_refl a)
    have hvb := natDigitsRevGo_val b b (le_refl b)
    rw [h3] at hva
    rw [hva] at hvb
    exact hvb

theorem natToString_no_dash (n : Nat) : ∀ c ∈ (natToString n).data, c ≠ '-' := by
  intro c hc
  unfold natToString at hc
  by_cases hn : n = 0
  · rw [if_pos hn] at hc
    have : c = '0' := by simpa using hc
    rw [this]
    decide
  · rw [if_neg hn] at hc
    have hc2 : c ∈ (natDigitsRevGo n n).reverse.map digitChar := hc
    obtain ⟨d, hd, hdc⟩ := List.mem_map.mp hc2
    rw [← hdc]
    exact digitChar_ne_dash d (natDigitsRevGo_lt10 n n d (List.mem_reverse.mp hd))

theorem append_dash_inj : ∀ (a1 a2 b1 b2 : List Char),
    (∀ c ∈ a1, c ≠ '-') → (∀ c ∈ a2, c ≠ '-') →
    a1 ++ '-' :: b1 = a2 ++ '-' :: b2 → a1 = a2 ∧ b1 = b2 := by
  intro a1
  induction a1 with
  | nil =>
    intro a2 b1 b2 h1 h2 h
    cases a2 with
    | nil =>
      constructor
      · rfl
      · simpa using h
    | cons c t =>
      rw [List.nil_append] at h
      have hc := List.head_eq_of_cons_eq h
      exact absurd hc.symm (h2 c (by simp))
  | cons c t ih =>
    intro a2 b1 b2 h1 h2 h
    cases a2 with
    | nil =>
      rw [List.nil_append] at h
      have hc := List.head_eq_of_cons_eq h
      exact absurd hc (h1 c (by simp))
    | cons c2 t2 =>
      rw [List.cons_append, List.cons_append] at h
      have hc := List.head_eq_of_cons_eq h
      have ht := List.tail_eq_of_cons_eq h
      obtain ⟨hta, htb⟩ := ih t2 b1 b2 (fun x hx => h1 x (by simp [hx]))
        (fun x hx => h2 x (by simp [hx])) ht
      exact ⟨by rw [hc, hta], htb⟩

theorem monthAbbr_no_dash :
    ∀ m < 12, ∀ c ∈ (MONTH_ABBR.getD m "").data, c ≠ '-' := by decide

theorem monthAbbr_inj :
    ∀ m1 < 12, ∀ m2 < 12,
      MONTH_ABBR.getD m1 "" = MONTH_ABBR.getD m2 "" → m1 = m2 := by decide

theorem fmtDateKey_data (dt : Date) :
    (fmtDateKey dt).data
      = (natToString dt.d).data ++ '-' :: ((MONTH_ABBR.getD dt.m "").data
          ++ '-' :: (natToString dt.y).data) := by
  unfold fmtDateKey
  simp [String.data_append]

theorem fmtDateKey_inj (a b : Date) (ha : a.m < 12) (hb : b.m < 12)
    (h : fmtDateKey a = fmtDateKey b) : a = b := by
  have hdata := congrArg String.data h
  rw [fmtDateKey_data, fmtDateKey_data] at hdata
  obtain ⟨hd, hrest⟩ := append_dash_inj _ _ _ _
    (natToString_no_dash a.d) (natToString_no_dash b.d) hdata
  obtain ⟨hm, hy⟩ := append_dash_inj _ _ _ _
    (monthAbbr_no_dash a.m ha) (monthAbbr_no_dash b.m hb) hrest
  have hdeq : a.d = b.d := natToString_inj _ _ (String.ext hd)
  have hyeq : a.y = b.y := natToString_inj _ _ (String.ext hy)
  have hmeq : a.m = b.m := monthAbbr_inj a.m ha b.m hb (String.ext hm)
  cases a
  cases b
  simp_all

/-! ## Calendar arithmetic lemmas (for C4) -/

theorem daysInMonth_pos (y m : Nat) : 1 ≤ daysInMonth y m := by
  unfold daysInMonth
  split_ifs <;> omega

theorem nextDay_valid (dt : Date) (h : dt.Valid) : (nextDay dt).Valid := by
  obtain ⟨hm, hd1, hd2⟩ := h
  unfold nextDay
  by_cases h1 : dt.d < daysInMonth dt.y dt.m
  · rw [if_pos h1]
    exact ⟨hm, Nat.succ_le_succ (Nat.zero_le dt.d), h1⟩
  · rw [if_neg h1]
    by_cases h2 : dt.m < 11
    · rw [if_pos h2]
      exact ⟨Nat.succ_lt_succ h2, Nat.le_refl 1, daysInMonth_pos _ _⟩
    · rw [if_neg h2]
      refine ⟨?_, Nat.le_refl 1, daysInMonth_pos _ _⟩
      show (0 : Nat) < 12
      decide

theorem addDays_valid (dt : Date) (h : dt.Valid) :
    ∀ n, (addDays dt n).Valid := by
  intro n
  induction n with
  | zero => exact h
  | succ k ih => exact nextDay_valid _ ih

theorem dateLt_nextDay (dt : Date) (_h : dt.Valid) : DateLt dt (nextDay dt) := by
  unfold nextDay DateLt
  by_cases h1 : dt.d < daysInMonth dt.y dt.m
  · rw [if_pos h1]
    right
    exact ⟨rfl, Or.inr ⟨rfl, Nat.lt_succ_self dt.d⟩⟩
  · rw [if_neg h1]
    by_cases h2 : dt.m < 11
    · rw [if_pos h2]
      right
      exact ⟨rfl, Or.inl (Nat.lt_succ_self dt.m)⟩
    · rw [if_neg h2]
      left
      exact Nat.lt_succ_self dt.y

theorem dateLt_trans (a b c : Date) (h1 : DateLt a b) (h2 : DateLt b c) :
    DateLt a c := by
  unfold DateLt at *
  omega

theorem dateLt_irrefl (a : Date) (h : DateLt a a) : False := by
  unfold DateLt at h
  omega

theorem addDays_dateLt (dt : Date) (h : dt.Valid) :
    ∀ i k, DateLt (addDays dt i) (addDays dt (i + (k + 1))) := by
  intro i k
  induction k with
  | zero => exact dateLt_nextDay _ (addDays_valid dt h i)
  | succ j ih =>
    have hstep : DateLt (addDays dt (i + (j + 1))) (addDays dt (i + (j + 2))) :=
      dateLt_nextDay _ (addDays_valid dt h _)
    exact dateLt_trans _ _ _ ih hstep

theorem addDays_strictMono (dt : Date) (h : dt.Valid) (i j : Nat) (hij : i < j) :
    DateLt (addDays dt i) (addDays dt j) := by
  have hj : j = i + ((j - i - 1) + 1) := by omega
  rw [hj]
  exact addDays_dateLt dt h i _

theorem addDays_inj (dt : Date) (h : dt.Valid) (i j : Nat)
    (heq : addDays dt i = addDays dt j) : i = j := by
  by_contra hne
  rcases Nat.lt_or_ge i j with hij | hij
  · exact dateLt_irrefl _ (heq ▸ addDays_strictMono dt h i j hij)
  · have hji : j < i := by omega
    exact dateLt_irrefl _ (heq ▸ addDays_strictMono dt h j i hji)

theorem addDays_m_lt (dt : Date) (h : dt.Valid) (i : Nat) :
    (addDays dt i).m < 12 :=
  (addDays_valid dt h i).1

theorem fmtDateKey_addDays_inj (dt : Date) (h : dt.Valid) (i j : Nat)
    (heq : fmtDateKey (addDays dt i) = fmtDateKey (addDays dt j)) : i = j :=
  addDays_inj dt h i j
    (fmtDateKey_inj _ _ (addDays_m_lt dt h i) (addDays_m_lt dt h j) heq)

/-! ## Characterisation of the birthday scanner accumulator (C4) -/

theorem pushPerson_jget (bk : JsMap BEntry) (key k : String) (p : BPerson) :
    jget (pushPerson bk key p) k
      = if k = key then
          (jget bk key).map (fun e => { e with persons := e.persons ++ [p] })
        else jget bk k := by
  by_cases hk : k = key
  · subst hk
    unfold pushPerson
    cases hj : jget bk k with
    | none =>
      rw [if_pos rfl]
      exact hj
    | some e =>
      rw [if_pos rfl, jget_jset_self]
      rfl
  · unfold pushPerson
    rw [if_neg hk]
    cases hj : jget bk key with
    | none => rfl
    | some e => exact jget_jset_ne _ key k _ hk

theorem dayPersonStep_foldl (ty : Nat) (dte : Date) (key : String) :
    ∀ (people : List Person) (bk : JsMap BEntry) (e : BEntry),
      jget bk key = some e →
      jget (people.foldl (dayPersonStep ty dte key) bk) key
          = some { e with persons := e.persons ++ matchingPersons people ty dte } ∧
      (∀ k, k ≠ key →
        jget (people.foldl (dayPersonStep ty dte key) bk) k = jget bk k) := by
  intro people
  induction people with
  | nil =>
    intro bk e he
    constructor
    · rw [List.foldl_nil, he]
      have hm : matchingPersons [] ty dte = [] := rfl
      rw [hm, List.append_nil]
    · intro k hk
      rw [List.foldl_nil]
  | cons p ps ih =>
    intro bk e he
    rw [List.foldl_cons]
    cases hmd : getMonthDayFromBirth p.Birth with
    | none =>
      have hstep : dayPersonStep ty dte key bk p = bk := by
        simp [dayPersonStep, hmd]
      rw [hstep]
      have hm : matchingPersons (p :: ps) ty dte = matchingPersons ps ty dte := by
        simp [matchingPersons, List.filter_cons, hmd]
      rw [hm]
      exact ih bk e he
    | some md =>
      by_cases hmatch : md.1 = dte.m ∧ md.2 = dte.d
      · have hstep : dayPersonStep ty dte key bk p
            = pushPerson bk key (birthdayRecord ty dte.y p) := by
          simp [dayPersonStep, hmd, hmatch]
        rw [hstep]
        have hset : jget (pushPerson bk key (birthdayRecord ty dte.y p)) key
            = some { e with persons := e.persons ++ [birthdayRecord ty dte.y p] } := by
          rw [pushPerson_jget, if_pos rfl, he]
          rfl
        obtain ⟨ih1, ih2⟩ := ih (pushPerson bk key (birthdayRecord ty dte.y p))
          { e with persons := e.persons ++ [birthdayRecord ty dte.y p] } hset
        constructor
        · rw [ih1]
          have hm : matchingPersons (p :: ps) ty dte
              = birthdayRecord ty dte.y p :: matchingPersons ps ty dte := by
            simp [matchingPersons, List.filter_cons, hmd, hmatch]
          rw [hm]
          simp [List.append_assoc]
        · intro k hk
          rw [ih2 k hk, pushPerson_jget, if_neg hk]
      · have hstep : dayPersonStep ty dte key bk p = bk := by
          simp [dayPersonStep, hmd, hmatch]
        rw [hstep]
        have hm : matchingPersons (p :: ps) ty dte = matchingPersons ps ty dte := by
          simp [matchingPersons, List.filter_cons, hmd, hmatch]
        rw [hm]
        exact ih bk e he

theorem byKeyFold_char (people : List Person) (today : Date) (hv : today.Valid) :
    ∀ n : Nat,
      (∀ i, i < n →
        jget (byKeyFold people today n) (fmtDateKey (addDays today i))
          = some { date := addDays today i
                   dateStr := fmtDateKey (addDays today i)
                   weekday := WEEKDAYS.getD (weekdayOf (addDays today i)) ""
                   persons := matchingPersons people today.y (addDays today i) }) ∧
      (∀ k, (∀ i, i < n → k ≠ fmtDateKey (addDays today i)) →
        jget (byKeyFold people today n) k = none) := by
  intro n
  induction n with
  | zero =>
    constructor
    · intro i hi
      exact absurd hi (Nat.not_lt_zero i)
    · intro k hk
      rfl
  | succ m ih =>
    obtain ⟨ih1, ih2⟩ := ih
    have hrange : byKeyFold people today (m + 1)
        = dayStep people today (byKeyFold people today m) m := by
      unfold byKeyFold
      rw [List.range_succ, List.foldl_append]
      rfl
    have hfresh : jget (byKeyFold people today m) (fmtDateKey (addDays today m)) = none := by
      apply ih2
      intro i hi heq
      have := fmtDateKey_addDays_inj today hv m i heq
      omega
    have hhas : jhas (byKeyFold people today m) (fmtDateKey (addDays today m)) = false := by
      cases hh : jhas (byKeyFold people today m) (fmtDateKey (addDays today m)) with
      | false => rfl
      | true =>
        rw [jhas_iff_jget_isSome, hfresh] at hh
        exact absurd hh (by simp)
    have hstep : dayStep people today (byKeyFold people today m) m
        = people.foldl
            (dayPersonStep today.y (addDays today m) (fmtDateKey (addDays today m)))
            (jset (byKeyFold people today m) (fmtDateKey (addDays today m))
              { date := addDays today m
                dateStr := fmtDateKey (addDays today m)
                weekday := WEEKDAYS.getD (weekdayOf (addDays today m)) ""
                persons := [] }) := by
      simp only [dayStep, hhas, Bool.false_eq_true, if_false]
    have hget0 : jget (jset (byKeyFold people today m) (fmtDateKey (addDays today m))
        { date := addDays today m
          dateStr := fmtDateKey (addDays today m)
          weekday := WEEKDAYS.getD (weekdayOf (addDays today m)) ""
          persons := [] }) (fmtDateKey (addDays today m))
        = some { date := addDays today m
                 dateStr := fmtDateKey (addDays today m)
                 weekday := WEEKDAYS.getD (weekdayOf (addDays today m)) ""
                 persons := [] } := jget_jset_self _ _ _
    obtain ⟨hmain, hother⟩ := dayPersonStep_foldl today.y (addDays today m)
      (fmtDateKey (addDays today m)) people _ _ hget0
    constructor
    · intro i hi
      by_cases him : i = m
      · subst him
        rw [hrange, hstep, hmain]
        rfl
      · have hilt : i < m := by omega
        have hne : fmtDateKey (addDays today i) ≠ fmtDateKey (addDays today m) := by
          intro heq
          have := fmtDateKey_addDays_inj today hv i m heq
          omega
        rw [hrange, hstep, hother _ hne, jget_jset_ne _ _ _ _ hne]
        exact ih1 i hilt
    · intro k hk
      have hkne : k ≠ fmtDateKey (addDays today m) := hk m (by omega)
      rw [hrange, hstep, hother k hkne, jget_jset_ne _ _ _ _ hkne]
      exact ih2 k (fun i hi => hk i (by omega))

theorem jhas_iff_mem_keys {α : Type} (m : JsMap α) (k : String) :
    jhas m k = true ↔ k ∈ m.map Prod.fst := by
  constructor
  · intro h
    have h2 := (jhas_iff_jget_isSome m k).mp h
    cases hj : jget m k with
    | none => rw [hj] at h2; exact absurd h2 (by simp)
    | some v => exact jget_some_mem_keys m k v hj
  · intro h
    obtain ⟨e, he, hek⟩ := List.mem_map.mp h
    exact List.any_eq_true.mpr ⟨e, he, by rw [hek]; exact beq_self_eq_true k⟩

theorem byKeyFold_keys (people : List Person) (today : Date) (hv : today.Valid)
    (n : Nat) (k : String) :
    k ∈ (byKeyFold people today n).map Prod.fst
      ↔ ∃ i, i < n ∧ k = fmtDateKey (addDays today i) := by
  obtain ⟨hc1, hc2⟩ := byKeyFold_char people today hv n
  constructor
  · intro h
    by_contra hno
    push_neg at hno
    have hnone := hc2 k (fun i hi => hno i hi)
    have hhas := (jhas_iff_mem_keys _ k).mpr h
    rw [jhas_iff_jget_isSome, hnone] at hhas
    exact absurd hhas (by simp)
  · rintro ⟨i, hi, hk⟩
    rw [hk]
    exact jget_some_mem_keys _ _ _ (hc1 i hi)

/-- C4 (counterexample): the output is sorted by the formatted date
string, not by the date — with today = 9 Oct 2025 and a two-day window,
the 10 Oct entry precedes the 9 Oct entry because "10-OCT-2025" sorts
before "9-OCT-2025". -/
theorem claim_C4_counterexample :
    (getUpcomingBirthdays cexC4people ⟨2025, 9, 9⟩ 2).map (fun e => e.date)
        = [⟨2025, 9, 10⟩, ⟨2025, 9, 9⟩] ∧
    ¬ ((getUpcomingBirthdays cexC4people ⟨2025, 9, 9⟩ 2).map
        (fun e => e.date)).Pairwise DateLt := by
  constructor
  · decide
  · decide

/-- C4 (amended): for every valid today and daysAhead, the scanner output
covers exactly the window days [today, today + daysAhead) that have at
least one match (daysAhead = 0 gives the empty list), each entry carries
exactly the people matching its calendar day, no entry has an empty person
list, and the entries are sorted ascending by the formatted date string
(not by the date value). -/
theorem claim_C4_amended (people : List Person) (today : Date)
    (hv : today.Valid) (daysAhead : Nat) :
    getUpcomingBirthdays people today 0 = [] ∧
    (∀ e ∈ getUpcomingBirthdays people today daysAhead, e.persons ≠ []) ∧
    ((getUpcomingBirthdays people today daysAhead).map
        (fun e => e.dateStr)).Sorted (· ≤ ·) ∧
    (∀ e ∈ getUpcomingBirthdays people today daysAhead,
      ∃ i, i < daysAhead ∧ e.date = addDays today i
        ∧ e.dateStr = fmtDateKey (addDays today i)
        ∧ e.persons = matchingPersons people today.y (addDays today i)) ∧
    (∀ i, i < daysAhead →
      matchingPersons people today.y (addDays today i) ≠ [] →
      ∃ e ∈ getUpcomingBirthdays people today daysAhead,
        e.date = addDays today i
          ∧ e.persons = matchingPersons people today.y (addDays today i)) := by
  obtain ⟨hc1, hc2⟩ := byKeyFold_char people today hv daysAhead
  have hresult : getUpcomingBirthdays people today daysAhead
      = ((jsSortStrings ((byKeyFold people today daysAhead).map (fun p => p.1))).map
          (fun k => (jget (byKeyFold people today daysAhead) k).getD emptyBEntry)).filter
        (fun e => !e.persons.isEmpty) := rfl
  have hkeys : ((byKeyFold people today daysAhead).map (fun p => p.1))
      = (byKeyFold people today daysAhead).map Prod.fst := rfl
  have hmemsorted : ∀ k ∈ jsSortStrings ((byKeyFold people today daysAhead).map (fun p => p.1)),
      ∃ i, i < daysAhead ∧ k = fmtDateKey (addDays today i) := by
    intro k hk
    have hk2 : k ∈ (byKeyFold people today daysAhead).map Prod.fst := by
      rw [← hkeys]
      exact (jsSortStrings_perm _).mem_iff.mp hk
    exact (byKeyFold_keys people today hv daysAhead k).mp hk2
  refine ⟨rfl, ?_, ?_, ?_, ?_⟩
  · intro e he
    rw [hresult] at he
    have hp := List.of_mem_filter he
    intro hnil
    rw [hnil] at hp
    exact absurd hp (by decide)
  · have hsorted := jsSortStrings_sorted ((byKeyFold people today daysAhead).map (fun p => p.1))
    have hfid : ((jsSortStrings ((byKeyFold people today daysAhead).map (fun p => p.1))).map
        (fun k => (jget (byKeyFold people today daysAhead) k).getD emptyBEntry)).map
          (fun e => e.dateStr)
        = jsSortStrings ((byKeyFold people today daysAhead).map (fun p => p.1)) := by
      rw [List.map_map]
      have hcong : ∀ k ∈ jsSortStrings ((byKeyFold people today daysAhead).map (fun p => p.1)),
          ((fun e => e.dateStr) ∘ (fun k => (jget (byKeyFold people today daysAhead) k).getD emptyBEntry)) k
            = id k := by
        intro k hk
        obtain ⟨i, hi, hki⟩ := hmemsorted k hk
        show ((jget (byKeyFold people today daysAhead) k).getD emptyBEntry).dateStr = k
        rw [hki, hc1 i hi]
        rfl
      rw [List.map_congr_left hcong, List.map_id]
    rw [hresult]
    have hsub : List.Sublist
        ((((jsSortStrings ((byKeyFold people today daysAhead).map (fun p => p.1))).map
        (fun k => (jget (byKeyFold people today daysAhead) k).getD emptyBEntry)).filter
          (fun e => !e.persons.isEmpty)).map (fun e => e.dateStr))
        (((jsSortStrings ((byKeyFold people today daysAhead).map (fun p => p.1))).map
          (fun k => (jget (byKeyFold people today daysAhead) k).getD emptyBEntry)).map
            (fun e => e.dateStr)) :=
      (List.filter_sublist _).map _
    rw [hfid] at hsub
    exact List.Pairwise.sublist hsub hsorted
  · intro e he
    rw [hresult] at he
    have hmm := List.mem_of_mem_filter he
    obtain ⟨k, hk, hek⟩ := List.mem_map.mp hmm
    obtain ⟨i, hi, hki⟩ := hmemsorted k hk
    refine ⟨i, hi, ?_, ?_, ?_⟩
    · rw [← hek, hki, hc1 i hi]; rfl
    · rw [← hek, hki, hc1 i hi]; rfl
    · rw [← hek, hki, hc1 i hi]; rfl
  · intro i hi hne
    have hkmem : fmtDateKey (addDays today i)
        ∈ (byKeyFold people today daysAhead).map Prod.fst :=
      (byKeyFold_keys people today hv daysAhead _).mpr ⟨i, hi, rfl⟩
    have hksorted : fmtDateKey (addDays today i)
        ∈ jsSortStrings ((byKeyFold people today daysAhead).map (fun p => p.1)) := by
      rw [hkeys]
      exact (jsSortStrings_perm _).mem_iff.mpr hkmem
    refine ⟨(jget (byKeyFold people today daysAhead)
        (fmtDateKey (addDays today i))).getD emptyBEntry, ?_, ?_, ?_⟩
    · rw [hresult]
      apply List.mem_filter.mpr
      constructor
      · exact List.mem_map.mpr ⟨_, hksorted, rfl⟩
      · rw [hc1 i hi]
        cases hm : matchingPersons people today.y (addDays today i) with
        | nil => exact absurd hm hne
        | cons a t =>
          show !((a :: t).isEmpty) = true
          rfl
    · rw [hc1 i hi]; rfl
    · rw [hc1 i hi]; rfl

/-- C4 (witness): the amended statement instantiated at the concrete
two-person store with today = 9 Oct 2025 and a two-day window. -/
theorem claim_C4_witness :
    getUpcomingBirthdays cexC4people ⟨2025, 9, 9⟩ 0 = [] ∧
    (∀ e ∈ getUpcomingBirthdays cexC4people ⟨2025, 9, 9⟩ 2, e.persons ≠ []) ∧
    ((getUpcomingBirthdays cexC4people ⟨2025, 9, 9⟩ 2).map
        (fun e => e.dateStr)).Sorted (· ≤ ·) ∧
    (∀ e ∈ getUpcomingBirthdays cexC4people ⟨2025, 9, 9⟩ 2,
      ∃ i, i < 2 ∧ e.date = addDays ⟨2025, 9, 9⟩ i
        ∧ e.dateStr = fmtDateKey (addDays ⟨2025, 9, 9⟩ i)
        ∧ e.persons = matchingPersons cexC4people 2025 (addDays ⟨2025, 9, 9⟩ i)) ∧
    (∀ i, i < 2 →
      matchingPersons cexC4people 2025 (addDays ⟨2025, 9, 9⟩ i) ≠ [] →
      ∃ e ∈ getUpcomingBirthdays cexC4people ⟨2025, 9, 9⟩ 2,
        e.date = addDays ⟨2025, 9, 9⟩ i
          ∧ e.persons = matchingPersons cexC4people 2025 (addDays ⟨2025, 9, 9⟩ i)) :=
  claim_C4_amended cexC4people ⟨2025, 9, 9⟩ (by decide) 2

/-! ## Heap lemmas for the getFamilySet frame property -/

theorem lgetD_append_left {α : Type} (l t : List α) (d : α) (i : Nat)
    (h : i < l.length) : (l ++ t).getD i d = l.getD i d :=
  List.getD_append l t d i h

theorem lgetD_append_right {α : Type} (l t : List α) (d : α) (i : Nat)
    (h : l.length ≤ i) : (l ++ t).getD i d = t.getD (i - l.length) d :=
  List.getD_append_right l t d i h

theorem lgetD_append_len {α : Type} (l : List α) (a d : α) :
    (l ++ [a]).getD l.length d = a := by
  rw [lgetD_append_right l [a] d l.length (Nat.le_refl _)]
  simp

theorem lgetD_set_self {α : Type} (l : List α) (i : Nat) (a d : α)
    (h : i < l.length) : (l.set i a).getD i d = a := by
  simp [List.getD_eq_getElem?_getD, List.getElem?_set_self, h]

theorem lgetD_set_ne {α : Type} (l : List α) (i j : Nat) (a d : α)
    (h : i ≠ j) : (l.set i a).getD j d = l.getD j d := by
  simp [List.getD_eq_getElem?_getD, List.getElem?_set_ne h]

theorem lgetD_take {α : Type} (l : List α) (n i : Nat) (d : α) (h : i < n) :
    (l.take n).getD i d = l.getD i d := by
  simp [List.getD_eq_getElem?_getD, List.getElem?_take, h]

theorem lgetD_of_take_eq {α : Type} (l' l : List α) (n i : Nat) (d : α)
    (hp : l'.take n = l) (h : i < n) : l'.getD i d = l.getD i d := by
  rw [← hp, lgetD_take l' n i d h]

theorem take_set_of_le {α : Type} (l : List α) (i n : Nat) (a : α)
    (h : n ≤ i) : (l.set i a).take n = l.take n := by
  induction l generalizing i n with
  | nil => rfl
  | cons x xs ih =>
    cases n with
    | zero => rfl
    | succ n =>
      cases i with
      | zero => exact absurd h (Nat.not_succ_le_zero n)
      | succ i =>
        show x :: (xs.set i a).take n = x :: xs.take n
        rw [ih i n (Nat.le_of_succ_le_succ h)]

theorem jhas_mapVal {α β : Type} (m : JsMap α) (f : α → β) (k : String) :
    jhas (m.map (fun p => (p.1, f p.2))) k = jhas m k := by
  induction m with
  | nil => rfl
  | cons x t ih => simp [jhas] at ih ⊢; rw [ih]

theorem jset_mapVal {α β : Type} (m : JsMap α) (f : α → β) (k : String)
    (v : α) :
    (jset m k v).map (fun p => (p.1, f p.2))
      = jset (m.map (fun p => (p.1, f p.2))) k (f v) := by
  have hc : (m.map (fun p => (p.1, f p.2))).any (fun p => p.1 == k)
      = m.any (fun p => p.1 == k) := jhas_mapVal m f k
  unfold jset
  rw [hc]
  by_cases h : m.any (fun p => p.1 == k) = true
  · rw [if_pos h, if_pos h, List.map_map, List.map_map]
    apply List.map_congr_left
    intro p _
    by_cases hp : (p.1 == k) = true
    · simp [Function.comp, hp]
    · simp [Function.comp, hp]
  · rw [if_neg h, if_neg h, List.map_append]
    rfl

theorem jset_absent {α : Type} (m : JsMap α) (k : String) (v : α)
    (h : jhas m k = false) : jset m k v = m ++ [(k, v)] := by
  unfold jset
  have hc : m.any (fun p => p.1 == k) = false := h
  rw [hc]
  simp

theorem derefPerson_ext (h h' : Heap) (r : Nat) (t : List HPerson)
    (u : List (List String)) (ho : h'.objs = h.objs ++ t)
    (ha : h'.arrs = h.arrs ++ u) (hr : r < h.objs.length)
    (hp : (h.objs.getD r {}).pids < h.arrs.length) :
    derefPerson h' r = derefPerson h r := by
  unfold derefPerson
  rw [ho, ha, lgetD_append_left _ _ _ _ hr, lgetD_append_left _ _ _ _ hp]

theorem viewNode_ext (h h' : Heap) (r : Nat) (t : List HPerson)
    (u : List (List String)) (ho : h'.objs = h.objs ++ t)
    (ha : h'.arrs = h.arrs ++ u) (hr : r < h.objs.length)
    (hp : (h.objs.getD r {}).pids < h.arrs.length) :
    viewNode h' r = viewNode h r := by
  unfold viewNode
  rw [ho, ha, lgetD_append_left _ _ _ _ hr, lgetD_append_left _ _ _ _ hp]

theorem represents_ext (S S' : HState) (st : Store)
    (t : List HPerson) (u : List (List String))
    (hrep : Represents S st)
    (hm1 : S'.peopleMapH = S.peopleMapH)
    (hm2 : S'.childrenMapH = S.childrenMapH) (hm3 : S'.gm = S.gm)
    (ho : S'.heap.objs = S.heap.objs ++ t)
    (ha : S'.heap.arrs = S.heap.arrs ++ u) :
    Represents S' st := by
  obtain ⟨h1, h2, h3, h4, h5⟩ := hrep
  refine ⟨?_, ?_, ?_, ?_, ?_⟩
  · intro k
    rw [hm1]
    cases hj : jget S.peopleMapH k with
    | none => rw [← h1 k, hj]; rfl
    | some r =>
      obtain ⟨hrb, hpb⟩ := h2 k r hj
      rw [← h1 k, hj]
      show some (derefPerson S'.heap r) = some (derefPerson S.heap r)
      rw [derefPerson_ext S.heap S'.heap r t u ho ha hrb hpb]
  · intro k r hj
    rw [hm1] at hj
    obtain ⟨hrb, hpb⟩ := h2 k r hj
    constructor
    · rw [ho]
      simp only [List.length_append]
      omega
    · rw [ho, ha, lgetD_append_left _ _ _ _ hrb]
      simp only [List.length_append]
      omega
  · intro k
    rw [hm2]
    cases hj : jget S.childrenMapH k with
    | none => rw [← h3 k, hj]; rfl
    | some r =>
      have hrb := h4 k r hj
      rw [← h3 k, hj]
      show some (S'.heap.arrs.getD r []) = some (S.heap.arrs.getD r [])
      rw [ha, lgetD_append_left _ _ _ _ hrb]
  · intro k r hj
    rw [hm2] at hj
    have hrb := h4 k r hj
    rw [ha]
    simp only [List.length_append]
    omega
  · rw [hm3, h5]

theorem peopleObjs_length (l : List (String × Person)) :
    ∀ start, (peopleObjs start l).length = l.length := by
  induction l with
  | nil => intro start; rfl
  | cons x xs ih =>
    intro start
    show (peopleObjs (start + 1) xs).length + 1 = xs.length + 1
    rw [ih (start + 1)]

theorem peopleObjs_getD (l : List (String × Person)) :
    ∀ (start i : Nat) (hi : i < l.length),
    (peopleObjs start l).getD i {} = hPersonOf (start + i) (l.get ⟨i, hi⟩).2 := by
  induction l with
  | nil => intro start i hi; exact absurd hi (Nat.not_lt_zero i)
  | cons x xs ih =>
    intro start i hi
    cases i with
    | zero =>
      show hPersonOf start x.2 = hPersonOf (start + 0) x.2
      rfl
    | succ i =>
      have hi2 : i < xs.length := Nat.lt_of_succ_lt_succ hi
      show (peopleObjs (start + 1) xs).getD i {}
        = hPersonOf (start + (i + 1)) ((x :: xs).get ⟨i + 1, hi⟩).2
      rw [ih (start + 1) i hi2]
      have harith : start + 1 + i = start + (i + 1) := by omega
      rw [harith]
      rfl

theorem jget_peopleRefs (h : Heap) :
    ∀ (l : List (String × Person)) (start : Nat),
    (∀ i (hi : i < l.length), derefPerson h (start + i) = (l.get ⟨i, hi⟩).2) →
    ∀ k, Option.map (derefPerson h) (jget (peopleRefs start l) k) = jget l k := by
  intro l
  induction l with
  | nil => intro start hh k; rfl
  | cons x xs ih =>
    intro start hh k
    by_cases hx : (x.1 == k) = true
    · show Option.map (derefPerson h) (jget ((x.1, start) :: peopleRefs (start + 1) xs) k)
        = jget (x :: xs) k
      rw [jget, jget,
        find?_cons_pos (fun q : String × Nat => q.1 == k) (x.1, start)
          (peopleRefs (start + 1) xs) hx,
        find?_cons_pos (fun q : String × Person => q.1 == k) x xs hx]
      show some (derefPerson h (start + 0)) = some x.2
      rw [hh 0 (Nat.succ_pos xs.length)]
      rfl
    · have hx2 : (x.1 == k) = false := Bool.of_not_eq_true hx
      show Option.map (derefPerson h) (jget ((x.1, start) :: peopleRefs (start + 1) xs) k)
        = jget (x :: xs) k
      rw [jget, jget,
        find?_cons_neg (fun q : String × Nat => q.1 == k) (x.1, start)
          (peopleRefs (start + 1) xs) hx2,
        find?_cons_neg (fun q : String × Person => q.1 == k) x xs hx2]
      have hh2 : ∀ i (hi : i < xs.length),
          derefPerson h (start + 1 + i) = (xs.get ⟨i, hi⟩).2 := by
        intro i hi
        have harith : start + 1 + i = start + (i + 1) := by omega
        rw [harith]
        exact hh (i + 1) (Nat.succ_lt_succ hi)
      exact ih (start + 1) hh2 k

theorem jget_peopleRefs_bounds :
    ∀ (l : List (String × Person)) (start : Nat) (k : String) (r : Nat),
    jget (peopleRefs start l) k = some r → start ≤ r ∧ r < start + l.length := by
  intro l
  induction l with
  | nil => intro start k r hj; exact absurd hj (by simp [jget, peopleRefs])
  | cons x xs ih =>
    intro start k r hj
    by_cases hx : (x.1 == k) = true
    · have hj2 : jget ((x.1, start) :: peopleRefs (start + 1) xs) k = some r := hj
      rw [jget, find?_cons_pos (fun q : String × Nat => q.1 == k) (x.1, start)
          (peopleRefs (start + 1) xs) hx] at hj2
      have : r = start := by
        have : some start = some r := hj2
        exact (Option.some_inj.mp this).symm
      subst this
      exact ⟨Nat.le_refl r, by simp [List.length_cons]⟩
    · have hx2 : (x.1 == k) = false := Bool.of_not_eq_true hx
      have hj2 : jget ((x.1, start) :: peopleRefs (start + 1) xs) k = some r := hj
      rw [jget, find?_cons_neg (fun q : String × Nat => q.1 == k) (x.1, start)
          (peopleRefs (start + 1) xs) hx2] at hj2
      have := ih (start + 1) k r hj2
      constructor
      · omega
      · simp only [List.length_cons]
        omega

theorem jget_childRefs (h : Heap) :
    ∀ (l : List (String × List String)) (start : Nat),
    (∀ i (hi : i < l.length), h.arrs.getD (start + i) [] = (l.get ⟨i, hi⟩).2) →
    ∀ k, Option.map (fun r => h.arrs.getD r []) (jget (childRefs start l) k)
      = jget l k := by
  intro l
  induction l with
  | nil => intro start hh k; rfl
  | cons x xs ih =>
    intro start hh k
    by_cases hx : (x.1 == k) = true
    · show Option.map (fun r => h.arrs.getD r [])
          (jget ((x.1, start) :: childRefs (start + 1) xs) k) = jget (x :: xs) k
      rw [jget, jget,
        find?_cons_pos (fun q : String × Nat => q.1 == k) (x.1, start)
          (childRefs (start + 1) xs) hx,
        find?_cons_pos (fun q : String × List String => q.1 == k) x xs hx]
      show some (h.arrs.getD (start + 0) []) = some x.2
      rw [hh 0 (Nat.succ_pos xs.length)]
      rfl
    · have hx2 : (x.1 == k) = false := Bool.of_not_eq_true hx
      show Option.map (fun r => h.arrs.getD r [])
          (jget ((x.1, start) :: childRefs (start + 1) xs) k) = jget (x :: xs) k
      rw [jget, jget,
        find?_cons_neg (fun q : String × Nat => q.1 == k) (x.1, start)
          (childRefs (start + 1) xs) hx2,
        find?_cons_neg (fun q : String × List String => q.1 == k) x xs hx2]
      have hh2 : ∀ i (hi : i < xs.length),
          h.arrs.getD (start + 1 + i) [] = (xs.get ⟨i, hi⟩).2 := by
        intro i hi
        have harith : start + 1 + i = start + (i + 1) := by omega
        rw [harith]
        exact hh (i + 1) (Nat.succ_lt_succ hi)
      exact ih (start + 1) hh2 k

theorem jget_childRefs_bounds :
    ∀ (l : List (String × List String)) (start : Nat) (k : String) (r : Nat),
    jget (childRefs start l) k = some r → start ≤ r ∧ r < start + l.length := by
  intro l
  induction l with
  | nil => intro start k r hj; exact absurd hj (by simp [jget, childRefs])
  | cons x xs ih =>
    intro start k r hj
    by_cases hx : (x.1 == k) = true
    · have hj2 : jget ((x.1, start) :: childRefs (start + 1) xs) k = some r := hj
      rw [jget, find?_cons_pos (fun q : String × Nat => q.1 == k) (x.1, start)
          (childRefs (start + 1) xs) hx] at hj2
      have : r = start := by
        have : some start = some r := hj2
        exact (Option.some_inj.mp this).symm
      subst this
      exact ⟨Nat.le_refl r, by simp [List.length_cons]⟩
    · have hx2 : (x.1 == k) = false := Bool.of_not_eq_true hx
      have hj2 : jget ((x.1, start) :: childRefs (start + 1) xs) k = some r := hj
      rw [jget, find?_cons_neg (fun q : String × Nat => q.1 == k) (x.1, start)
          (childRefs (start + 1) xs) hx2] at hj2
      have := ih (start + 1) k r hj2
      constructor
      · omega
      · simp only [List.length_cons]
        omega

theorem storeToHState_represents (st : Store) :
    Represents (storeToHState st) st := by
  have hlen : (storeToHState st).heap.objs.length = st.peopleMap.length :=
    peopleObjs_length st.peopleMap 0
  have halen : (storeToHState st).heap.arrs.length
      = st.peopleMap.length + st.childrenMap.length := by
    show (st.peopleMap.map (fun p => p.2.pids)
        ++ st.childrenMap.map (fun p => p.2)).length = _
    simp
  have hogetD : ∀ i (hi : i < st.peopleMap.length),
      (storeToHState st).heap.objs.getD i {}
        = hPersonOf i (st.peopleMap.get ⟨i, hi⟩).2 := by
    intro i hi
    show (peopleObjs 0 st.peopleMap).getD i {} = _
    rw [peopleObjs_getD st.peopleMap 0 i hi]
    simp
  have hagetD : ∀ i (hi : i < st.peopleMap.length),
      (storeToHState st).heap.arrs.getD i []
        = (st.peopleMap.get ⟨i, hi⟩).2.pids := by
    intro i hi
    show (st.peopleMap.map (fun p => p.2.pids)
        ++ st.childrenMap.map (fun p => p.2)).getD i [] = _
    rw [lgetD_append_left _ _ _ i (by simp [hi])]
    rw [List.getD_eq_getElem?_getD]
    rw [List.getElem?_map]
    rw [List.getElem?_eq_getElem hi]
    rfl
  have hderef : ∀ i (hi : i < st.peopleMap.length),
      derefPerson (storeToHState st).heap (0 + i)
        = (st.peopleMap.get ⟨i, hi⟩).2 := by
    intro i hi
    have h0 : 0 + i = i := by omega
    rw [h0]
    unfold derefPerson
    rw [hogetD i hi]
    show ({ id := (st.peopleMap.get ⟨i, hi⟩).2.id,
            name := (st.peopleMap.get ⟨i, hi⟩).2.name,
            fid := (st.peopleMap.get ⟨i, hi⟩).2.fid,
            mid := (st.peopleMap.get ⟨i, hi⟩).2.mid,
            pids := (storeToHState st).heap.arrs.getD i [],
            Birth := (st.peopleMap.get ⟨i, hi⟩).2.Birth,
            phone := (st.peopleMap.get ⟨i, hi⟩).2.phone,
            email := (st.peopleMap.get ⟨i, hi⟩).2.email,
            note := (st.peopleMap.get ⟨i, hi⟩).2.note,
            Address := (st.peopleMap.get ⟨i, hi⟩).2.Address,
            image_url := (st.peopleMap.get ⟨i, hi⟩).2.image_url } : Person)
      = (st.peopleMap.get ⟨i, hi⟩).2
    rw [hagetD i hi]
  have hcderef : ∀ j (hj : j < st.childrenMap.length),
      (storeToHState st).heap.arrs.getD (st.peopleMap.length + j) []
        = (st.childrenMap.get ⟨j, hj⟩).2 := by
    intro j hj
    show (st.peopleMap.map (fun p => p.2.pids)
        ++ st.childrenMap.map (fun p => p.2)).getD (st.peopleMap.length + j) [] = _
    rw [lgetD_append_right _ _ _ _ (by simp)]
    have harith : st.peopleMap.length + j
        - (st.peopleMap.map (fun p => p.2.pids)).length = j := by
      simp
    rw [harith]
    rw [List.getD_eq_getElem?_getD, List.getElem?_map,
      List.getElem?_eq_getElem hj]
    rfl
  refine ⟨?_, ?_, ?_, ?_, rfl⟩
  · intro k
    exact jget_peopleRefs (storeToHState st).heap st.peopleMap 0 hderef k
  · intro k r hj
    have hb := jget_peopleRefs_bounds st.peopleMap 0 k r hj
    have hr : r < st.peopleMap.length := by omega
    constructor
    · rw [hlen]; exact hr
    · rw [hogetD r hr]
      show r < (storeToHState st).heap.arrs.length
      rw [halen]
      omega
  · intro k
    exact jget_childRefs (storeToHState st).heap st.childrenMap
      st.peopleMap.length hcderef k
  · intro k r hj
    have hb := jget_childRefs_bounds st.childrenMap st.peopleMap.length k r hj
    rw [halen]
    omega

theorem hAddNode_none (acc : HState × JsMap Nat) (id : String)
    (hj : jget acc.1.peopleMapH id = none) : hAddNode acc id = acc := by
  unfold hAddNode
  rw [hj]

theorem hAddNode_skip (acc : HState × JsMap Nat) (id : String) (r : Nat)
    (hj : jget acc.1.peopleMapH id = some r)
    (hhas : jhas acc.2 id = true) : hAddNode acc id = acc := by
  unfold hAddNode
  rw [hj]
  simp only [hhas]
  rfl

theorem hAddNode_add (acc : HState × JsMap Nat) (id : String) (r : Nat)
    (hj : jget acc.1.peopleMapH id = some r)
    (hhas : jhas acc.2 id = false) :
    hAddNode acc id
      = ({ acc.1 with heap := { acc.1.heap with
            objs := acc.1.heap.objs ++ [acc.1.heap.objs.getD r {}] } },
         jset acc.2 id acc.1.heap.objs.length) := by
  unfold hAddNode
  rw [hj]
  simp only [hhas]
  rfl

theorem setInv_init (st : Store) (S0 : HState) (hrep : Represents S0 st) :
    SetInv st S0 [] (S0, []) := by
  refine ⟨hrep, rfl, rfl, rfl, rfl, Nat.le_refl _, List.take_length S0.heap.objs, ?_, ?_, rfl⟩
  · intro p hp
    exact absurd hp (List.not_mem_nil p)
  · exact List.Pairwise.nil

theorem hAddNode_sim (st : Store) (S0 : HState) (fsP : JsMap Person)
    (acc : HState × JsMap Nat) (id : String)
    (hinv : SetInv st S0 fsP acc) :
    SetInv st S0 (addNode st.peopleMap fsP id) (hAddNode acc id) := by
  obtain ⟨hrep, hm1, hm2, hm3, harr, hlen, htake, hmem, hpair, hfs⟩ := hinv
  obtain ⟨r1, r2, r3, r4, r5⟩ := hrep
  have hfsHas : jhas fsP id = jhas acc.2 id := by
    rw [hfs]
    exact jhas_mapVal acc.2 (derefPerson acc.1.heap) id
  cases hj : jget acc.1.peopleMapH id with
  | none =>
    have hpure : jget st.peopleMap id = none := by
      rw [← r1 id, hj]
      rfl
    have hhasP : jhas st.peopleMap id = false := by
      cases hh : jhas st.peopleMap id with
      | false => rfl
      | true =>
        have := (jhas_iff_jget_isSome st.peopleMap id).mp hh
        rw [hpure] at this
        exact absurd this (by simp)
    have heq : addNode st.peopleMap fsP id = fsP := by
      unfold addNode
      rw [if_neg]
      intro hcond
      rw [hhasP] at hcond
      exact Bool.false_ne_true hcond.1
    rw [heq, hAddNode_none acc id hj]
    exact ⟨⟨r1, r2, r3, r4, r5⟩, hm1, hm2, hm3, harr, hlen, htake, hmem, hpair, hfs⟩
  | some r =>
    cases hhas : jhas acc.2 id with
    | true =>
      have heq : addNode st.peopleMap fsP id = fsP := by
        unfold addNode
        rw [if_neg]
        intro hcond
        rw [hfsHas, hhas] at hcond
        exact hcond.2 rfl
      rw [heq, hAddNode_skip acc id r hj hhas]
      exact ⟨⟨r1, r2, r3, r4, r5⟩, hm1, hm2, hm3, harr, hlen, htake, hmem, hpair, hfs⟩
    | false =>
      obtain ⟨hrb, hpb⟩ := r2 id r hj
      have hpget : jget st.peopleMap id = some (derefPerson acc.1.heap r) := by
        rw [← r1 id, hj]
        rfl
      have hhasP : jhas st.peopleMap id = true := by
        rw [jhas_iff_jget_isSome, hpget]
        rfl
      have hpure : addNode st.peopleMap fsP id
          = fsP ++ [(id, derefPerson acc.1.heap r)] := by
        unfold addNode
        rw [if_pos ⟨hhasP, by rw [hfsHas, hhas]; exact Bool.false_ne_true⟩]
        rw [hpget]
        exact jset_absent fsP id _ (by rw [hfsHas]; exact hhas)
      rw [hpure, hAddNode_add acc id r hj hhas]
      have hfs2 : jset acc.2 id acc.1.heap.objs.length
          = acc.2 ++ [(id, acc.1.heap.objs.length)] :=
        jset_absent acc.2 id _ hhas
      set clone := acc.1.heap.objs.getD r ({} : HPerson) with hclone
      set S' : HState := { acc.1 with heap := { acc.1.heap with
        objs := acc.1.heap.objs ++ [clone] } } with hS'
      have hoext : S'.heap.objs = acc.1.heap.objs ++ [clone] := rfl
      have haext : S'.heap.arrs = acc.1.heap.arrs ++ [] := by
        show acc.1.heap.arrs = acc.1.heap.arrs ++ []
        rw [List.append_nil]
      have hlen' : S'.heap.objs.length = acc.1.heap.objs.length + 1 := by
        rw [hoext, List.length_append]
        rfl
      have hderefOld : ∀ q, q < acc.1.heap.objs.length →
          (acc.1.heap.objs.getD q {}).pids < acc.1.heap.arrs.length →
          derefPerson S'.heap q = derefPerson acc.1.heap q := by
        intro q hq hqp
        exact derefPerson_ext acc.1.heap S'.heap q [clone] [] hoext haext hq hqp
      have hgetNew : S'.heap.objs.getD acc.1.heap.objs.length {} = clone := by
        rw [hoext]
        exact lgetD_append_len acc.1.heap.objs clone {}
      have hderefNew : derefPerson S'.heap acc.1.heap.objs.length
          = derefPerson acc.1.heap r := by
        unfold derefPerson
        rw [hgetNew, haext, hclone]
      refine ⟨?_, hm1, hm2, hm3, harr, ?_, ?_, ?_, ?_, ?_⟩
      · exact represents_ext acc.1 S' st [clone] [] ⟨r1, r2, r3, r4, r5⟩
          rfl rfl rfl hoext haext
      · rw [hlen']
        omega
      · rw [hoext, List.take_append_of_le_length hlen]
        exact htake
      · intro p hp
        rw [hfs2] at hp
        rcases List.mem_append.mp hp with hold | hnew
        · obtain ⟨hb1, hb2, hb3⟩ := hmem p hold
          refine ⟨hb1, by rw [hlen']; omega, ?_⟩
          have : S'.heap.objs.getD p.2 {} = acc.1.heap.objs.getD p.2 {} := by
            rw [hoext, lgetD_append_left _ _ _ _ hb2]
          rw [this]
          exact hb3
        · have hpe : p = (id, acc.1.heap.objs.length) := by
            cases List.mem_singleton.mp hnew
            rfl
          subst hpe
          refine ⟨hlen, by rw [hlen']; omega, ?_⟩
          show (S'.heap.objs.getD acc.1.heap.objs.length {}).pids
            < S0.heap.arrs.length
          rw [hgetNew, hclone, ← harr]
          exact hpb
      · rw [hfs2, List.map_append]
        rw [List.pairwise_append]
        refine ⟨hpair, List.pairwise_singleton _ _, ?_⟩
        intro a ha b hb
        obtain ⟨q, hq, hqa⟩ := List.mem_map.mp ha
        have hb2 : b = acc.1.heap.objs.length := by
          cases List.mem_singleton.mp hb
          rfl
        subst hb2
        rw [← hqa]
        exact (hmem q hq).2.1
      · rw [hfs2, List.map_append]
        have hmapOld : acc.2.map (fun p => (p.1, derefPerson S'.heap p.2))
            = acc.2.map (fun p => (p.1, derefPerson acc.1.heap p.2)) := by
          apply List.map_congr_left
          intro q hq
          obtain ⟨hb1, hb2, hb3⟩ := hmem q hq
          rw [hderefOld q.2 hb2 (by rw [harr]; exact hb3)]
        rw [hmapOld, ← hfs]
        show fsP ++ [(id, derefPerson acc.1.heap r)]
          = fsP ++ [(id, derefPerson S'.heap acc.1.heap.objs.length)]
        rw [hderefNew]

theorem foldl_hAddNode_sim (st : Store) (S0 : HState) (l : List String) :
    ∀ (fsP : JsMap Person) (acc : HState × JsMap Nat),
    SetInv st S0 fsP acc →
    SetInv st S0 (l.foldl (addNode st.peopleMap) fsP) (l.foldl hAddNode acc) := by
  induction l with
  | nil => intro fsP acc h; exact h
  | cons x xs ih =>
    intro fsP acc h
    exact ih (addNode st.peopleMap fsP x) (hAddNode acc x)
      (hAddNode_sim st S0 fsP acc x h)

theorem hGetGender_eq (st : Store) (x : String) :
    hGetGender st.genderMap x = getGender st x := rfl

theorem viewNode_pres (h h' : Heap) (r : Nat) (u : List (List String))
    (hobj : h'.objs.getD r {} = h.objs.getD r {})
    (ha : h'.arrs = h.arrs ++ u)
    (hp : (h.objs.getD r {}).pids < h.arrs.length) :
    viewNode h' r = viewNode h r := by
  unfold viewNode
  rw [hobj, ha, lgetD_append_left _ _ _ _ hp]

theorem derefPerson_pres (h h' : Heap) (r : Nat) (u : List (List String))
    (hobj : h'.objs.getD r {} = h.objs.getD r {})
    (ha : h'.arrs = h.arrs ++ u)
    (hp : (h.objs.getD r {}).pids < h.arrs.length) :
    derefPerson h' r = derefPerson h r := by
  unfold derefPerson
  rw [hobj, ha, lgetD_append_left _ _ _ _ hp]

theorem sanitizeOneH_view (st : Store) (nodeIds : List String) (S : HState)
    (r : Nat) (hr : r < S.heap.objs.length) :
    viewNode (sanitizeOneH st.genderMap nodeIds S r).heap r
      = sanitizeNode st nodeIds (derefPerson S.heap r) := by
  simp only [sanitizeOneH, viewNode, sanitizeNode, derefPerson, hGetGender,
    getGender]
  rw [lgetD_set_self _ _ _ _ hr]
  rw [lgetD_append_len]
  rfl

theorem sanitizeOneH_frame (gm : JsMap String) (nodeIds : List String)
    (S : HState) (r : Nat) :
    (sanitizeOneH gm nodeIds S r).peopleMapH = S.peopleMapH
    ∧ (sanitizeOneH gm nodeIds S r).childrenMapH = S.childrenMapH
    ∧ (sanitizeOneH gm nodeIds S r).gm = S.gm
    ∧ (sanitizeOneH gm nodeIds S r).heap.objs.length = S.heap.objs.length
    ∧ (∃ t, (sanitizeOneH gm nodeIds S r).heap.arrs = S.heap.arrs ++ t)
    ∧ (∀ q, q ≠ r → (sanitizeOneH gm nodeIds S r).heap.objs.getD q {}
        = S.heap.objs.getD q {}) := by
  refine ⟨rfl, rfl, rfl, ?_, ⟨_, rfl⟩, ?_⟩
  · show (S.heap.objs.set r _).length = S.heap.objs.length
    exact List.length_set S.heap.objs r _
  · intro q hq
    show (S.heap.objs.set r _).getD q {} = S.heap.objs.getD q {}
    exact lgetD_set_ne S.heap.objs r q _ {} (fun he => hq (he.symm))

theorem sanitizeOneH_arrs (gm : JsMap String) (nodeIds : List String)
    (S : HState) (r : Nat) :
    (sanitizeOneH gm nodeIds S r).heap.arrs
      = S.heap.arrs ++ [(S.heap.arrs.getD (S.heap.objs.getD r {}).pids []).filter
          (fun pid => nodeIds.contains pid)] := rfl

theorem sanitizeOneH_pids (gm : JsMap String) (nodeIds : List String)
    (S : HState) (r : Nat) (hr : r < S.heap.objs.length) :
    ((sanitizeOneH gm nodeIds S r).heap.objs.getD r {}).pids
      = S.heap.arrs.length := by
  simp only [sanitizeOneH]
  rw [lgetD_set_self _ _ _ _ hr]

theorem sanitizeFold (st : Store) (nodeIds : List String) :
    ∀ (refs : List Nat) (S : HState),
    S.gm = st.genderMap →
    (∀ r ∈ refs, r < S.heap.objs.length) →
    (∀ r ∈ refs, (S.heap.objs.getD r {}).pids < S.heap.arrs.length) →
    refs.Pairwise (· ≠ ·) →
    (refs.foldl (sanitizeOneH st.genderMap nodeIds) S).peopleMapH = S.peopleMapH
    ∧ (refs.foldl (sanitizeOneH st.genderMap nodeIds) S).childrenMapH
        = S.childrenMapH
    ∧ (refs.foldl (sanitizeOneH st.genderMap nodeIds) S).gm = S.gm
    ∧ (refs.foldl (sanitizeOneH st.genderMap nodeIds) S).heap.objs.length
        = S.heap.objs.length
    ∧ (∃ t, (refs.foldl (sanitizeOneH st.genderMap nodeIds) S).heap.arrs
        = S.heap.arrs ++ t)
    ∧ (∀ q, q ∉ refs →
        (refs.foldl (sanitizeOneH st.genderMap nodeIds) S).heap.objs.getD q {}
          = S.heap.objs.getD q {})
    ∧ (∀ r ∈ refs,
        ((refs.foldl (sanitizeOneH st.genderMap nodeIds) S).heap.objs.getD r {}).pids
          < (refs.foldl (sanitizeOneH st.genderMap nodeIds) S).heap.arrs.length)
    ∧ (∀ r ∈ refs,
        viewNode (refs.foldl (sanitizeOneH st.genderMap nodeIds) S).heap r
          = sanitizeNode st nodeIds (derefPerson S.heap r))
    ∧ (∀ n, (∀ r ∈ refs, n ≤ r) →
        (refs.foldl (sanitizeOneH st.genderMap nodeIds) S).heap.objs.take n
          = S.heap.objs.take n) := by
  intro refs
  induction refs with
  | nil =>
    intro S hgm hb hp hpw
    refine ⟨rfl, rfl, rfl, rfl, ⟨[], (List.append_nil S.heap.arrs).symm⟩,
      fun q _ => rfl, ?_, ?_, fun n _ => rfl⟩
    · intro r hr; exact absurd hr (List.not_mem_nil r)
    · intro r hr; exact absurd hr (List.not_mem_nil r)
  | cons r rest ih =>
    intro S hgm hb hp hpw
    have hrS : r < S.heap.objs.length := hb r (List.mem_cons_self r rest)
    have hrp : (S.heap.objs.getD r {}).pids < S.heap.arrs.length :=
      hp r (List.mem_cons_self r rest)
    have hrne : ∀ q ∈ rest, r ≠ q := (List.pairwise_cons.mp hpw).1
    have hpwr : rest.Pairwise (· ≠ ·) := (List.pairwise_cons.mp hpw).2
    set S1 := sanitizeOneH st.genderMap nodeIds S r with hS1
    obtain ⟨f1, f2, f3, f4, ⟨t1, f5⟩, f6⟩ :=
      sanitizeOneH_frame st.genderMap nodeIds S r
    have hfold : (r :: rest).foldl (sanitizeOneH st.genderMap nodeIds) S
        = rest.foldl (sanitizeOneH st.genderMap nodeIds) S1 := rfl
    have hgm1 : S1.gm = st.genderMap := by rw [f3, hgm]
    have hb1 : ∀ q ∈ rest, q < S1.heap.objs.length := by
      intro q hq
      rw [f4]
      exact hb q (List.mem_cons_of_mem r hq)
    have hget1 : ∀ q ∈ rest, S1.heap.objs.getD q {} = S.heap.objs.getD q {} := by
      intro q hq
      exact f6 q (fun he => hrne q hq he.symm)
    have hp1 : ∀ q ∈ rest, (S1.heap.objs.getD q {}).pids < S1.heap.arrs.length := by
      intro q hq
      rw [hget1 q hq, f5, List.length_append]
      have := hp q (List.mem_cons_of_mem r hq)
      omega
    obtain ⟨g1, g2, g3, g4, ⟨t2, g5⟩, g6, g7, g8, g9⟩ := ih S1 hgm1 hb1 hp1 hpwr
    have hrmem : r ∉ rest := by
      intro hmem
      exact hrne r hmem rfl
    have hS1r : ((rest.foldl (sanitizeOneH st.genderMap nodeIds) S1).heap.objs.getD r {})
        = S1.heap.objs.getD r {} := g6 r hrmem
    have hpids1 : (S1.heap.objs.getD r {}).pids = S.heap.arrs.length :=
      sanitizeOneH_pids st.genderMap nodeIds S r hrS
    have hpids1lt : (S1.heap.objs.getD r {}).pids < S1.heap.arrs.length := by
      rw [hpids1, hS1, sanitizeOneH_arrs, List.length_append]
      simp
    rw [hfold]
    refine ⟨?_, ?_, ?_, ?_, ?_, ?_, ?_, ?_, ?_⟩
    · rw [g1, f1]
    · rw [g2, f2]
    · rw [g3, f3]
    · rw [g4, f4]
    · refine ⟨t1 ++ t2, ?_⟩
      rw [g5, f5, List.append_assoc]
    · intro q hq
      have hq1 : q ∉ rest := fun hmem => hq (List.mem_cons_of_mem r hmem)
      have hq2 : q ≠ r := fun he => hq (he ▸ List.mem_cons_self r rest)
      rw [g6 q hq1, f6 q hq2]
    · intro q hq
      rcases List.mem_cons.mp hq with he | hmem
      · subst he
        rw [hS1r, g5, List.length_append]
        have := hpids1lt
        omega
      · exact g7 q hmem
    · intro q hq
      rcases List.mem_cons.mp hq with he | hmem
      · subst he
        have hview1 : viewNode (rest.foldl (sanitizeOneH st.genderMap nodeIds) S1).heap q
            = viewNode S1.heap q :=
          viewNode_pres S1.heap _ q t2 (g6 q hrmem) g5 hpids1lt
        rw [hview1]
        exact sanitizeOneH_view st nodeIds S q hrS
      · have hderef1 : derefPerson S1.heap q = derefPerson S.heap q :=
          derefPerson_pres S.heap S1.heap q t1 (hget1 q hmem) f5
            (hp q (List.mem_cons_of_mem r hmem))
        rw [g8 q hmem, hderef1]
    · intro n hn
      have hn1 : ∀ q ∈ rest, n ≤ q := fun q hq => hn q (List.mem_cons_of_mem r hq)
      rw [g9 n hn1]
      show (S.heap.objs.set r _).take n = S.heap.objs.take n
      exact take_set_of_le S.heap.objs r n _ (hn r (List.mem_cons_self r rest))

theorem setInvRep {st : Store} {S0 : HState} {fsP : JsMap Person}
    {acc : HState × JsMap Nat} (h : SetInv st S0 fsP acc) :
    Represents acc.1 st := h.1

theorem setInvM1 {st : Store} {S0 : HState} {fsP : JsMap Person}
    {acc : HState × JsMap Nat} (h : SetInv st S0 fsP acc) :
    acc.1.peopleMapH = S0.peopleMapH := h.2.1

theorem setInvM2 {st : Store} {S0 : HState} {fsP : JsMap Person}
    {acc : HState × JsMap Nat} (h : SetInv st S0 fsP acc) :
    acc.1.childrenMapH = S0.childrenMapH := h.2.2.1

theorem setInvM3 {st : Store} {S0 : HState} {fsP : JsMap Person}
    {acc : HState × JsMap Nat} (h : SetInv st S0 fsP acc) :
    acc.1.gm = S0.gm := h.2.2.2.1

theorem setInvArr {st : Store} {S0 : HState} {fsP : JsMap Person}
    {acc : HState × JsMap Nat} (h : SetInv st S0 fsP acc) :
    acc.1.heap.arrs = S0.heap.arrs := h.2.2.2.2.1

theorem setInvLen {st : Store} {S0 : HState} {fsP : JsMap Person}
    {acc : HState × JsMap Nat} (h : SetInv st S0 fsP acc) :
    S0.heap.objs.length ≤ acc.1.heap.objs.length := h.2.2.2.2.2.1

theorem setInvTake {st : Store} {S0 : HState} {fsP : JsMap Person}
    {acc : HState × JsMap Nat} (h : SetInv st S0 fsP acc) :
    acc.1.heap.objs.take S0.heap.objs.length = S0.heap.objs :=
  h.2.2.2.2.2.2.1

theorem setInvMem {st : Store} {S0 : HState} {fsP : JsMap Person}
    {acc : HState × JsMap Nat} (h : SetInv st S0 fsP acc) :
    ∀ p ∈ acc.2, S0.heap.objs.length ≤ p.2 ∧ p.2 < acc.1.heap.objs.length
      ∧ (acc.1.heap.objs.getD p.2 {}).pids < S0.heap.arrs.length :=
  h.2.2.2.2.2.2.2.1

theorem setInvPW {st : Store} {S0 : HState} {fsP : JsMap Person}
    {acc : HState × JsMap Nat} (h : SetInv st S0 fsP acc) :
    (acc.2.map Prod.snd).Pairwise (· < ·) := h.2.2.2.2.2.2.2.2.1

theorem setInvFs {st : Store} {S0 : HState} {fsP : JsMap Person}
    {acc : HState × JsMap Nat} (h : SetInv st S0 fsP acc) :
    fsP = acc.2.map (fun p => (p.1, derefPerson acc.1.heap p.2)) :=
  h.2.2.2.2.2.2.2.2.2

theorem getFamilySetH_spec (st : Store) (S0 : HState) (centerId : String)
    (hrep : Represents S0 st) :
    (getFamilySetH S0 centerId).1.peopleMapH = S0.peopleMapH
    ∧ (getFamilySetH S0 centerId).1.childrenMapH = S0.childrenMapH
    ∧ (getFamilySetH S0 centerId).1.gm = S0.gm
    ∧ S0.heap.objs.length ≤ (getFamilySetH S0 centerId).1.heap.objs.length
    ∧ (getFamilySetH S0 centerId).1.heap.objs.take S0.heap.objs.length
        = S0.heap.objs
    ∧ (∃ u, (getFamilySetH S0 centerId).1.heap.arrs = S0.heap.arrs ++ u)
    ∧ Represents (getFamilySetH S0 centerId).1 st
    ∧ (∀ r ∈ (getFamilySetH S0 centerId).2,
        S0.heap.objs.length ≤ r
        ∧ r < (getFamilySetH S0 centerId).1.heap.objs.length
        ∧ ((getFamilySetH S0 centerId).1.heap.objs.getD r {}).pids
            < (getFamilySetH S0 centerId).1.heap.arrs.length)
    ∧ (getFamilySetH S0 centerId).2.map
        (viewNode (getFamilySetH S0 centerId).1.heap)
        = getFamilySet st centerId := by
  obtain ⟨r1, r2, r3, r4, r5⟩ := hrep
  cases hj : jget S0.peopleMapH centerId with
  | none =>
    have heq : getFamilySetH S0 centerId = (S0, []) := by
      unfold getFamilySetH
      rw [hj]
    have hpure : jget st.peopleMap centerId = none := by
      rw [← r1 centerId, hj]
      rfl
    have hpureEq : getFamilySet st centerId = [] := by
      unfold getFamilySet
      rw [hpure]
    rw [heq]
    refine ⟨rfl, rfl, rfl, Nat.le_refl _, List.take_length S0.heap.objs,
      ⟨[], (List.append_nil S0.heap.arrs).symm⟩, ⟨r1, r2, r3, r4, r5⟩, ?_, ?_⟩
    · intro r hrr
      exact absurd hrr (List.not_mem_nil r)
    · rw [hpureEq]
      rfl
  | some cref =>
    obtain ⟨crefLt, crefPids⟩ := r2 centerId cref hj
    have hpure : jget st.peopleMap centerId
        = some (derefPerson S0.heap cref) := by
      rw [← r1 centerId, hj]
      rfl
    have heq : getFamilySetH S0 centerId
        = ((fsRefs S0 centerId cref).foldl
            (sanitizeOneH (fsAcc5 S0 centerId cref).1.gm
              (fsNodeIds S0 centerId cref))
            (fsAcc5 S0 centerId cref).1,
           fsRefs S0 centerId cref) := by
      unfold getFamilySetH
      rw [hj]
    have inv1 : SetInv st S0 (addNode st.peopleMap [] centerId)
        (fsAcc1 S0 centerId) :=
      hAddNode_sim st S0 [] (S0, []) centerId
        (setInv_init st S0 ⟨r1, r2, r3, r4, r5⟩)
    have hgetc1 : (fsAcc1 S0 centerId).1.heap.objs.getD cref {}
        = S0.heap.objs.getD cref {} :=
      lgetD_of_take_eq _ _ _ _ _ (setInvTake inv1) crefLt
    have hfid : ((fsAcc1 S0 centerId).1.heap.objs.getD cref {}).fid
        = (derefPerson S0.heap cref).fid := by
      rw [hgetc1]
      rfl
    have inv2 : SetInv st S0
        (if (derefPerson S0.heap cref).fid ≠ "" then
          addNode st.peopleMap (addNode st.peopleMap [] centerId)
            (derefPerson S0.heap cref).fid
        else addNode st.peopleMap [] centerId)
        (fsAcc2 S0 centerId cref) := by
      unfold fsAcc2
      rw [hfid]
      by_cases hc : (derefPerson S0.heap cref).fid ≠ ""
      · rw [if_pos hc, if_pos hc]
        exact hAddNode_sim st S0 _ _ _ inv1
      · rw [if_neg hc, if_neg hc]
        exact inv1
    have hgetc2 : (fsAcc2 S0 centerId cref).1.heap.objs.getD cref {}
        = S0.heap.objs.getD cref {} :=
      lgetD_of_take_eq _ _ _ _ _ (setInvTake inv2) crefLt
    have hmid : ((fsAcc2 S0 centerId cref).1.heap.objs.getD cref {}).mid
        = (derefPerson S0.heap cref).mid := by
      rw [hgetc2]
      rfl
    have inv3 : SetInv st S0
        (if (derefPerson S0.heap cref).mid ≠ "" then
          addNode st.peopleMap
            (if (derefPerson S0.heap cref).fid ≠ "" then
              addNode st.peopleMap (addNode st.peopleMap [] centerId)
                (derefPerson S0.heap cref).fid
            else addNode st.peopleMap [] centerId)
            (derefPerson S0.heap cref).mid
        else
          (if (derefPerson S0.heap cref).fid ≠ "" then
            addNode st.peopleMap (addNode st.peopleMap [] centerId)
              (derefPerson S0.heap cref).fid
          else addNode st.peopleMap [] centerId))
        (fsAcc3 S0 centerId cref) := by
      unfold fsAcc3
      rw [hmid]
      by_cases hc : (derefPerson S0.heap cref).mid ≠ ""
      · rw [if_pos hc, if_pos hc]
        exact hAddNode_sim st S0 _ _ _ inv2
      · rw [if_neg hc, if_neg hc]
        exact inv2
    have hgetc3 : (fsAcc3 S0 centerId cref).1.heap.objs.getD cref {}
        = S0.heap.objs.getD cref {} :=
      lgetD_of_take_eq _ _ _ _ _ (setInvTake inv3) crefLt
    have hpl : (fsAcc3 S0 centerId cref).1.heap.arrs.getD
        ((fsAcc3 S0 centerId cref).1.heap.objs.getD cref {}).pids []
        = (derefPerson S0.heap cref).pids := by
      rw [setInvArr inv3, hgetc3]
      rfl
    have inv4 : SetInv st S0
        ((derefPerson S0.heap cref).pids.foldl (addNode st.peopleMap)
          (if (derefPerson S0.heap cref).mid ≠ "" then
            addNode st.peopleMap
              (if (derefPerson S0.heap cref).fid ≠ "" then
                addNode st.peopleMap (addNode st.peopleMap [] centerId)
                  (derefPerson S0.heap cref).fid
              else addNode st.peopleMap [] centerId)
              (derefPerson S0.heap cref).mid
          else
            (if (derefPerson S0.heap cref).fid ≠ "" then
              addNode st.peopleMap (addNode st.peopleMap [] centerId)
                (derefPerson S0.heap cref).fid
            else addNode st.peopleMap [] centerId)))
        (fsAcc4 S0 centerId cref) := by
      unfold fsAcc4
      rw [hpl]
      exact foldl_hAddNode_sim st S0 _ _ _ inv3
    have inv5 : SetInv st S0
        (familySetOf st centerId (derefPerson S0.heap cref))
        (fsAcc5 S0 centerId cref) := by
      show SetInv st S0
        (((jget st.childrenMap centerId).getD []).foldl (addNode st.peopleMap)
          ((derefPerson S0.heap cref).pids.foldl (addNode st.peopleMap)
            (if (derefPerson S0.heap cref).mid ≠ "" then
              addNode st.peopleMap
                (if (derefPerson S0.heap cref).fid ≠ "" then
                  addNode st.peopleMap (addNode st.peopleMap [] centerId)
                    (derefPerson S0.heap cref).fid
                else addNode st.peopleMap [] centerId)
                (derefPerson S0.heap cref).mid
            else
              (if (derefPerson S0.heap cref).fid ≠ "" then
                addNode st.peopleMap (addNode st.peopleMap [] centerId)
                  (derefPerson S0.heap cref).fid
              else addNode st.peopleMap [] centerId))))
        (fsAcc5 S0 centerId cref)
      unfold fsAcc5
      cases hcj : jget S0.childrenMapH centerId with
      | none =>
        have hpc : jget st.childrenMap centerId = none := by
          rw [← r3 centerId, hcj]
          rfl
        rw [hpc]
        exact inv4
      | some ar =>
        have hpc : (jget st.childrenMap centerId).getD []
            = S0.heap.arrs.getD ar [] := by
          rw [← r3 centerId, hcj]
          rfl
        have hcl : (fsAcc4 S0 centerId cref).1.heap.arrs.getD ar []
            = S0.heap.arrs.getD ar [] := by
          rw [setInvArr inv4]
        rw [hpc, ← hcl]
        exact foldl_hAddNode_sim st S0
          ((fsAcc4 S0 centerId cref).1.heap.arrs.getD ar []) _ _ inv4
    have hgm5 : (fsAcc5 S0 centerId cref).1.gm = st.genderMap := by
      rw [setInvM3 inv5, r5]
    have hbnd : ∀ r ∈ fsRefs S0 centerId cref,
        S0.heap.objs.length ≤ r
        ∧ r < (fsAcc5 S0 centerId cref).1.heap.objs.length
        ∧ ((fsAcc5 S0 centerId cref).1.heap.objs.getD r {}).pids
            < S0.heap.arrs.length := by
      intro r hrr
      obtain ⟨p, hp, hpr⟩ := List.mem_map.mp hrr
      obtain ⟨b1, b2, b3⟩ := setInvMem inv5 p hp
      subst hpr
      exact ⟨b1, b2, b3⟩
    have hb : ∀ r ∈ fsRefs S0 centerId cref,
        r < (fsAcc5 S0 centerId cref).1.heap.objs.length :=
      fun r hrr => (hbnd r hrr).2.1
    have hpd : ∀ r ∈ fsRefs S0 centerId cref,
        ((fsAcc5 S0 centerId cref).1.heap.objs.getD r {}).pids
          < (fsAcc5 S0 centerId cref).1.heap.arrs.length := by
      intro r hrr
      rw [setInvArr inv5]
      exact (hbnd r hrr).2.2
    have hpw : (fsRefs S0 centerId cref).Pairwise (· ≠ ·) := by
      have hlt : (fsRefs S0 centerId cref).Pairwise (· < ·) := setInvPW inv5
      exact hlt.imp Nat.ne_of_lt
    obtain ⟨g1, g2, g3, g4, ⟨t2, g5⟩, g6, g7, g8, g9⟩ :=
      sanitizeFold st (fsNodeIds S0 centerId cref) (fsRefs S0 centerId cref)
        (fsAcc5 S0 centerId cref).1 hgm5 hb hpd hpw
    rw [heq, hgm5]
    have harr6 : ((fsRefs S0 centerId cref).foldl
        (sanitizeOneH st.genderMap (fsNodeIds S0 centerId cref))
        (fsAcc5 S0 centerId cref).1).heap.arrs = S0.heap.arrs ++ t2 := by
      rw [g5, setInvArr inv5]
    have hobj6 : ∀ q, q < S0.heap.objs.length →
        ((fsRefs S0 centerId cref).foldl
          (sanitizeOneH st.genderMap (fsNodeIds S0 centerId cref))
          (fsAcc5 S0 centerId cref).1).heap.objs.getD q {}
          = S0.heap.objs.getD q {} := by
      intro q hq
      have hqn : q ∉ fsRefs S0 centerId cref := by
        intro hmem
        have := (hbnd q hmem).1
        omega
      rw [g6 q hqn]
      exact lgetD_of_take_eq _ _ _ _ _ (setInvTake inv5) hq
    refine ⟨?_, ?_, ?_, ?_, ?_, ⟨t2, harr6⟩, ?_, ?_, ?_⟩
    · rw [g1, setInvM1 inv5]
    · rw [g2, setInvM2 inv5]
    · rw [g3, setInvM3 inv5]
    · rw [g4]
      exact setInvLen inv5
    · rw [g9 S0.heap.objs.length (fun r hrr => (hbnd r hrr).1)]
      exact setInvTake inv5
    · refine ⟨?_, ?_, ?_, ?_, ?_⟩
      · intro k
        rw [g1, setInvM1 inv5]
        cases hjk : jget S0.peopleMapH k with
        | none =>
          rw [← r1 k, hjk]
          rfl
        | some rr =>
          obtain ⟨hb1, hb2⟩ := r2 k rr hjk
          rw [← r1 k, hjk]
          show some (derefPerson _ rr) = some (derefPerson S0.heap rr)
          rw [derefPerson_pres S0.heap _ rr t2 (hobj6 rr hb1) harr6 hb2]
      · intro k rr hjk
        rw [g1, setInvM1 inv5] at hjk
        obtain ⟨hb1, hb2⟩ := r2 k rr hjk
        constructor
        · rw [g4]
          have := setInvLen inv5
          omega
        · rw [hobj6 rr hb1, harr6, List.length_append]
          omega
      · intro k
        rw [g2, setInvM2 inv5]
        cases hjk : jget S0.childrenMapH k with
        | none =>
          rw [← r3 k, hjk]
          rfl
        | some rr =>
          have hb1 := r4 k rr hjk
          rw [← r3 k, hjk]
          rw [harr6]
          show some ((S0.heap.arrs ++ t2).getD rr []) = some (S0.heap.arrs.getD rr [])
          rw [lgetD_append_left _ _ _ _ hb1]
      · intro k rr hjk
        rw [g2, setInvM2 inv5] at hjk
        have hb1 := r4 k rr hjk
        rw [harr6, List.length_append]
        omega
      · rw [g3, setInvM3 inv5, r5]
    · intro r hrr
      refine ⟨(hbnd r hrr).1, ?_, g7 r hrr⟩
      rw [g4]
      exact (hbnd r hrr).2.1
    · have hpureEq : getFamilySet st centerId
          = ((familySetOf st centerId (derefPerson S0.heap cref)).map
              (fun p => p.2)).map
            (sanitizeNode st
              (((familySetOf st centerId (derefPerson S0.heap cref)).map
                (fun p => p.2)).map (fun n => n.id))) := by
        unfold getFamilySet
        rw [hpure]
      have hnodes : (familySetOf st centerId (derefPerson S0.heap cref)).map
          (fun p => p.2)
          = (fsRefs S0 centerId cref).map
            (derefPerson (fsAcc5 S0 centerId cref).1.heap) := by
        rw [setInvFs inv5, List.map_map]
        show (fsAcc5 S0 centerId cref).2.map
          ((fun p => p.2) ∘ (fun p => (p.1, derefPerson (fsAcc5 S0 centerId cref).1.heap p.2)))
          = (fsRefs S0 centerId cref).map (derefPerson (fsAcc5 S0 centerId cref).1.heap)
        rw [show fsRefs S0 centerId cref
          = (fsAcc5 S0 centerId cref).2.map (fun p => p.2) from rfl, List.map_map]
        rfl
      have hids : ((familySetOf st centerId (derefPerson S0.heap cref)).map
          (fun p => p.2)).map (fun n => n.id) = fsNodeIds S0 centerId cref := by
        rw [hnodes, List.map_map]
        rfl
      rw [hpureEq, hids, hnodes, List.map_map]
      apply List.map_congr_left
      intro r hrr
      show viewNode _ r = sanitizeNode st (fsNodeIds S0 centerId cref)
        (derefPerson (fsAcc5 S0 centerId cref).1.heap r)
      exact g8 r hrr

/-- C7: calling the extractor twice on the heap image of a store yields
structurally equal results (the dereferenced node contents coincide, and
both equal the pure extraction) built from disjoint fresh references (no
clone object is shared between the calls), while the two store maps, the
gender map, every person object and every array present before the calls
are unchanged, and the maps still dereference to the original records. -/
theorem claim_C7 (st : Store) (focusId : String) :
    ((extractTwice st focusId).1.2).map
        (viewNode (extractTwice st focusId).2.1.heap)
      = ((extractTwice st focusId).2.2).map
        (viewNode (extractTwice st focusId).2.1.heap)
    ∧ ((extractTwice st focusId).1.2).map
        (viewNode (extractTwice st focusId).2.1.heap)
      = getFamilySet st focusId
    ∧ (∀ r ∈ (extractTwice st focusId).1.2, r ∉ (extractTwice st focusId).2.2)
    ∧ (extractTwice st focusId).2.1.peopleMapH = (storeToHState st).peopleMapH
    ∧ (extractTwice st focusId).2.1.childrenMapH
        = (storeToHState st).childrenMapH
    ∧ (extractTwice st focusId).2.1.gm = (storeToHState st).gm
    ∧ (extractTwice st focusId).2.1.heap.objs.take
        (storeToHState st).heap.objs.length = (storeToHState st).heap.objs
    ∧ (extractTwice st focusId).2.1.heap.arrs.take
        (storeToHState st).heap.arrs.length = (storeToHState st).heap.arrs
    ∧ (∀ k, Option.map (derefPerson (extractTwice st focusId).2.1.heap)
        (jget (extractTwice st focusId).2.1.peopleMapH k)
        = jget st.peopleMap k) := by
  obtain ⟨a1, a2, a3, a4, a5, ⟨u1, a6⟩, a7, a8, a9⟩ :=
    getFamilySetH_spec st (storeToHState st) focusId
      (storeToHState_represents st)
  obtain ⟨b1, b2, b3, b4, b5, ⟨u2, b6⟩, b7, b8, b9⟩ :=
    getFamilySetH_spec st (getFamilySetH (storeToHState st) focusId).1
      focusId a7
  have hview12 : ∀ r ∈ (getFamilySetH (storeToHState st) focusId).2,
      viewNode (getFamilySetH (getFamilySetH (storeToHState st) focusId).1
          focusId).1.heap r
        = viewNode (getFamilySetH (storeToHState st) focusId).1.heap r := by
    intro r hrr
    obtain ⟨c1, c2, c3⟩ := a8 r hrr
    exact viewNode_pres _ _ r u2 (lgetD_of_take_eq _ _ _ _ _ b5 c2) b6 c3
  have hres1view : ((getFamilySetH (storeToHState st) focusId).2).map
      (viewNode (getFamilySetH (getFamilySetH (storeToHState st) focusId).1
        focusId).1.heap)
      = getFamilySet st focusId := by
    rw [List.map_congr_left hview12]
    exact a9
  refine ⟨?_, ?_, ?_, ?_, ?_, ?_, ?_, ?_, ?_⟩
  · show ((getFamilySetH (storeToHState st) focusId).2).map
        (viewNode (getFamilySetH (getFamilySetH (storeToHState st) focusId).1
          focusId).1.heap)
      = ((getFamilySetH (getFamilySetH (storeToHState st) focusId).1
          focusId).2).map
        (viewNode (getFamilySetH (getFamilySetH (storeToHState st) focusId).1
          focusId).1.heap)
    rw [hres1view, b9]
  · exact hres1view
  · intro r hr1 hr2
    have hlt : r < (getFamilySetH (storeToHState st) focusId).1.heap.objs.length :=
      (a8 r hr1).2.1
    have hge : (getFamilySetH (storeToHState st) focusId).1.heap.objs.length ≤ r :=
      (b8 r hr2).1
    omega
  · show (getFamilySetH (getFamilySetH (storeToHState st) focusId).1
        focusId).1.peopleMapH = (storeToHState st).peopleMapH
    rw [b1, a1]
  · show (getFamilySetH (getFamilySetH (storeToHState st) focusId).1
        focusId).1.childrenMapH = (storeToHState st).childrenMapH
    rw [b2, a2]
  · show (getFamilySetH (getFamilySetH (storeToHState st) focusId).1
        focusId).1.gm = (storeToHState st).gm
    rw [b3, a3]
  · show (getFamilySetH (getFamilySetH (storeToHState st) focusId).1
        focusId).1.heap.objs.take (storeToHState st).heap.objs.length
      = (storeToHState st).heap.objs
    have h1 : (getFamilySetH (getFamilySetH (storeToHState st) focusId).1
        focusId).1.heap.objs.take (storeToHState st).heap.objs.length
        = ((getFamilySetH (getFamilySetH (storeToHState st) focusId).1
            focusId).1.heap.objs.take
          (getFamilySetH (storeToHState st) focusId).1.heap.objs.length).take
          (storeToHState st).heap.objs.length := by
      rw [List.take_take, Nat.min_eq_left a4]
    rw [h1, b5, a5]
  · show (getFamilySetH (getFamilySetH (storeToHState st) focusId).1
        focusId).1.heap.arrs.take (storeToHState st).heap.arrs.length
      = (storeToHState st).heap.arrs
    rw [b6, a6, List.append_assoc,
      List.take_append_of_le_length (Nat.le_refl _), List.take_length]
  · intro k
    exact b7.1 k

/-! ## BFS level correctness (for claim C8) -/

theorem bfsGo_cons (present : String → Bool) (succ : String → List String)
    (fuel : Nat) (v : String) (d : Nat) (rest : List (String × Nat))
    (visited : List String) (acc : JsMap Nat) :
    bfsGo present succ (fuel + 1) ((v, d) :: rest) visited acc
      = if visited.contains v then bfsGo present succ fuel rest visited acc
        else if present v then
          bfsGo present succ fuel (rest ++ (succ v).map (fun w => (w, d + 1)))
            (v :: visited) (jset acc v d)
        else bfsGo present succ fuel rest (v :: visited) acc := rfl

theorem jget_mem_entry {α : Type} (m : JsMap α) (k : String) (v : α)
    (h : jget m k = some v) : (k, v) ∈ m := by
  unfold jget at h
  cases hf : m.find? (fun p => p.1 == k) with
  | none =>
    rw [hf] at h
    exact absurd h (by simp)
  | some q =>
    rw [hf] at h
    have hq2 : q.2 = v := by
      have h2 : some q.2 = some v := h
      exact Option.some_inj.mp h2
    have hqk : q.1 = k := by
      have h3 := List.find?_some (p := fun p : String × α => p.1 == k) hf
      exact eq_of_beq h3
    have hm := List.mem_of_find?_eq_some hf
    have hq : q = (k, v) := by
      rw [← hqk, ← hq2]
    rw [← hq]
    exact hm

theorem pairs_map_pairwise (l : List String) (d : Nat) :
    (l.map (fun w => (w, d))).Pairwise
      (fun a b : String × Nat => a.2 ≤ b.2) := by
  induction l with
  | nil => exact List.Pairwise.nil
  | cons x xs ih =>
    rw [List.map_cons, List.pairwise_cons]
    refine ⟨?_, ih⟩
    intro b hb
    obtain ⟨w, _, hw⟩ := List.mem_map.mp hb
    rw [← hw]

theorem mem_map_snd (l : List String) (d : Nat) (b : String × Nat)
    (hb : b ∈ l.map (fun w => (w, d))) : b.2 = d := by
  obtain ⟨w, _, hw⟩ := List.mem_map.mp hb
  rw [← hw]

theorem bfs_master (present : String → Bool) (succ : String → List String)
    (R : String → Nat → Prop)
    (hR : ∀ v d, R v d → present v = true → ∀ w ∈ succ v, R w (d + 1)) :
    ∀ (fuel : Nat) (q : List (String × Nat)) (V : List String)
      (acc anc' : JsMap Nat),
    bfsGo present succ fuel q V acc = some anc' →
    q.Pairwise (fun a b => a.2 ≤ b.2) →
    (∀ a ∈ q, ∀ b ∈ q, b.2 ≤ a.2 + 1) →
    (∀ p ∈ acc, ∀ a ∈ q, p.2 ≤ a.2) →
    (∀ p ∈ acc, p.1 ∈ V) →
    (∀ v ∈ V, present v = true → ∃ dv, jget acc v = some dv) →
    (∀ p ∈ acc, ∀ w ∈ succ p.1,
      (∃ d', d' ≤ p.2 + 1 ∧ (w, d') ∈ q)
      ∨ (present w = true → ∃ dw, dw ≤ p.2 + 1 ∧ jget acc w = some dw)) →
    (∀ a ∈ q, R a.1 a.2) →
    (∀ p ∈ acc, R p.1 p.2 ∧ present p.1 = true) →
    ((∀ v dv, jget acc v = some dv → jget anc' v = some dv)
    ∧ (∀ a ∈ q, present a.1 = true → ∃ d', d' ≤ a.2 ∧ jget anc' a.1 = some d')
    ∧ (∀ v dv, jget anc' v = some dv → R v dv ∧ present v = true)
    ∧ (∀ v dv, jget anc' v = some dv → ∀ w ∈ succ v, present w = true →
        ∃ dw, dw ≤ dv + 1 ∧ jget anc' w = some dw)) := by
  intro fuel
  induction fuel with
  | zero =>
    intro q V acc anc' hrun I1 I1s I2 I3 I4 I5 IQ IA
    exact Option.noConfusion hrun
  | succ f ih =>
    intro q V acc anc' hrun I1 I1s I2 I3 I4 I5 IQ IA
    match q with
    | [] =>
      have hacc : acc = anc' := Option.some_inj.mp hrun
      subst hacc
      refine ⟨fun v dv h => h, ?_, ?_, ?_⟩
      · intro a ha
        exact absurd ha (List.not_mem_nil a)
      · intro v dv h
        exact IA (v, dv) (jget_mem_entry acc v dv h)
      · intro v dv h w hw hpw
        have hm := jget_mem_entry acc v dv h
        rcases I5 (v, dv) hm w hw with ⟨d', _, hmem⟩ | h2
        · exact absurd hmem (List.not_mem_nil _)
        · exact h2 hpw
    | (v, d) :: rest =>
      rw [bfsGo_cons] at hrun
      have hhead : ((v, d) : String × Nat) ∈ (v, d) :: rest :=
        List.mem_cons_self _ _
      have I1' : rest.Pairwise (fun a b => a.2 ≤ b.2) :=
        (List.pairwise_cons.mp I1).2
      have I1hd : ∀ b ∈ rest, d ≤ b.2 := by
        intro b hb
        exact (List.pairwise_cons.mp I1).1 b hb
      have I1s' : ∀ a ∈ rest, ∀ b ∈ rest, b.2 ≤ a.2 + 1 := fun a ha b hb =>
        I1s a (List.mem_cons_of_mem _ ha) b (List.mem_cons_of_mem _ hb)
      have I2' : ∀ p ∈ acc, ∀ a ∈ rest, p.2 ≤ a.2 := fun p hp a ha =>
        I2 p hp a (List.mem_cons_of_mem _ ha)
      by_cases hvV : V.contains v = true
      · rw [if_pos hvV] at hrun
        have hvMem : v ∈ V := by simpa using hvV
        have I5' : ∀ p ∈ acc, ∀ w ∈ succ p.1,
            (∃ d', d' ≤ p.2 + 1 ∧ (w, d') ∈ rest)
            ∨ (present w = true →
                ∃ dw, dw ≤ p.2 + 1 ∧ jget acc w = some dw) := by
          intro p hp w hw
          rcases I5 p hp w hw with ⟨d', hd', hmem⟩ | h2
          · rcases List.mem_cons.mp hmem with he | hmem2
            · have hw_v : w = v := congrArg Prod.fst he
              have hd_d : d' = d := congrArg Prod.snd he
              right
              intro hpw
              obtain ⟨dv2, hj⟩ := I4 v hvMem (hw_v ▸ hpw)
              have hle : dv2 ≤ d :=
                I2 (v, dv2) (jget_mem_entry acc v dv2 hj) (v, d) hhead
              refine ⟨dv2, by omega, ?_⟩
              rw [hw_v]
              exact hj
            · exact Or.inl ⟨d', hd', hmem2⟩
          · exact Or.inr h2
        have IQ' : ∀ a ∈ rest, R a.1 a.2 := fun a ha =>
          IQ a (List.mem_cons_of_mem _ ha)
        obtain ⟨c1, c2, c3, c4⟩ :=
          ih rest V acc anc' hrun I1' I1s' I2' I3 I4 I5' IQ' IA
        refine ⟨c1, ?_, c3, c4⟩
        intro a ha hpa
        rcases List.mem_cons.mp ha with he | ha2
        · subst he
          obtain ⟨dv2, hj⟩ := I4 v hvMem hpa
          have hle : dv2 ≤ d :=
            I2 (v, dv2) (jget_mem_entry acc v dv2 hj) (v, d) hhead
          exact ⟨dv2, hle, c1 v dv2 hj⟩
        · exact c2 a ha2 hpa
      · rw [if_neg hvV] at hrun
        have hvNot : v ∉ V := by
          intro hmem
          exact hvV (by simpa using hmem)
        by_cases hpv : present v = true
        · rw [if_pos hpv] at hrun
          have hvKey : jget acc v = none := by
            cases hk : jget acc v with
            | none => rfl
            | some dv =>
              exact absurd (I3 (v, dv) (jget_mem_entry acc v dv hk)) hvNot
          have hjhas : jhas acc v = false := by
            cases hh : jhas acc v with
            | false => rfl
            | true =>
              have := (jhas_iff_jget_isSome acc v).mp hh
              rw [hvKey] at this
              exact absurd this (by simp)
          have haccEq : jset acc v d = acc ++ [(v, d)] :=
            jset_absent acc v d hjhas
          have hjv : jget (jset acc v d) v = some d := jget_jset_self acc v d
          have hjne : ∀ u, u ≠ v → jget (jset acc v d) u = jget acc u := by
            intro u hu
            exact jget_jset_ne acc v u d hu
          have hmemAcc' : ∀ p, p ∈ jset acc v d → p ∈ acc ∨ p = (v, d) := by
            intro p hp
            rw [haccEq] at hp
            rcases List.mem_append.mp hp with h1 | h1
            · exact Or.inl h1
            · exact Or.inr (List.mem_singleton.mp h1)
          have hnews : ∀ b ∈ (succ v).map (fun w => (w, d + 1)), b.2 = d + 1 :=
            fun b hb => mem_map_snd (succ v) (d + 1) b hb
          have I1n : ((rest ++ (succ v).map (fun w => (w, d + 1)))).Pairwise
              (fun a b => a.2 ≤ b.2) := by
            rw [List.pairwise_append]
            refine ⟨I1', pairs_map_pairwise (succ v) (d + 1), ?_⟩
            intro a ha b hb
            have h1 := I1s (v, d) hhead a (List.mem_cons_of_mem _ ha)
            rw [hnews b hb]
            omega
          have I1sn : ∀ a ∈ rest ++ (succ v).map (fun w => (w, d + 1)),
              ∀ b ∈ rest ++ (succ v).map (fun w => (w, d + 1)),
              b.2 ≤ a.2 + 1 := by
            intro a ha b hb
            rcases List.mem_append.mp ha with ha1 | ha1 <;>
              rcases List.mem_append.mp hb with hb1 | hb1
            · exact I1s' a ha1 b hb1
            · rw [hnews b hb1]
              have := I1hd a ha1
              omega
            · have h1 := I1s (v, d) hhead b (List.mem_cons_of_mem _ hb1)
              rw [hnews a ha1]
              omega
            · rw [hnews a ha1, hnews b hb1]
              omega
          have I2n : ∀ p ∈ jset acc v d,
              ∀ a ∈ rest ++ (succ v).map (fun w => (w, d + 1)), p.2 ≤ a.2 := by
            intro p hp a ha
            rcases hmemAcc' p hp with h1 | h1
            · rcases List.mem_append.mp ha with ha1 | ha1
              · exact I2' p h1 a ha1
              · rw [hnews a ha1]
                have := I2 p h1 (v, d) hhead
                omega
            · subst h1
              rcases List.mem_append.mp ha with ha1 | ha1
              · exact I1hd a ha1
              · rw [hnews a ha1]
                omega
          have I3n : ∀ p ∈ jset acc v d, p.1 ∈ v :: V := by
            intro p hp
            rcases hmemAcc' p hp with h1 | h1
            · exact List.mem_cons_of_mem _ (I3 p h1)
            · subst h1
              exact List.mem_cons_self _ _
          have I4n : ∀ u ∈ v :: V, present u = true →
              ∃ du, jget (jset acc v d) u = some du := by
            intro u hu hpu
            rcases List.mem_cons.mp hu with he | hu2
            · subst he
              exact ⟨d, hjv⟩
            · obtain ⟨du, hdu⟩ := I4 u hu2 hpu
              have hune : u ≠ v := fun he => hvNot (he ▸ hu2)
              exact ⟨du, by rw [hjne u hune]; exact hdu⟩
          have I5n : ∀ p ∈ jset acc v d, ∀ w ∈ succ p.1,
              (∃ d', d' ≤ p.2 + 1
                ∧ (w, d') ∈ rest ++ (succ v).map (fun w => (w, d + 1)))
              ∨ (present w = true →
                  ∃ dw, dw ≤ p.2 + 1 ∧ jget (jset acc v d) w = some dw) := by
            intro p hp w hw
            rcases hmemAcc' p hp with h1 | h1
            · rcases I5 p h1 w hw with ⟨d', hd', hmem⟩ | h2
              · rcases List.mem_cons.mp hmem with he | hmem2
                · have hw_v : w = v := congrArg Prod.fst he
                  have hd_d : d' = d := congrArg Prod.snd he
                  right
                  intro _
                  refine ⟨d, by omega, ?_⟩
                  rw [hw_v]
                  exact hjv
                · exact Or.inl ⟨d', hd', List.mem_append.mpr (Or.inl hmem2)⟩
              · right
                intro hpw
                obtain ⟨dw, hdw, hj⟩ := h2 hpw
                have hwne : w ≠ v := by
                  intro he
                  rw [he, hvKey] at hj
                  exact Option.noConfusion hj
                exact ⟨dw, hdw, by rw [hjne w hwne]; exact hj⟩
            · subst h1
              left
              refine ⟨d + 1, Nat.le_refl _, ?_⟩
              apply List.mem_append.mpr
              right
              exact List.mem_map.mpr ⟨w, hw, rfl⟩
          have IQn : ∀ a ∈ rest ++ (succ v).map (fun w => (w, d + 1)),
              R a.1 a.2 := by
            intro a ha
            rcases List.mem_append.mp ha with ha1 | ha1
            · exact IQ a (List.mem_cons_of_mem _ ha1)
            · obtain ⟨w, hwmem, hweq⟩ := List.mem_map.mp ha1
              rw [← hweq]
              exact hR v d (IQ (v, d) hhead) hpv w hwmem
          have IAn : ∀ p ∈ jset acc v d, R p.1 p.2 ∧ present p.1 = true := by
            intro p hp
            rcases hmemAcc' p hp with h1 | h1
            · exact IA p h1
            · subst h1
              exact ⟨IQ (v, d) hhead, hpv⟩
          obtain ⟨c1, c2, c3, c4⟩ :=
            ih (rest ++ (succ v).map (fun w => (w, d + 1))) (v :: V)
              (jset acc v d) anc' hrun I1n I1sn I2n I3n I4n I5n IQn IAn
          refine ⟨?_, ?_, c3, c4⟩
          · intro u du hu
            have hune : u ≠ v := by
              intro he
              rw [he, hvKey] at hu
              exact Option.noConfusion hu
            apply c1
            rw [hjne u hune]
            exact hu
          · intro a ha hpa
            rcases List.mem_cons.mp ha with he | ha2
            · subst he
              exact ⟨d, Nat.le_refl _, c1 v d hjv⟩
            · exact c2 a (List.mem_append.mpr (Or.inl ha2)) hpa
        · rw [if_neg hpv] at hrun
          have hpv2 : present v = false := Bool.of_not_eq_true hpv
          have I3n : ∀ p ∈ acc, p.1 ∈ v :: V := fun p hp =>
            List.mem_cons_of_mem _ (I3 p hp)
          have I4n : ∀ u ∈ v :: V, present u = true →
              ∃ du, jget acc u = some du := by
            intro u hu hpu
            rcases List.mem_cons.mp hu with he | hu2
            · subst he
              rw [hpv2] at hpu
              exact absurd hpu (by simp)
            · exact I4 u hu2 hpu
          have I5n : ∀ p ∈ acc, ∀ w ∈ succ p.1,
              (∃ d', d' ≤ p.2 + 1 ∧ (w, d') ∈ rest)
              ∨ (present w = true →
                  ∃ dw, dw ≤ p.2 + 1 ∧ jget acc w = some dw) := by
            intro p hp w hw
            rcases I5 p hp w hw with ⟨d', hd', hmem⟩ | h2
            · rcases List.mem_cons.mp hmem with he | hmem2
              · have hw_v : w = v := congrArg Prod.fst he
                right
                intro hpw
                rw [hw_v, hpv2] at hpw
                exact absurd hpw (by simp)
              · exact Or.inl ⟨d', hd', hmem2⟩
            · exact Or.inr h2
          have IQ' : ∀ a ∈ rest, R a.1 a.2 := fun a ha =>
            IQ a (List.mem_cons_of_mem _ ha)
          obtain ⟨c1, c2, c3, c4⟩ :=
            ih rest (v :: V) acc anc' hrun I1' I1s' I2' I3n I4n I5n IQ' IA
          refine ⟨c1, ?_, c3, c4⟩
          intro a ha hpa
          rcases List.mem_cons.mp ha with he | ha2
          · subst he
            rw [hpv2] at hpa
            exact absurd hpa (by simp)
          · exact c2 a ha2 hpa

theorem reach_trans (present : String → Bool) (succ : String → List String)
    (s u v : String) (m n : Nat) (h1 : Reach present succ s m u)
    (h2 : Reach present succ u n v) :
    Reach present succ s (m + n) v := by
  induction h2 with
  | refl => exact h1
  | step hr hp hw ih => exact Reach.step ih hp hw

theorem reach_zero (present : String → Bool) (succ : String → List String)
    (s v : String) (h : Reach present succ s 0 v) : v = s := by
  cases h
  rfl

theorem bfsGo_char (present : String → Bool) (succ : String → List String)
    (s : String) (fuel : Nat) (anc' : JsMap Nat)
    (hrun : bfsGo present succ fuel [(s, 0)] [] [] = some anc') :
    (∀ v dv, jget anc' v = some dv →
      Reach present succ s dv v ∧ present v = true)
    ∧ (∀ n v, Reach present succ s n v → present v = true →
        ∃ d, d ≤ n ∧ jget anc' v = some d) := by
  obtain ⟨c1, c2, c3, c4⟩ := bfs_master present succ
    (fun v d => Reach present succ s d v)
    (fun v d hr hp w hw => Reach.step hr hp hw)
    fuel [(s, 0)] [] [] anc' hrun
    (List.pairwise_singleton _ _)
    (by
      intro a ha b hb
      have ha2 : a = (s, 0) := List.mem_singleton.mp ha
      have hb2 : b = (s, 0) := List.mem_singleton.mp hb
      subst ha2
      subst hb2
      omega)
    (fun p hp => absurd hp (List.not_mem_nil p))
    (fun p hp => absurd hp (List.not_mem_nil p))
    (fun v hv => absurd hv (List.not_mem_nil v))
    (fun p hp => absurd hp (List.not_mem_nil p))
    (by
      intro a ha
      have ha2 : a = (s, 0) := List.mem_singleton.mp ha
      subst ha2
      exact Reach.refl)
    (fun p hp => absurd hp (List.not_mem_nil p))
  refine ⟨c3, ?_⟩
  intro n v hreach
  induction hreach with
  | refl =>
    intro hps
    obtain ⟨d', hd', hj⟩ := c2 (s, 0) (List.mem_singleton.mpr rfl) hps
    exact ⟨d', hd', hj⟩
  | step hr hpu hw ihstep =>
    intro hpw
    obtain ⟨du, hdu, hju⟩ := ihstep hpu
    obtain ⟨dw, hdw, hjw⟩ := c4 _ du hju _ hw hpw
    exact ⟨dw, by omega, hjw⟩

theorem bfsGo_min (present : String → Bool) (succ : String → List String)
    (s : String) (fuel : Nat) (anc' : JsMap Nat)
    (hrun : bfsGo present succ fuel [(s, 0)] [] [] = some anc')
    (v : String) (d : Nat) (hj : jget anc' v = some d) :
    ∀ n, Reach present succ s n v → d ≤ n := by
  intro n hreach
  obtain ⟨h1, h2⟩ := bfsGo_char present succ s fuel anc' hrun
  obtain ⟨d', hd', hj'⟩ := h2 n v hreach (h1 v d hj).2
  rw [hj] at hj'
  have : d = d' := Option.some_inj.mp hj'
  omega

theorem bfsGo_visited_stable (present : String → Bool)
    (succ : String → List String) :
    ∀ (fuel : Nat) (q : List (String × Nat)) (V : List String)
      (acc anc' : JsMap Nat),
    bfsGo present succ fuel q V acc = some anc' →
    ∀ u ∈ V, jget anc' u = jget acc u := by
  intro fuel
  induction fuel with
  | zero =>
    intro q V acc anc' hrun
    exact absurd hrun (Option.noConfusion hrun)
  | succ f ih =>
    intro q V acc anc' hrun u hu
    match q with
    | [] =>
      have : acc = anc' := Option.some_inj.mp hrun
      rw [← this]
    | (v, d) :: rest =>
      rw [bfsGo_cons] at hrun
      by_cases hvV : V.contains v = true
      · rw [if_pos hvV] at hrun
        exact ih rest V acc anc' hrun u hu
      · rw [if_neg hvV] at hrun
        have hvne : u ≠ v := by
          intro he
          exact hvV (by subst he; simpa using hu)
        by_cases hpv : present v = true
        · rw [if_pos hpv] at hrun
          have := ih _ _ _ anc' hrun u (List.mem_cons_of_mem _ hu)
          rw [this]
          exact jget_jset_ne acc v u d hvne
        · rw [if_neg hpv] at hrun
          exact ih rest (v :: V) acc anc' hrun u (List.mem_cons_of_mem _ hu)

theorem bfsGo_keys_nodup (present : String → Bool)
    (succ : String → List String) :
    ∀ (fuel : Nat) (q : List (String × Nat)) (V : List String)
      (acc anc' : JsMap Nat),
    bfsGo present succ fuel q V acc = some anc' →
    (acc.map Prod.fst).Nodup →
    (anc'.map Prod.fst).Nodup := by
  intro fuel
  induction fuel with
  | zero =>
    intro q V acc anc' hrun
    exact absurd hrun (Option.noConfusion hrun)
  | succ f ih =>
    intro q V acc anc' hrun hnd
    match q with
    | [] =>
      have : acc = anc' := Option.some_inj.mp hrun
      rw [← this]
      exact hnd
    | (v, d) :: rest =>
      rw [bfsGo_cons] at hrun
      by_cases hvV : V.contains v = true
      · rw [if_pos hvV] at hrun
        exact ih rest V acc anc' hrun hnd
      · rw [if_neg hvV] at hrun
        by_cases hpv : present v = true
        · rw [if_pos hpv] at hrun
          apply ih _ _ _ anc' hrun
          by_cases hjh : jhas acc v = true
          · have hc : (acc.any fun p => p.1 == v) = true := hjh
            unfold jset
            rw [if_pos hc]
            have : (acc.map (fun p => if p.1 == v then (v, d) else p)).map Prod.fst
                = acc.map Prod.fst := by
              rw [List.map_map]
              apply List.map_congr_left
              intro p _
              by_cases hp : (p.1 == v) = true
              · simp [Function.comp, hp]
                exact (eq_of_beq hp).symm
              · simp [Function.comp, hp]
            rw [this]
            exact hnd
          · have hjh2 : jhas acc v = false := Bool.of_not_eq_true hjh
            rw [jset_absent acc v d hjh2, List.map_append]
            apply List.Nodup.append hnd (List.nodup_singleton v)
            intro a ha hb
            have hb2 : a = v := by simpa using hb
            subst hb2
            obtain ⟨p, hp, hpe⟩ := List.mem_map.mp ha
            have : jhas acc a = true := by
              apply List.any_eq_true.mpr
              exact ⟨p, hp, by rw [hpe]; exact beq_self_eq_true a⟩
            rw [hjh2] at this
            exact Bool.noConfusion this
        · rw [if_neg hpv] at hrun
          exact ih rest (v :: V) acc anc' hrun hnd

theorem nodup_keys_jget {α : Type} :
    ∀ (m : JsMap α), (m.map Prod.fst).Nodup →
    ∀ p ∈ m, jget m p.1 = some p.2 := by
  intro m
  induction m with
  | nil =>
    intro _ p hp
    exact absurd hp (List.not_mem_nil p)
  | cons x t ih =>
    intro hnd p hp
    have hnd1 : (x.1 :: t.map Prod.fst).Nodup := hnd
    have hnd2 := List.nodup_cons.mp hnd1
    rcases List.mem_cons.mp hp with he | hmem
    · subst he
      unfold jget
      rw [find?_cons_pos (fun q : String × α => q.1 == p.1) p t
        (beq_self_eq_true p.1)]
      rfl
    · have hne : (x.1 == p.1) = false := by
        cases hb : x.1 == p.1 with
        | false => rfl
        | true =>
          exfalso
          apply hnd2.1
          rw [eq_of_beq hb]
          exact List.mem_map.mpr ⟨p, hmem, rfl⟩
      unfold jget
      rw [find?_cons_neg (fun q : String × α => q.1 == p.1) x t hne]
      exact ih hnd2.2 p hmem

theorem bfsGo_isSome (present : String → Bool) (succ : String → List String)
    (keys : List String) (c : String → Nat)
    (hc : ∀ v, present v = true →
      (v ∈ keys ∧ (succ v).length + 1 ≤ c v) ∨ succ v = []) :
    ∀ (fuel : Nat) (q : List (String × Nat)) (visited : List String)
      (acc : JsMap Nat),
    q.length + unvisitedWeight keys c visited < fuel →
    (bfsGo present succ fuel q visited acc).isSome = true := by
  intro fuel
  induction fuel with
  | zero =>
    intro q v a h
    exact absurd h (Nat.not_lt_zero _)
  | succ f ih =>
    intro q visited acc h
    match q with
    | [] => rfl
    | (v, d) :: rest =>
      rw [bfsGo_cons]
      rw [List.length_cons] at h
      by_cases hv : visited.contains v = true
      · rw [if_pos hv]
        apply ih
        omega
      · rw [if_neg hv]
        have hv2 : visited.contains v = false := Bool.of_not_eq_true hv
        by_cases hpv : present v = true
        · rw [if_pos hpv]
          rcases hc v hpv with ⟨hmem, hcost⟩ | hempty
          · have hlt := unvisitedWeight_cons_lt keys c visited v hmem hv2
            apply ih
            rw [List.length_append, List.length_map]
            omega
          · have hle := unvisitedWeight_cons_le keys c visited v
            apply ih
            rw [hempty]
            simp only [List.map_nil, List.append_nil]
            omega
        · rw [if_neg hpv]
          have hle := unvisitedWeight_cons_le keys c visited v
          apply ih
          omega

theorem upPushD_eq (person : Person) (rest : List DEntry) (dep : Nat) :
    ((if person.mid ≠ "" then
        (if person.fid ≠ "" then rest ++ [⟨person.fid, dep + 1⟩] else rest)
          ++ [⟨person.mid, dep + 1⟩]
      else (if person.fid ≠ "" then rest ++ [⟨person.fid, dep + 1⟩] else rest))
      : List DEntry).map (fun e => (e.id, e.depth))
    = rest.map (fun e => (e.id, e.depth))
      ++ (parentsOf person).map (fun w => (w, dep + 1)) := by
  unfold parentsOf
  by_cases h1 : person.fid ≠ "" <;> by_cases h2 : person.mid ≠ "" <;>
    simp [h1, h2, List.map_append, List.append_assoc]

theorem ancestorsGo_bisim (pm : JsMap Person) :
    ∀ (fuel : Nat) (q : List DEntry) (V : List String) (anc : JsMap Nat),
    getAncestorsGo pm fuel q V anc
      = bfsGo (hasRec pm) (succUp pm) fuel
          (q.map (fun e => (e.id, e.depth))) V anc := by
  intro fuel
  induction fuel with
  | zero => intro q V anc; rfl
  | succ f ih =>
    intro q V anc
    match q with
    | [] => rfl
    | current :: rest =>
      rw [getAncestorsGo_cons]
      have hmap : (current :: rest).map (fun e => (e.id, e.depth))
          = (current.id, current.depth)
            :: rest.map (fun e => (e.id, e.depth)) := rfl
      rw [hmap, bfsGo_cons]
      by_cases hv : V.contains current.id = true
      · rw [if_pos hv, if_pos hv]
        exact ih rest V anc
      · rw [if_neg hv, if_neg hv]
        cases hjg : jget pm current.id with
        | none =>
          have hpres : hasRec pm current.id = false := by
            unfold hasRec
            rw [hjg]
            rfl
          rw [hpres, if_neg (by simp)]
          exact ih rest (current.id :: V) anc
        | some person =>
          have hpres : hasRec pm current.id = true := by
            unfold hasRec
            rw [hjg]
            rfl
          have hsucc : succUp pm current.id = parentsOf person := by
            unfold succUp
            rw [hjg]
          rw [hpres, if_pos rfl, hsucc,
            ← upPushD_eq person rest current.depth]
          exact ih _ _ _

theorem getAncestors_run (st : Store) (id : String) :
    bfsGo (hasRec st.peopleMap) (succUp st.peopleMap)
      (ancWeight st.peopleMap [] + 2) [(id, 0)] [] []
      = some (getAncestors st id) := by
  have hs := getAncestorsGo_isSome st.peopleMap
    (ancWeight st.peopleMap [] + 2) [⟨id, 0⟩] [] []
    (by rw [List.length_singleton]; omega)
  have hb := ancestorsGo_bisim st.peopleMap
    (ancWeight st.peopleMap [] + 2) [⟨id, 0⟩] [] []
  cases hr : getAncestorsGo st.peopleMap
      (ancWeight st.peopleMap [] + 2) [⟨id, 0⟩] [] [] with
  | none =>
    rw [hr] at hs
    exact absurd hs (by simp)
  | some r =>
    rw [hr] at hb
    unfold getAncestors
    rw [hr]
    exact hb.symm

theorem forall2_maps {β γ : Type} (Rel : β → γ → Prop) (l : List String)
    (f : String → β) (g : String → γ) (h : ∀ w ∈ l, Rel (f w) (g w)) :
    List.Forall₂ Rel (l.map f) (l.map g) := by
  induction l with
  | nil => exact List.Forall₂.nil
  | cons x xs ih =>
    exact List.Forall₂.cons (h x (List.mem_cons_self x xs))
      (ih (fun w hw => h w (List.mem_cons_of_mem x hw)))

theorem forall2_append {β γ : Type} {Rel : β → γ → Prop}
    {l₁ u₁ : List β} {l₂ u₂ : List γ} (h1 : List.Forall₂ Rel l₁ l₂)
    (h2 : List.Forall₂ Rel u₁ u₂) :
    List.Forall₂ Rel (l₁ ++ u₁) (l₂ ++ u₂) := by
  induction h1 with
  | nil => exact h2
  | cons hx ht ih => exact List.Forall₂.cons hx ih

theorem upPushP_eq (person : Person) (rest : List PEntry)
    (path : List String) :
    (if person.mid ≠ "" then
        (if person.fid ≠ "" then
          rest ++ [⟨person.fid, path ++ [person.fid]⟩] else rest)
          ++ [⟨person.mid, path ++ [person.mid]⟩]
      else (if person.fid ≠ "" then
        rest ++ [⟨person.fid, path ++ [person.fid]⟩] else rest))
    = rest ++ (parentsOf person).map
        (fun w => (⟨w, path ++ [w]⟩ : PEntry)) := by
  unfold parentsOf
  by_cases h1 : person.fid ≠ "" <;> by_cases h2 : person.mid ≠ "" <;>
    simp [h1, h2, List.append_assoc]

theorem pathSimUp (pm : JsMap Person) (target : String) :
    ∀ (fuel : Nat) (qP : List PEntry) (qL : List (String × Nat))
      (V : List String) (acc anc' : JsMap Nat),
    List.Forall₂ (fun (e : PEntry) (a : String × Nat) =>
      e.id = a.1 ∧ e.path.length = a.2 + 1) qP qL →
    bfsGo (hasRec pm) (succUp pm) fuel qL V acc = some anc' →
    target ∉ V →
    jget acc target = none →
    ∀ dT, jget anc' target = some dT →
    ∃ path, getAncestorPathGo pm target fuel qP V = some (some path)
      ∧ path.length = dT + 1 := by
  intro fuel
  induction fuel with
  | zero =>
    intro qP qL V acc anc' hf2 hrun
    exact absurd hrun (Option.noConfusion hrun)
  | succ f ih =>
    intro qP qL V acc anc' hf2 hrun hTV hTacc dT hjT
    cases hf2 with
    | nil =>
      have hacc : acc = anc' := Option.some_inj.mp hrun
      rw [← hacc, hTacc] at hjT
      exact absurd hjT (Option.noConfusion hjT)
    | @cons e a restP restL hrel hrest =>
      obtain ⟨v, d⟩ := a
      have hid : e.id = v := hrel.1
      have hlen : e.path.length = d + 1 := hrel.2
      subst hid
      rw [getAncestorPathGo_cons]
      rw [bfsGo_cons] at hrun
      by_cases hvV : V.contains e.id = true
      · rw [if_pos hvV]
        rw [if_pos hvV] at hrun
        exact ih restP restL V acc anc' hrest hrun hTV hTacc dT hjT
      · rw [if_neg hvV]
        rw [if_neg hvV] at hrun
        by_cases hvT : e.id = target
        · rw [if_pos hvT]
          refine ⟨e.path, rfl, ?_⟩
          by_cases hpt : hasRec pm e.id = true
          · rw [if_pos hpt] at hrun
            have hstable := bfsGo_visited_stable _ _ f _ _ _ anc' hrun e.id
              (List.mem_cons_self _ _)
            rw [jget_jset_self] at hstable
            rw [hvT, hjT] at hstable
            have hdd : dT = d := Option.some_inj.mp hstable
            rw [hlen, hdd]
          · rw [if_neg hpt] at hrun
            have hstable := bfsGo_visited_stable _ _ f _ _ _ anc' hrun e.id
              (List.mem_cons_self _ _)
            rw [hvT, hTacc, hjT] at hstable
            exact absurd hstable (Option.noConfusion hstable)
        · rw [if_neg hvT]
          have hTV2 : target ∉ e.id :: V := by
            intro hm
            rcases List.mem_cons.mp hm with he2 | hm2
            · exact hvT he2.symm
            · exact hTV hm2
          cases hjg : jget pm e.id with
          | none =>
            have hpres : hasRec pm e.id = false := by
              unfold hasRec
              rw [hjg]
              rfl
            rw [hpres, if_neg (by simp)] at hrun
            exact ih restP restL (e.id :: V) acc anc' hrest hrun hTV2 hTacc dT hjT
          | some person =>
            have hpres : hasRec pm e.id = true := by
              unfold hasRec
              rw [hjg]
              rfl
            have hsucc : succUp pm e.id = parentsOf person := by
              unfold succUp
              rw [hjg]
            rw [hpres, if_pos rfl, hsucc] at hrun
            have hTacc2 : jget (jset acc e.id d) target = none := by
              rw [jget_jset_ne acc e.id target d (fun he => hvT he.symm)]
              exact hTacc
            have hf2n : List.Forall₂ (fun (e : PEntry) (a : String × Nat) =>
                e.id = a.1 ∧ e.path.length = a.2 + 1)
                (restP ++ (parentsOf person).map
                  (fun w => (⟨w, e.path ++ [w]⟩ : PEntry)))
                (restL ++ (parentsOf person).map (fun w => (w, d + 1))) := by
              apply forall2_append hrest
              apply forall2_maps
              intro w _
              refine ⟨rfl, ?_⟩
              rw [List.length_append, hlen]
              rfl
            obtain ⟨path, hpath, hplen⟩ :=
              ih _ _ (e.id :: V) (jset acc e.id d) anc' hf2n hrun hTV2 hTacc2 dT hjT
            refine ⟨path, ?_, hplen⟩
            rw [← upPushP_eq person restP e.path] at hpath
            exact hpath

theorem pathSimDown (cm : JsMap (List String)) (target : String) :
    ∀ (fuel : Nat) (qP : List PEntry) (qL : List (String × Nat))
      (V : List String) (acc anc' : JsMap Nat),
    List.Forall₂ (fun (e : PEntry) (a : String × Nat) =>
      e.id = a.1 ∧ e.path.length = a.2 + 1) qP qL →
    bfsGo (fun _ => true) (succDown cm) fuel qL V acc = some anc' →
    target ∉ V →
    jget acc target = none →
    ∀ dT, jget anc' target = some dT →
    ∃ path, getDescendantPathGo cm target fuel qP V = some (some path)
      ∧ path.length = dT + 1 := by
  intro fuel
  induction fuel with
  | zero =>
    intro qP qL V acc anc' hf2 hrun
    exact absurd hrun (Option.noConfusion hrun)
  | succ f ih =>
    intro qP qL V acc anc' hf2 hrun hTV hTacc dT hjT
    cases hf2 with
    | nil =>
      have hacc : acc = anc' := Option.some_inj.mp hrun
      rw [← hacc, hTacc] at hjT
      exact absurd hjT (Option.noConfusion hjT)
    | @cons e a restP restL hrel hrest =>
      obtain ⟨v, d⟩ := a
      have hid : e.id = v := hrel.1
      have hlen : e.path.length = d + 1 := hrel.2
      subst hid
      rw [getDescendantPathGo_cons]
      rw [bfsGo_cons] at hrun
      by_cases hvV : V.contains e.id = true
      · rw [if_pos hvV]
        rw [if_pos hvV] at hrun
        exact ih restP restL V acc anc' hrest hrun hTV hTacc dT hjT
      · rw [if_neg hvV]
        rw [if_neg hvV] at hrun
        rw [if_pos rfl] at hrun
        by_cases hvT : e.id = target
        · rw [if_pos hvT]
          refine ⟨e.path, rfl, ?_⟩
          have hstable := bfsGo_visited_stable _ _ f _ _ _ anc' hrun e.id
            (List.mem_cons_self _ _)
          rw [jget_jset_self] at hstable
          rw [hvT, hjT] at hstable
          have hdd : dT = d := Option.some_inj.mp hstable
          rw [hlen, hdd]
        · rw [if_neg hvT]
          have hTV2 : target ∉ e.id :: V := by
            intro hm
            rcases List.mem_cons.mp hm with he2 | hm2
            · exact hvT he2.symm
            · exact hTV hm2
          have hTacc2 : jget (jset acc e.id d) target = none := by
            rw [jget_jset_ne acc e.id target d (fun he => hvT he.symm)]
            exact hTacc
          apply ih _ _ (e.id :: V) (jset acc e.id d) anc' ?_ hrun hTV2 hTacc2 dT hjT
          apply forall2_append hrest
          apply forall2_maps
          intro w _
          refine ⟨rfl, ?_⟩
          rw [List.length_append, hlen]
          rfl

theorem buildMaps_fst (records : List Person) :
    (buildMaps records).1
      = records.foldl (fun m r => jset m r.id r) [] := by
  have h : ∀ (rs : List Person) (pm0 : JsMap Person) (cm0 : JsMap (List String)),
      (rs.foldl (fun maps person =>
          (jset maps.1 person.id person, childStep maps.2 person))
        (pm0, cm0)).1
        = rs.foldl (fun m r => jset m r.id r) pm0 := by
    intro rs
    induction rs with
    | nil => intro pm0 cm0; rfl
    | cons r rest ih => intro pm0 cm0; exact ih _ _
  exact h records [] []

theorem jget_foldl_jset_absent (records : List Person) :
    ∀ (m0 : JsMap Person) (u : String), (∀ r ∈ records, r.id ≠ u) →
    jget (records.foldl (fun m r => jset m r.id r) m0) u = jget m0 u := by
  induction records with
  | nil => intro m0 u _; rfl
  | cons x xs ih =>
    intro m0 u habs
    rw [List.foldl_cons]
    rw [ih (jset m0 x.id x) u (fun r hr => habs r (List.mem_cons_of_mem x hr))]
    exact jget_jset_ne m0 x.id u x
      (fun he => habs x (List.mem_cons_self x xs) he.symm)

theorem jget_foldl_jset_mem (records : List Person)
    (hnd : (records.map Person.id).Nodup) (r : Person) (hm : r ∈ records) :
    ∀ (m0 : JsMap Person),
    jget (records.foldl (fun m q => jset m q.id q) m0) r.id = some r := by
  induction records with
  | nil => exact absurd hm (List.not_mem_nil r)
  | cons x xs ih =>
    intro m0
    have hnd1 : (x.id :: xs.map Person.id).Nodup := hnd
    have hnd2 := List.nodup_cons.mp hnd1
    rw [List.foldl_cons]
    rcases List.mem_cons.mp hm with he | hmem
    · subst he
      rw [jget_foldl_jset_absent xs (jset m0 r.id r) r.id
        (by
          intro q hq he
          exact hnd2.1 (he ▸ List.mem_map.mpr ⟨q, hq, rfl⟩))]
      exact jget_jset_self m0 r.id r
    · exact ih hnd2.2 hmem (jset m0 x.id x)

theorem jget_foldl_jset_inv (records : List Person) :
    ∀ (m0 : JsMap Person) (u : String) (r : Person),
    jget (records.foldl (fun m q => jset m q.id q) m0) u = some r →
    jget m0 u = some r ∨ (r ∈ records ∧ r.id = u) := by
  induction records with
  | nil =>
    intro m0 u r h
    exact Or.inl h
  | cons x xs ih =>
    intro m0 u r h
    rw [List.foldl_cons] at h
    rcases ih (jset m0 x.id x) u r h with h1 | h1
    · by_cases he : u = x.id
      · subst he
        rw [jget_jset_self] at h1
        have hx : x = r := Option.some_inj.mp h1
        subst hx
        exact Or.inr ⟨List.mem_cons_self x xs, rfl⟩
      · rw [jget_jset_ne m0 x.id u x he] at h1
        exact Or.inl h1
    · exact Or.inr ⟨List.mem_cons_of_mem x h1.1, h1.2⟩

theorem jget_buildPeople_some (records : List Person) (g0 : JsMap String)
    (hnd : (records.map Person.id).Nodup) (r : Person) (hm : r ∈ records) :
    jget (buildLookups records g0).peopleMap r.id = some r := by
  show jget (buildMaps records).1 r.id = some r
  rw [buildMaps_fst]
  exact jget_foldl_jset_mem records hnd r hm []

theorem jget_buildPeople_inv (records : List Person) (g0 : JsMap String)
    (u : String) (r : Person)
    (h : jget (buildLookups records g0).peopleMap u = some r) :
    r ∈ records ∧ r.id = u := by
  have h2 : jget (buildMaps records).1 u = some r := h
  rw [buildMaps_fst] at h2
  rcases jget_foldl_jset_inv records [] u r h2 with h3 | h3
  · exact absurd h3 (by simp [jget])
  · exact h3

theorem mem_childrenSpec (records : List Person) (p u : String) :
    u ∈ childrenSpec records p
      ↔ ∃ r ∈ records, r.id = u
          ∧ ((r.fid ≠ "" ∧ r.fid = p) ∨ (r.mid ≠ "" ∧ r.mid = p)) := by
  induction records with
  | nil =>
    constructor
    · intro h
      exact absurd h (List.not_mem_nil u)
    · rintro ⟨r, hr, _⟩
      exact absurd hr (List.not_mem_nil r)
  | cons x xs ih =>
    have hcs : childrenSpec (x :: xs) p = childContrib p x ++ childrenSpec xs p := by
      simp [childrenSpec]
    rw [hcs]
    constructor
    · intro h
      rcases List.mem_append.mp h with h1 | h1
      · refine ⟨x, List.mem_cons_self x xs, ?_⟩
        unfold childContrib at h1
        by_cases hf : x.fid ≠ "" ∧ x.fid = p
        · by_cases hm : x.mid ≠ "" ∧ x.mid = p
          · rw [if_pos hf, if_pos hm] at h1
            have : u = x.id := by
              rcases List.mem_append.mp h1 with h2 | h2 <;> simpa using h2
            exact ⟨this.symm, Or.inl hf⟩
          · rw [if_pos hf, if_neg hm, List.append_nil] at h1
            have : u = x.id := by simpa using h1
            exact ⟨this.symm, Or.inl hf⟩
        · by_cases hm : x.mid ≠ "" ∧ x.mid = p
          · rw [if_neg hf, if_pos hm, List.nil_append] at h1
            have : u = x.id := by simpa using h1
            exact ⟨this.symm, Or.inr hm⟩
          · rw [if_neg hf, if_neg hm] at h1
            exact absurd h1 (List.not_mem_nil u)
      · obtain ⟨r, hr, hru, hcond⟩ := ih.mp h1
        exact ⟨r, List.mem_cons_of_mem x hr, hru, hcond⟩
    · rintro ⟨r, hr, hru, hcond⟩
      rcases List.mem_cons.mp hr with he | hmem
      · subst he
        apply List.mem_append.mpr
        left
        unfold childContrib
        rcases hcond with hc | hc
        · rw [if_pos hc]
          rcases Classical.em (r.mid ≠ "" ∧ r.mid = p) with hm | hm
          · rw [if_pos hm]
            rw [← hru]
            exact List.mem_append.mpr (Or.inl (List.mem_singleton.mpr rfl))
          · rw [if_neg hm, List.append_nil, ← hru]
            exact List.mem_singleton.mpr rfl
        · rcases Classical.em (r.fid ≠ "" ∧ r.fid = p) with hf | hf
          · rw [if_pos hf, if_pos hc, ← hru]
            exact List.mem_append.mpr (Or.inr (List.mem_singleton.mpr rfl))
          · rw [if_neg hf, if_pos hc, List.nil_append, ← hru]
            exact List.mem_singleton.mpr rfl
      · apply List.mem_append.mpr
        right
        exact ih.mpr ⟨r, hmem, hru, hcond⟩

theorem mem_succDown_built (records : List Person) (g0 : JsMap String)
    (p u : String) :
    u ∈ succDown (buildLookups records g0).childrenMap p
      ↔ u ∈ childrenSpec records p := by
  unfold succDown
  rw [buildLookups_childrenMap records g0 p]
  unfold combineOpt
  by_cases hsp : childrenSpec records p = []
  · rw [if_pos hsp, hsp]
    constructor
    · intro h
      exact absurd h (List.not_mem_nil u)
    · intro h
      exact absurd h (List.not_mem_nil u)
  · rw [if_neg hsp]
    show u ∈ jsSortStrings ([] ++ childrenSpec records p) ↔ _
    rw [List.nil_append]
    exact (jsSortStrings_perm (childrenSpec records p)).mem_iff

theorem mem_parentsOf (r : Person) (p : String) :
    p ∈ parentsOf r
      ↔ (r.fid ≠ "" ∧ r.fid = p) ∨ (r.mid ≠ "" ∧ r.mid = p) := by
  unfold parentsOf
  by_cases hf : r.fid ≠ "" <;> by_cases hm : r.mid ≠ "" <;>
    simp [hf, hm] <;> constructor <;> intro h <;> tauto

theorem edgeDual (records : List Person) (g0 : JsMap String)
    (hnd : (records.map Person.id).Nodup) (u p : String) :
    (hasRec (buildLookups records g0).peopleMap u = true
      ∧ p ∈ succUp (buildLookups records g0).peopleMap u)
      ↔ u ∈ succDown (buildLookups records g0).childrenMap p := by
  rw [mem_succDown_built records g0 p u, mem_childrenSpec records p u]
  constructor
  · rintro ⟨hh, hp⟩
    unfold hasRec at hh
    cases hjg : jget (buildLookups records g0).peopleMap u with
    | none =>
      rw [hjg] at hh
      exact absurd hh (by simp)
    | some r =>
      obtain ⟨hrm, hru⟩ := jget_buildPeople_inv records g0 u r hjg
      have hp2 : p ∈ parentsOf r := by
        unfold succUp at hp
        rw [hjg] at hp
        exact hp
      refine ⟨r, hrm, hru, ?_⟩
      rcases (mem_parentsOf r p).mp hp2 with hc | hc
      · exact Or.inl hc
      · exact Or.inr hc
  · rintro ⟨r, hrm, hru, hcond⟩
    have hjg : jget (buildLookups records g0).peopleMap u = some r := by
      rw [← hru]
      exact jget_buildPeople_some records g0 hnd r hrm
    constructor
    · unfold hasRec
      rw [hjg]
      rfl
    · unfold succUp
      rw [hjg]
      exact (mem_parentsOf r p).mpr hcond

theorem reach_succ_inv (present : String → Bool) (succ : String → List String)
    (s : String) (n : Nat) (v : String)
    (h : Reach present succ s (n + 1) v) :
    ∃ u, Reach present succ s n u ∧ present u = true ∧ v ∈ succ u := by
  cases h with
  | step hr hp hw => exact ⟨_, hr, hp, hw⟩

theorem reach_dual_mp (records : List Person) (g0 : JsMap String)
    (hnd : (records.map Person.id).Nodup) :
    ∀ (n : Nat) (a b : String),
    Reach (hasRec (buildLookups records g0).peopleMap)
      (succUp (buildLookups records g0).peopleMap) a n b →
    Reach (fun _ => true) (succDown (buildLookups records g0).childrenMap)
      b n a := by
  intro n
  induction n with
  | zero =>
    intro a b h
    have : b = a := reach_zero _ _ a b h
    subst this
    exact Reach.refl
  | succ m ih =>
    intro a b h
    obtain ⟨u, hu, hpu, hbu⟩ := reach_succ_inv _ _ a m b h
    have hedge : u ∈ succDown (buildLookups records g0).childrenMap b :=
      (edgeDual records g0 hnd u b).mp ⟨hpu, hbu⟩
    have h1 : Reach (fun _ => true)
        (succDown (buildLookups records g0).childrenMap) b 1 u :=
      Reach.step Reach.refl rfl hedge
    have h2 := reach_trans _ _ b u a 1 m h1 (ih a u hu)
    have harith : 1 + m = m + 1 := by omega
    rw [harith] at h2
    exact h2

theorem reach_dual_mpr (records : List Person) (g0 : JsMap String)
    (hnd : (records.map Person.id).Nodup) :
    ∀ (n : Nat) (a b : String),
    Reach (fun _ => true) (succDown (buildLookups records g0).childrenMap)
      b n a →
    Reach (hasRec (buildLookups records g0).peopleMap)
      (succUp (buildLookups records g0).peopleMap) a n b := by
  intro n
  induction n with
  | zero =>
    intro a b h
    have : a = b := reach_zero _ _ b a h
    subst this
    exact Reach.refl
  | succ m ih =>
    intro a b h
    obtain ⟨w, hw, _, haw⟩ := reach_succ_inv _ _ b m a h
    obtain ⟨hha, hwa⟩ := (edgeDual records g0 hnd a w).mpr haw
    have h1 : Reach (hasRec (buildLookups records g0).peopleMap)
        (succUp (buildLookups records g0).peopleMap) a 1 w :=
      Reach.step Reach.refl hha hwa
    have h2 := reach_trans _ _ a w b 1 m h1 (ih w b hw)
    have harith : 1 + m = m + 1 := by omega
    rw [harith] at h2
    exact h2

theorem foldl_bestStep_none_inv (a2 : JsMap Nat) :
    ∀ (a1 : List (String × Nat)) (best : Option (String × Nat)),
    List.foldl (bestStep a2) best a1 = none →
    best = none ∧ ∀ p ∈ a1, jget a2 p.1 = none := by
  intro a1
  induction a1 with
  | nil =>
    intro best h
    rw [List.foldl_nil] at h
    exact ⟨h, fun p hp => absurd hp (List.not_mem_nil p)⟩
  | cons p t ih =>
    intro best h
    rw [List.foldl_cons] at h
    obtain ⟨hstep, hall⟩ := ih (bestStep a2 best p) h
    cases hjg : jget a2 p.1 with
    | none =>
      have hb : bestStep a2 best p = best := by
        unfold bestStep
        rw [hjg]
      rw [hb] at hstep
      refine ⟨hstep, ?_⟩
      intro q hq
      rcases List.mem_cons.mp hq with he | hq2
      · subst he
        exact hjg
      · exact hall q hq2
    | some dd =>
      exfalso
      unfold bestStep at hstep
      rw [hjg] at hstep
      cases best with
      | none => exact Option.noConfusion hstep
      | some b =>
        obtain ⟨b1, b2⟩ := b
        have hstep2 : (if p.2 + dd < b2 then some (p.1, p.2 + dd)
            else some (b1, b2)) = (none : Option (String × Nat)) := hstep
        by_cases hlt : p.2 + dd < b2
        · rw [if_pos hlt] at hstep2
          exact Option.noConfusion hstep2
        · rw [if_neg hlt] at hstep2
          exact Option.noConfusion hstep2

theorem findBestAncestor_some_of_common (a1 a2 : JsMap Nat)
    (hcom : ∃ p ∈ a1, (jget a2 p.1).isSome = true) :
    ∃ c dist, findBestAncestor a1 a2 = some (c, dist) := by
  cases hf : findBestAncestor a1 a2 with
  | some cd => exact ⟨cd.1, cd.2, rfl⟩
  | none =>
    exfalso
    obtain ⟨p, hp, hs⟩ := hcom
    obtain ⟨_, hall⟩ := foldl_bestStep_none_inv a2 a1 none hf
    rw [hall p hp] at hs
    exact absurd hs (by simp)

theorem findBest_isCommonMin (a1 a2 : JsMap Nat) (c : String) (dist : Nat)
    (h : findBestAncestor a1 a2 = some (c, dist)) :
    ∃ d1 d2, (c, d1) ∈ a1 ∧ jget a2 c = some d2 ∧ dist = d1 + d2
      ∧ IsCommonMinEntry a1 a2 (c, d1) := by
  obtain ⟨l, d1, r, d2, happ, hg, hsum, hl, hr⟩ :=
    bestStep_foldl_none_start a2 a1 c dist h
  have hcmem : (c, d1) ∈ a1 := by
    rw [happ]
    exact List.mem_append.mpr (Or.inr (List.mem_cons_self _ _))
  refine ⟨d1, d2, hcmem, hg, hsum, ?_, ?_⟩
  · rw [hg]
    rfl
  · intro q hq hqs
    cases hqe : jget a2 q.1 with
    | none =>
      rw [hqe] at hqs
      exact absurd hqs (by simp)
    | some e =>
      show d1 + (jget a2 c).getD 0 ≤ q.2 + (some e).getD 0
      rw [hg]
      show d1 + d2 ≤ q.2 + e
      rw [happ] at hq
      rcases List.mem_append.mp hq with hq1 | hq1
      · have := hl q hq1 e hqe
        omega
      · rcases List.mem_cons.mp hq1 with he2 | hq2
        · subst he2
          rw [hg] at hqe
          have : d2 = e := Option.some_inj.mp hqe
          omega
        · exact hsum ▸ hr q hq2 e hqe

theorem findBest_sym (a1 a2 : JsMap Nat)
    (hnd1 : (a1.map Prod.fst).Nodup) (hnd2 : (a2.map Prod.fst).Nodup)
    (hun : UniqueCommonMin a1 a2) (c c2 : String) (dist dist2 : Nat)
    (h1 : findBestAncestor a1 a2 = some (c, dist))
    (h2 : findBestAncestor a2 a1 = some (c2, dist2)) :
    c2 = c := by
  obtain ⟨d1, d2, hcmem, hg, hsum, hmin⟩ := findBest_isCommonMin a1 a2 c dist h1
  obtain ⟨e1, f1, hc2mem, hg2, hsum2, hmin2⟩ :=
    findBest_isCommonMin a2 a1 c2 dist2 h2
  have hc2a1 : (c2, f1) ∈ a1 := jget_mem_entry a1 c2 f1 hg2
  have hc2a2 : jget a2 c2 = some e1 := nodup_keys_jget a2 hnd2 (c2, e1) hc2mem
  have hmin2' : IsCommonMinEntry a1 a2 (c2, f1) := by
    constructor
    · show (jget a2 c2).isSome = true
      rw [hc2a2]
      rfl
    · intro q hq hqs
      cases hqe : jget a2 q.1 with
      | none =>
        rw [hqe] at hqs
        exact absurd hqs (by simp)
      | some e =>
        show f1 + (jget a2 c2).getD 0 ≤ q.2 + (some e).getD 0
        rw [hc2a2]
        show f1 + e1 ≤ q.2 + e
        have hqa2 : (q.1, e) ∈ a2 := jget_mem_entry a2 q.1 e hqe
        have hqa1 : jget a1 q.1 = some q.2 := nodup_keys_jget a1 hnd1 q hq
        have hle := hmin2.2 (q.1, e) hqa2 (by rw [hqa1]; rfl)
        have hgetd : (jget a1 c2).getD 0 = f1 := by
          rw [hg2]
          rfl
        have hgetd2 : (jget a1 (q.1, e).1).getD 0 = q.2 := by
          rw [hqa1]
          rfl
        rw [hgetd, hgetd2] at hle
        omega
  exact hun (c2, f1) hc2a1 (c, d1) hcmem hmin2' hmin

theorem getAncestors_keys_nodup (st : Store) (id : String) :
    ((getAncestors st id).map Prod.fst).Nodup :=
  bfsGo_keys_nodup (hasRec st.peopleMap) (succUp st.peopleMap)
    (ancWeight st.peopleMap [] + 2) [(id, 0)] [] [] (getAncestors st id)
    (getAncestors_run st id) List.nodup_nil

theorem getAncestorPath_of_levels (st : Store) (x A : String) (d : Nat)
    (hj : jget (getAncestors st x) A = some d) :
    ∃ p, getAncestorPath st x A = some p ∧ p.length = d + 1 := by
  obtain ⟨path, hgo, hlen⟩ := pathSimUp st.peopleMap A
    (ancWeight st.peopleMap [] + 2) [⟨x, [x]⟩] [(x, 0)] [] []
    (getAncestors st x)
    (List.Forall₂.cons ⟨rfl, rfl⟩ List.Forall₂.nil)
    (getAncestors_run st x) (List.not_mem_nil A) rfl d hj
  refine ⟨path, ?_, hlen⟩
  unfold getAncestorPath
  rw [hgo]
  rfl

theorem downRun_exists (st : Store) (A : String) :
    ∃ ancD, bfsGo (fun _ => true) (succDown st.childrenMap)
      (descWeight st.childrenMap [] + 2) [(A, 0)] [] [] = some ancD := by
  have hs := bfsGo_isSome (fun _ => true) (succDown st.childrenMap)
    (st.childrenMap.map Prod.fst)
    (fun k => ((jget st.childrenMap k).getD []).length + 1)
    (by
      intro v _
      cases hjg : jget st.childrenMap v with
      | none =>
        right
        unfold succDown
        rw [hjg]
        rfl
      | some l =>
        left
        constructor
        · exact jget_some_mem_keys st.childrenMap v l hjg
        · show (succDown st.childrenMap v).length + 1
            ≤ ((jget st.childrenMap v).getD []).length + 1
          unfold succDown
          rw [hjg])
    (descWeight st.childrenMap [] + 2) [(A, 0)] [] []
    (by
      show 1 + descWeight st.childrenMap [] < descWeight st.childrenMap [] + 2
      omega)
  cases hr : bfsGo (fun _ => true) (succDown st.childrenMap)
      (descWeight st.childrenMap [] + 2) [(A, 0)] [] [] with
  | none =>
    rw [hr] at hs
    exact absurd hs (by simp)
  | some ancD => exact ⟨ancD, rfl⟩

theorem getDescendantPath_of_levels (st : Store) (A y : String)
    (ancD : JsMap Nat)
    (hrun : bfsGo (fun _ => true) (succDown st.childrenMap)
      (descWeight st.childrenMap [] + 2) [(A, 0)] [] [] = some ancD)
    (d : Nat) (hj : jget ancD y = some d) :
    ∃ p, getDescendantPath st A y = some p ∧ p.length = d + 1 := by
  obtain ⟨path, hgo, hlen⟩ := pathSimDown st.childrenMap y
    (descWeight st.childrenMap [] + 2) [⟨A, [A]⟩] [(A, 0)] [] [] ancD
    (List.Forall₂.cons ⟨rfl, rfl⟩ List.Forall₂.nil)
    hrun (List.not_mem_nil y) rfl d hj
  refine ⟨path, ?_, hlen⟩
  unfold getDescendantPath
  rw [hgo]
  rfl

/-- C8 (counterexample): in a built store with two tied minimal-sum
common ancestors, Resolve(x, y) picks A while Resolve(y, x) picks B, the
pairs are (1, 3) both ways, and the claimed swap fails — even though the
ids are distinct non-partners with a common ancestor and the records are
duplicate-free. -/
theorem claim_C8_counterexample :
    "x" ≠ "y"
    ∧ (cexC8records.map Person.id).Nodup
    ∧ isPartnerOf cexC8store "x" "y" = false
    ∧ (∃ p ∈ getAncestors cexC8store "x",
        (jget (getAncestors cexC8store "y") p.1).isSome = true)
    ∧ ¬ UniqueCommonMin (getAncestors cexC8store "x")
        (getAncestors cexC8store "y")
    ∧ resolveUD cexC8store "x" "y" = some ("A", 1, 3)
    ∧ resolveUD cexC8store "y" "x" = some ("B", 1, 3)
    ∧ (∀ A u d, resolveUD cexC8store "x" "y" = some (A, u, d) →
        resolveUD cexC8store "y" "x" ≠ some (A, d, u)) := by
  refine ⟨by decide, by decide, by decide, by decide, by decide,
    by decide, by decide, ?_⟩
  intro A u d h1 h2
  have e1 : resolveUD cexC8store "x" "y" = some ("A", 1, 3) := by decide
  rw [e1] at h1
  have h3 := Option.some_inj.mp h1
  have hA : A = "A" := (congrArg Prod.fst h3).symm
  have hu : u = 1 := (congrArg (fun z : String × Int × Int => z.2.1) h3).symm
  have hd : d = 3 := (congrArg (fun z : String × Int × Int => z.2.2) h3).symm
  subst hA
  subst hu
  subst hd
  have e2 : resolveUD cexC8store "y" "x" = some ("B", 1, 3) := by decide
  rw [e2] at h2
  have h4 := Option.some_inj.mp h2
  exact absurd (congrArg Prod.fst h4) (by decide)

/-- C8 (amended): for a store built from duplicate-free records and
distinct non-partner truthy ids with a common ancestor, provided the
minimal-sum common ancestor is unique, both resolver directions select
that same ancestor and their generational distance pairs are swaps of
each other. -/
theorem claim_C8_amended (records : List Person) (g0 : JsMap String)
    (st : Store) (x y : String)
    (hst : st = buildLookups records g0)
    (hnd : (records.map Person.id).Nodup)
    (hx : x ≠ "") (_hy : y ≠ "") (_hxy : x ≠ y)
    (_hnp : isPartnerOf st x y = false)
    (hcom : ∃ p ∈ getAncestors st x,
      (jget (getAncestors st y) p.1).isSome = true)
    (hun : UniqueCommonMin (getAncestors st x) (getAncestors st y)) :
    ∃ A u d, resolveUD st x y = some (A, u, d)
      ∧ resolveUD st y x = some (A, d, u) := by
  subst hst
  obtain ⟨c, dist, hbest⟩ := findBestAncestor_some_of_common _ _ hcom
  have hnd1 := getAncestors_keys_nodup (buildLookups records g0) x
  have hnd2 := getAncestors_keys_nodup (buildLookups records g0) y
  have hcom2 : ∃ p ∈ getAncestors (buildLookups records g0) y,
      (jget (getAncestors (buildLookups records g0) x) p.1).isSome = true := by
    obtain ⟨p, hp, hs⟩ := hcom
    cases hjg : jget (getAncestors (buildLookups records g0) y) p.1 with
    | none =>
      rw [hjg] at hs
      exact absurd hs (by simp)
    | some e =>
      refine ⟨(p.1, e), jget_mem_entry _ _ _ hjg, ?_⟩
      show (jget (getAncestors (buildLookups records g0) x) p.1).isSome = true
      rw [nodup_keys_jget _ hnd1 p hp]
      rfl
  obtain ⟨c2, dist2, hbest2⟩ := findBestAncestor_some_of_common _ _ hcom2
  have hc2c : c2 = c :=
    findBest_sym _ _ hnd1 hnd2 hun c c2 dist dist2 hbest hbest2
  subst hc2c
  obtain ⟨d1, d2, hcmem, hg2, hsum, hmin⟩ :=
    findBest_isCommonMin _ _ c2 dist hbest
  have hg1 : jget (getAncestors (buildLookups records g0) x) c2 = some d1 :=
    nodup_keys_jget _ hnd1 (c2, d1) hcmem
  have hcne : c2 ≠ "" :=
    getAncestors_keys_ne (buildLookups records g0) x hx (c2, d1) hcmem
  obtain ⟨pUpX, hUpX, hUpXlen⟩ :=
    getAncestorPath_of_levels (buildLookups records g0) x c2 d1 hg1
  obtain ⟨pUpY, hUpY, hUpYlen⟩ :=
    getAncestorPath_of_levels (buildLookups records g0) y c2 d2 hg2
  have hchar1 := bfsGo_char _ _ x _ _
    (getAncestors_run (buildLookups records g0) x)
  have hchar2 := bfsGo_char _ _ y _ _
    (getAncestors_run (buildLookups records g0) y)
  obtain ⟨ancD, hrunD⟩ := downRun_exists (buildLookups records g0) c2
  have hcharD := bfsGo_char _ _ c2 _ _ hrunD
  have hreachY := (hchar2.1 c2 d2 hg2).1
  have hreachDY := reach_dual_mp records g0 hnd d2 y c2 hreachY
  obtain ⟨dD, hdDle, hjD⟩ := hcharD.2 d2 y hreachDY rfl
  have hreachD' := (hcharD.1 y dD hjD).1
  have hreachY' := reach_dual_mpr records g0 hnd dD y c2 hreachD'
  have hd2le : d2 ≤ dD :=
    bfsGo_min _ _ y _ _ (getAncestors_run (buildLookups records g0) y)
      c2 d2 hg2 dD hreachY'
  have hjD2 : jget ancD y = some d2 := by
    have hdd : dD = d2 := by omega
    rw [← hdd]
    exact hjD
  have hreachX := (hchar1.1 c2 d1 hg1).1
  have hreachDX := reach_dual_mp records g0 hnd d1 x c2 hreachX
  obtain ⟨dDx, hdDxle, hjDx⟩ := hcharD.2 d1 x hreachDX rfl
  have hreachDX' := (hcharD.1 x dDx hjDx).1
  have hreachX' := reach_dual_mpr records g0 hnd dDx x c2 hreachDX'
  have hd1le : d1 ≤ dDx :=
    bfsGo_min _ _ x _ _ (getAncestors_run (buildLookups records g0) x)
      c2 d1 hg1 dDx hreachX'
  have hjDx2 : jget ancD x = some d1 := by
    have hdd : dDx = d1 := by omega
    rw [← hdd]
    exact hjDx
  obtain ⟨pDownY, hDownY, hDownYlen⟩ :=
    getDescendantPath_of_levels (buildLookups records g0) c2 y ancD hrunD
      d2 hjD2
  obtain ⟨pDownX, hDownX, hDownXlen⟩ :=
    getDescendantPath_of_levels (buildLookups records g0) c2 x ancD hrunD
      d1 hjDx2
  have hlen1 : (pUpX.length : Int) - 1 = (d1 : Int) := by
    rw [hUpXlen]
    push_cast
    ring
  have hlen2 : (pDownY.length : Int) - 1 = (d2 : Int) := by
    rw [hDownYlen]
    push_cast
    ring
  have hlen3 : (pUpY.length : Int) - 1 = (d2 : Int) := by
    rw [hUpYlen]
    push_cast
    ring
  have hlen4 : (pDownX.length : Int) - 1 = (d1 : Int) := by
    rw [hDownXlen]
    push_cast
    ring
  refine ⟨c2, (d1 : Int), (d2 : Int), ?_, ?_⟩
  · unfold resolveUD
    simp only [hbest]
    rw [if_neg hcne]
    simp only [hUpX, hDownY]
    rw [hlen1, hlen2]
  · unfold resolveUD
    simp only [hbest2]
    rw [if_neg hcne]
    simp only [hUpY, hDownX]
    rw [hlen3, hlen4]

/-- C8 (witness): the amended statement at the three-generation chain
with x = C and y = B: both directions select B with distances (1, 0) and
(0, 1) respectively. -/
theorem claim_C8_witness :
    ∃ A u d, resolveUD witChainStore "C" "B" = some (A, u, d)
      ∧ resolveUD witChainStore "B" "C" = some (A, d, u) :=
  claim_C8_amended witChainRecords [] witChainStore "C" "B" rfl
    (by decide) (by decide) (by decide) (by decide) (by decide)
    (by decide) (by decide)

end FamilyTree
